import Mathlib

/-!
# Gateway: tiling layout and focus core

A shallow embedding of the layout engine (`panel_update`), the focus state
machine (`focus_view`, the unmap and destroy handlers) and the keybinding
dispatcher (`handle_keybinding`) of `src/gateway.c`, followed by theorems
about them.

Conventions of the embedding:

* `int32_t` and `int` fields are `Int`. Signed overflow is undefined in C and
  is outside the model; expressions that the C code evaluates in `uint32_t`
  (those that involve `window_gaps`) are reduced with `wrap32`.
* A `wl_list` is a `List` in iteration order (`head.next` first).
  `wl_list_insert(&list, e)` is a cons, `wl_list_insert(list.prev, e)` appends.
* A pointer to a view is the view's `id`; `NULL` is `none`.
* The program allocates exactly one panel (`main`), so a `focused_by` pointer
  is either `NULL` or that panel: it is a `Bool`.
* An array with its element count is a `List`: the field `stack_array` is the
  C field `stacks` and its length is the C field `stack_count`.
* Calls into the compositor library that do not change the state modelled here
  (activation notices, close and configure requests, process spawning) are
  left out.
-/

namespace Gateway

/-! ## Data model -/

/-- One tiling column, `struct gateway_panel_stack`. -/
structure gateway_panel_stack where
  width : Int
  height : Int
  current_y : Int
  current_x : Int
  max_items : Int
  item_count : Int
  mapped : Bool
deriving DecidableEq, Repr

instance : Inhabited gateway_panel_stack := ⟨⟨0, 0, 0, 0, 0, 0, false⟩⟩

/-- The fields of a `wlr_xdg_surface` the program reads: its `wlr_surface`
and the size limits of `toplevel->current`. -/
structure wlr_xdg_surface where
  surface : Nat
  min_width : Int
  min_height : Int
  max_width : Int
  max_height : Int
deriving DecidableEq, Repr

/-- The size hints of a foreign window, `wlr_xwayland_surface_size_hints`. -/
structure wlr_xwayland_surface_size_hints where
  min_width : Int
  min_height : Int
  max_width : Int
  max_height : Int
deriving DecidableEq, Repr

/-- The fields of a `wlr_xwayland_surface` the program reads. -/
structure wlr_xwayland_surface where
  surface : Nat
  override_redirect : Bool
  x : Int
  y : Int
  width : Int
  height : Int
  size_hints : Option wlr_xwayland_surface_size_hints
deriving DecidableEq, Repr

/-- A view, `struct tinywl_view`. `id` stands for the address of the struct. -/
structure tinywl_view where
  id : Nat
  xdg_surface : Option wlr_xdg_surface
  xwayland_surface : Option wlr_xwayland_surface
  x : Int
  y : Int
  width : Int
  height : Int
  is_fullscreen : Bool
  focused_by : Bool
  stack_index : Int
deriving DecidableEq, Repr

/-- An output, `struct tinywl_output`, with its entry of the output layout
(`layout_x`, `layout_y`) and the pixel size of its `wlr_output`. -/
structure tinywl_output where
  id : Nat
  layout_x : Int
  layout_y : Int
  width : Int
  height : Int
  stack_array : List Int
deriving DecidableEq, Repr

/-- A panel, `struct gateway_panel`. -/
structure gateway_panel where
  unmapped_views : List tinywl_view
  views : List tinywl_view
  redirect_views : List tinywl_view
  focused_view : Option Nat
  stack_array : List gateway_panel_stack
  main_output : Option Nat
  outputs : List tinywl_output
deriving DecidableEq, Repr

/-! ## Stack array access -/

/-- Read of `stacks[i]`. -/
def stack_at (sts : List gateway_panel_stack) (i : Nat) : gateway_panel_stack :=
  sts.getD i default

/-- Write of `stacks[i]` through `f`. -/
def stack_update (f : gateway_panel_stack → gateway_panel_stack) :
    List gateway_panel_stack → Nat → List gateway_panel_stack
  | [], _ => []
  | s :: rest, 0 => f s :: rest
  | s :: rest, i + 1 => s :: stack_update f rest i

/-- Effect of `item_count++`. -/
def incr_count (s : gateway_panel_stack) : gateway_panel_stack :=
  { s with item_count := s.item_count + 1 }

/-- Effect of `item_count--`. -/
def decr_count (s : gateway_panel_stack) : gateway_panel_stack :=
  { s with item_count := s.item_count - 1 }

/-- The item counts of a stack array, in index order. -/
def item_counts (sts : List gateway_panel_stack) : List Int :=
  sts.map (fun s => s.item_count)

/-- Reduction of an integer to the `int32_t` it becomes after `uint32_t`
arithmetic and conversion back to `int`. -/
def wrap32 (z : Int) : Int := (z + 2147483648) % 4294967296 - 2147483648

/-! ## The layout pass `panel_update` -/

/-- Whether output `output` claims stack `s`, `output_contains_stack`. -/
def output_contains_stack (output : tinywl_output) (s : Int) : Bool :=
  output.stack_array.any (fun t => decide (t = s))

/-- First loop of `panel_update`: every view gets `stack_index = -1`, and an
override-redirect foreign window takes the geometry its surface reports and is
moved to the front of the redirect list. Returns the managed list and the
redirect list. -/
def redirect_partition :
    List tinywl_view → List tinywl_view → List tinywl_view × List tinywl_view
  | [], redirect => ([], redirect)
  | v :: vs, redirect =>
    let v1 := { v with stack_index := -1 }
    match v.xwayland_surface with
    | some xw =>
      if xw.override_redirect then
        redirect_partition vs
          ({ v1 with x := xw.x, y := xw.y, width := xw.width, height := xw.height } :: redirect)
      else
        let r := redirect_partition vs redirect
        (v1 :: r.1, r.2)
    | none =>
      let r := redirect_partition vs redirect
      (v1 :: r.1, r.2)

/-- Second loop of `panel_update`, over the stack indices `i, i+1, ...`: a
mapped stack becomes `last_stack` and has its `item_count` reset; if the output
claims it, its geometry is set from the running `x`. Returns the stacks and
`last_stack`. -/
def geometry_reset (output : tinywl_output) :
    Nat → Int → Nat → List gateway_panel_stack → List gateway_panel_stack × Nat
  | _, _, last_stack, [] => ([], last_stack)
  | i, x, last_stack, s :: rest =>
    if !s.mapped then
      let r := geometry_reset output (i + 1) x last_stack rest
      (s :: r.1, r.2)
    else if !output_contains_stack output i then
      let r := geometry_reset output (i + 1) x i rest
      ({ s with item_count := 0 } :: r.1, r.2)
    else
      let w := Int.tdiv output.width output.stack_array.length
      let r := geometry_reset output (i + 1) (x + w) i rest
      ({ s with item_count := 0, current_y := output.layout_y, current_x := x,
                height := output.height, width := w } :: r.1, r.2)

/-- Third loop of `panel_update`: every view is put on `last_stack`. -/
def assign_last (last_stack : Nat) :
    List gateway_panel_stack → List tinywl_view → List gateway_panel_stack × List tinywl_view
  | sts, [] => (sts, [])
  | sts, v :: vs =>
    let r := assign_last last_stack (stack_update incr_count sts last_stack) vs
    (r.1, { v with stack_index := last_stack } :: r.2)

/-- The migration test of the rebalancing scan for candidate `i` and a view on
stack `sid`. -/
def qualifies (sts : List gateway_panel_stack) (i sid : Nat) : Bool :=
  (stack_at sts i).mapped &&
    (decide ((stack_at sts i).item_count < (stack_at sts i).max_items) &&
      (decide ((stack_at sts i).item_count + 2 ≤ (stack_at sts sid).item_count) ||
        decide ((stack_at sts i).item_count < 1)))

/-- The `for` loop of the rebalancing pass, `for (i = n - 1; i >= 0; i--)`:
the first qualifying index met going down from `n - 1`. -/
def scan_target (sts : List gateway_panel_stack) (sid : Nat) : Nat → Option Nat
  | 0 => none
  | i + 1 => if qualifies sts i sid then some i else scan_target sts sid i

/-- Effect of one migration from stack `src` to stack `dst`. -/
def move_view (sts : List gateway_panel_stack) (src dst : Nat) : List gateway_panel_stack :=
  stack_update incr_count (stack_update decr_count sts src) dst

/-- The `while (!is_done)` loop for one view that is on stack `idx`. Every
iteration that moves the view lowers its index, so `idx` iterations suffice. -/
def rebalance_while : Nat → List gateway_panel_stack → Nat → List gateway_panel_stack × Nat
  | 0, sts, idx => (sts, idx)
  | fuel + 1, sts, idx =>
    match scan_target sts idx idx with
    | none => (sts, idx)
    | some sid => rebalance_while fuel (move_view sts idx sid) sid

/-- Body of the rebalancing `wl_list_for_each` for one view. With a negative
`stack_index` the scan is empty and the loop stops at once. -/
def rebalance_view (sts : List gateway_panel_stack) (v : tinywl_view) :
    List gateway_panel_stack × tinywl_view :=
  if v.stack_index < 0 then (sts, v)
  else
    let r := rebalance_while v.stack_index.toNat sts v.stack_index.toNat
    (r.1, { v with stack_index := r.2 })

/-- The rebalancing pass, over the views in list order. -/
def rebalance_views :
    List gateway_panel_stack → List tinywl_view → List gateway_panel_stack × List tinywl_view
  | sts, [] => (sts, [])
  | sts, v :: vs =>
    let r := rebalance_view sts v
    let rest := rebalance_views r.1 vs
    (rest.1, r.2 :: rest.2)

/-- One migration of the rebalancing pass: the stack the view leaves, the
stack it goes to, and the stack array just before the move. -/
structure migration where
  src : Nat
  dst : Nat
  before : List gateway_panel_stack
deriving DecidableEq, Repr

/-- The migrations `rebalance_while` makes, in order. -/
def rebalance_while_moves : Nat → List gateway_panel_stack → Nat → List migration
  | 0, _, _ => []
  | fuel + 1, sts, idx =>
    match scan_target sts idx idx with
    | none => []
    | some sid => ⟨idx, sid, sts⟩ :: rebalance_while_moves fuel (move_view sts idx sid) sid

/-- The migrations `rebalance_view` makes, in order. -/
def rebalance_view_moves (sts : List gateway_panel_stack) (v : tinywl_view) : List migration :=
  if v.stack_index < 0 then []
  else rebalance_while_moves v.stack_index.toNat sts v.stack_index.toNat

/-- The migrations `rebalance_views` makes, in order. -/
def rebalance_views_moves : List gateway_panel_stack → List tinywl_view → List migration
  | _, [] => []
  | sts, v :: vs =>
    rebalance_view_moves sts v ++ rebalance_views_moves (rebalance_view sts v).1 vs

/-- Rectangle of one view in the last loop of `panel_update`. -/
def place_view (gaps : Nat) (output : tinywl_output) (st : gateway_panel_stack)
    (v : tinywl_view) : tinywl_view :=
  let h := Int.tdiv st.height st.item_count
  let v1 := { v with width := wrap32 (st.width - 2 * gaps), height := wrap32 (h - 2 * gaps),
                     x := wrap32 (st.current_x + gaps), y := wrap32 (st.current_y + gaps) }
  if v.is_fullscreen then
    { v1 with x := output.layout_x, y := output.layout_y,
              width := output.width, height := output.height }
  else v1

/-- Effect of `current_y += height` on a stack. -/
def advance_y (h : Int) (s : gateway_panel_stack) : gateway_panel_stack :=
  { s with current_y := s.current_y + h }

/-- Last loop of `panel_update`: the views on stacks of this output get
their rectangles and the layout cursor of their stack advances. -/
def layout_views (gaps : Nat) (output : tinywl_output) :
    List gateway_panel_stack → List tinywl_view → List gateway_panel_stack × List tinywl_view
  | sts, [] => (sts, [])
  | sts, v :: vs =>
    if !output_contains_stack output v.stack_index then
      let r := layout_views gaps output sts vs
      (r.1, v :: r.2)
    else
      let st := stack_at sts v.stack_index.toNat
      let h := Int.tdiv st.height st.item_count
      let sts1 := stack_update (advance_y h) sts v.stack_index.toNat
      let r := layout_views gaps output sts1 vs
      (r.1, place_view gaps output st v :: r.2)

/-- The layout pass, `panel_update(panel, output)`; `gaps` is
`output->server->config->window_gaps`. -/
def panel_update (gaps : Nat) (panel : gateway_panel) (output : tinywl_output) :
    gateway_panel :=
  let part := redirect_partition panel.views panel.redirect_views
  let reset := geometry_reset output 0 output.layout_x 0 panel.stack_array
  let assigned := assign_last reset.2 reset.1 part.1
  let balanced := rebalance_views assigned.1 assigned.2
  let placed := layout_views gaps output balanced.1 balanced.2
  { panel with views := placed.2, redirect_views := part.2, stack_array := placed.1 }

/-- The state of `panel_update` when its rebalancing pass has ended, before
the rectangles are computed: stacks and managed views. -/
def panel_update_balanced (panel : gateway_panel) (output : tinywl_output) :
    List gateway_panel_stack × List tinywl_view :=
  let part := redirect_partition panel.views panel.redirect_views
  let reset := geometry_reset output 0 output.layout_x 0 panel.stack_array
  let assigned := assign_last reset.2 reset.1 part.1
  rebalance_views assigned.1 assigned.2

/-- The migrations made by the rebalancing pass of `panel_update`. -/
def panel_update_moves (panel : gateway_panel) (output : tinywl_output) : List migration :=
  let part := redirect_partition panel.views panel.redirect_views
  let reset := geometry_reset output 0 output.layout_x 0 panel.stack_array
  let assigned := assign_last reset.2 reset.1 part.1
  rebalance_views_moves assigned.1 assigned.2

/-! ## The server state and the view lists -/

/-- The part of `struct tinywl_server` the focus and key handlers use.
`keyboard_focused_surface` is `seat->keyboard_state.focused_surface`,
`pointer_warps` lists the targets of the `wlr_cursor_warp` calls made so far,
latest first, `window_gaps` is `config->window_gaps` and `output_start` is the
static counter `start` of `server_new_output`. -/
structure tinywl_server where
  focused_panel : gateway_panel
  keyboard_focused_surface : Option Nat
  pointer_warps : List (Int × Int)
  window_gaps : Nat
  passthrough_enabled : Bool
  output_start : Int
deriving DecidableEq, Repr

/-- The server with its panel replaced. -/
def with_panel (server : tinywl_server) (p : gateway_panel) : tinywl_server :=
  { server with focused_panel := p }

/-- The three view lists of a panel. -/
inductive view_list where
  | managed
  | redirect
  | unmapped
deriving DecidableEq, Repr

/-- What a `wl_list` link of a view list points to: the head of one of the
panel's lists or the link of a view. -/
inductive wl_link where
  | head (l : view_list)
  | view (id : Nat)
deriving DecidableEq, Repr

/-- The views of one of the panel's lists. -/
def panel_list (p : gateway_panel) : view_list → List tinywl_view
  | view_list.managed => p.views
  | view_list.redirect => p.redirect_views
  | view_list.unmapped => p.unmapped_views

/-- The view a pointer refers to, looked up in the three lists. -/
def find_view (p : gateway_panel) (id : Nat) : Option tinywl_view :=
  (p.views ++ p.redirect_views ++ p.unmapped_views).find? (fun v => decide (v.id = id))

/-- Whether a list holds the view `id`. -/
def has_view (l : List tinywl_view) (id : Nat) : Bool :=
  l.any (fun v => decide (v.id = id))

/-- The list a view is linked into. -/
def list_of_view (p : gateway_panel) (id : Nat) : Option view_list :=
  if has_view p.views id then some view_list.managed
  else if has_view p.redirect_views id then some view_list.redirect
  else if has_view p.unmapped_views id then some view_list.unmapped
  else none

/-- The view after `id` in a list, if `id` is not the last one. -/
def next_in : List tinywl_view → Nat → Option Nat
  | [], _ => none
  | [_], _ => none
  | v :: w :: rest, id => if v.id = id then some w.id else next_in (w :: rest) id

/-- The view before `id` in a list, if `id` is not the first one. -/
def prev_in : List tinywl_view → Nat → Option Nat
  | [], _ => none
  | [_], _ => none
  | v :: w :: rest, id => if w.id = id then some v.id else prev_in (w :: rest) id

/-- The link `view->link.next` of a live view. -/
def link_next (p : gateway_panel) (id : Nat) : Option wl_link :=
  match list_of_view p id with
  | none => none
  | some l =>
    match next_in (panel_list p l) id with
    | some n => some (wl_link.view n)
    | none => some (wl_link.head l)

/-- The link `view->link.prev` of a live view. -/
def link_prev (p : gateway_panel) (id : Nat) : Option wl_link :=
  match list_of_view p id with
  | none => none
  | some l =>
    match prev_in (panel_list p l) id with
    | some n => some (wl_link.view n)
    | none => some (wl_link.head l)

/-- Applies `f` to the view `id`, in whichever list it is. -/
def update_view (id : Nat) (f : tinywl_view → tinywl_view) (p : gateway_panel) :
    gateway_panel :=
  { p with
    views := p.views.map (fun v => if v.id = id then f v else v),
    redirect_views := p.redirect_views.map (fun v => if v.id = id then f v else v),
    unmapped_views := p.unmapped_views.map (fun v => if v.id = id then f v else v) }

/-- Effect of `wl_list_remove(&view->link)`. -/
def unlink_view (id : Nat) (p : gateway_panel) : gateway_panel :=
  { p with
    views := p.views.filter (fun v => !decide (v.id = id)),
    redirect_views := p.redirect_views.filter (fun v => !decide (v.id = id)),
    unmapped_views := p.unmapped_views.filter (fun v => !decide (v.id = id)) }

/-- Effect of `wl_list_remove(&view->link)` followed by
`wl_list_insert(&panel->unmapped_views, &view->link)`. -/
def move_to_unmapped (id : Nat) (p : gateway_panel) : gateway_panel :=
  match find_view p id with
  | none => p
  | some v =>
    { unlink_view id p with unmapped_views := v :: (unlink_view id p).unmapped_views }

/-- The `wlr_surface` of a view as `focus_view` picks it: that of the foreign
window if there is one, else that of the shell surface. -/
def view_surface (v : tinywl_view) : Option Nat :=
  match v.xwayland_surface with
  | some xw => some xw.surface
  | none =>
    match v.xdg_surface with
    | some x => some x.surface
    | none => none

/-! ## Focus -/

/-- Effect of an assignment to `focused_by`: `true` for the panel, `false` for
`NULL`. -/
def set_focused_by (b : Bool) (u : tinywl_view) : tinywl_view :=
  { u with focused_by := b }

/-- The three assignments of `focus_view` to the focus fields: the
`focused_by` of the panel's focused view is cleared, the panel's focused view
becomes `id`, and the `focused_by` of `id` is set. -/
def refocus (p : gateway_panel) (id : Nat) : gateway_panel :=
  let p1 : gateway_panel :=
    match p.focused_view with
    | some f => update_view f (set_focused_by false) p
    | none => p
  update_view id (set_focused_by true) { p1 with focused_view := some id }

/-- The pointer warp of `focus_view`, to the centre of the view. -/
def warp_to (server : tinywl_server) (v : tinywl_view) : tinywl_server :=
  { server with pointer_warps :=
      (v.x + Int.tdiv v.width 2, v.y + Int.tdiv v.height 2) :: server.pointer_warps }

/-- The seat's keyboard focus after the activation step of `focus_view`:
`wlr_seat_keyboard_notify_enter` is called with the view's surface when the
view has a shell surface or a foreign window, and not at all otherwise. -/
def entered_surface (server : tinywl_server) (v : tinywl_view) : Option Nat :=
  match view_surface v with
  | some sf => some sf
  | none => server.keyboard_focused_surface

/-- The keyboard focus transition, `focus_view(view, panel, mouse_focus)`.
Every caller passes the single panel of the program, so the panel argument is
`server.focused_panel`. A pointer to a view that is in none of the lists is
not followed. -/
def focus_view (server : tinywl_server) (view : Option Nat) (mouse_focus : Bool) :
    tinywl_server :=
  match view with
  | none => server
  | some id =>
    match find_view server.focused_panel id with
    | none => server
    | some v =>
      let s1 : tinywl_server := if mouse_focus then server else warp_to server v
      if s1.keyboard_focused_surface = view_surface v then s1
      else
        { s1 with focused_panel := refocus s1.focused_panel id,
                  keyboard_focused_surface := entered_surface s1 v }

/-- The loop of `center_mouse`: `panel_update` for every output of the panel,
in list order. -/
def layout_outputs (gaps : Nat) (p : gateway_panel) : gateway_panel :=
  p.outputs.foldl (fun q o => panel_update gaps q o) p

/-- Lays out every output of the panel, then refocuses the panel's focused
view with a pointer warp, `center_mouse`. -/
def center_mouse (server : tinywl_server) : tinywl_server :=
  let p := layout_outputs server.window_gaps server.focused_panel
  focus_view (with_panel server p) p.focused_view false

/-- Moves a view to the front of the managed list, `move_to_front`. -/
def move_to_front (server : tinywl_server) (id : Nat) : tinywl_server :=
  match find_view server.focused_panel id with
  | none => server
  | some v =>
    { server with focused_panel :=
        { unlink_view id server.focused_panel with
          views := v :: (unlink_view id server.focused_panel).views } }

/-! ## Surface lifecycle -/

/-- A new shell surface, `server_new_xdg_surface`: the view is allocated
zeroed and linked at the front of the unmapped list. -/
def server_new_xdg_surface (server : tinywl_server) (id : Nat) (xdg : wlr_xdg_surface) :
    tinywl_server :=
  { server with focused_panel :=
      { server.focused_panel with unmapped_views :=
          { id := id, xdg_surface := some xdg, xwayland_surface := none, x := 0, y := 0,
            width := 0, height := 0, is_fullscreen := false, focused_by := false,
            stack_index := 0 } :: server.focused_panel.unmapped_views } }

/-- A new foreign window, `server_new_xwayland_surface`. -/
def server_new_xwayland_surface (server : tinywl_server) (id : Nat)
    (xw : wlr_xwayland_surface) : tinywl_server :=
  { server with focused_panel :=
      { server.focused_panel with unmapped_views :=
          { id := id, xdg_surface := none, xwayland_surface := some xw, x := 0, y := 0,
            width := 0, height := 0, is_fullscreen := false, focused_by := false,
            stack_index := 0 } :: server.focused_panel.unmapped_views } }

/-- Effect of `wl_list_remove(&view->link)` followed by
`wl_list_insert(panel->views.prev, &view->link)`: the view goes to the end of
the managed list. -/
def link_last (server : tinywl_server) (id : Nat) : tinywl_server :=
  match find_view server.focused_panel id with
  | none => server
  | some v =>
    { server with focused_panel :=
        { unlink_view id server.focused_panel with
          views := (unlink_view id server.focused_panel).views ++ [v] } }

/-- The map handler of a shell surface, `xdg_surface_map`. -/
def xdg_surface_map (server : tinywl_server) (id : Nat) : tinywl_server :=
  let s1 := link_last server id
  if s1.focused_panel.views.length ≤ 1 then center_mouse (focus_view s1 (some id) false)
  else s1

/-- The map handler of a foreign window, `xwayland_surface_map`. -/
def xwayland_surface_map (server : tinywl_server) (id : Nat) : tinywl_server :=
  let s1 := link_last server id
  if s1.focused_panel.views.length ≤ 1 then focus_view s1 (some id) false
  else s1

/-- Clears `view->focused_by`. -/
def clear_focused_by (server : tinywl_server) (id : Nat) : tinywl_server :=
  with_panel server (update_view id (set_focused_by false) server.focused_panel)

/-- The tail of the unmap handler after a neighbour `n` was chosen:
`focus_view(n)`, `view->focused_by = NULL`, `wl_list_remove`, `center_mouse`
and the final `wl_list_insert` into the unmapped list. The C code links the
view into the unmapped list after `center_mouse`; `center_mouse` never walks
that list and can still reach the unlinked view through
`panel->focused_view`, so the model links it before. -/
def unmap_refocus (server : tinywl_server) (id n : Nat) : tinywl_server :=
  let s1 := focus_view server (some n) false
  let s2 := clear_focused_by s1 id
  center_mouse (with_panel s2 (move_to_unmapped id s2.focused_panel))

/-- The unmap handler, `xdg_surface_unmap`; `xwayland_surface_unmap` has the
same body up to the removal of a listener. The result is `none` when the
handler follows a pointer the model does not follow: the view is in no list, or
`view->link.next` is the head of the redirect or unmapped list, which the C
code takes for the link of a view. -/
def xdg_surface_unmap (server : tinywl_server) (id : Nat) : Option tinywl_server :=
  match find_view server.focused_panel id with
  | none => none
  | some v =>
    if v.focused_by then
      match link_next server.focused_panel id with
      | none => none
      | some (wl_link.view n) => some (unmap_refocus server id n)
      | some (wl_link.head view_list.managed) =>
        if server.focused_panel.views.length > 1 then
          match link_prev server.focused_panel id with
          | some (wl_link.view n) => some (unmap_refocus server id n)
          | _ => none
        else
          let s1 := with_panel server { server.focused_panel with focused_view := none }
          let s2 := clear_focused_by s1 id
          some (with_panel s2 (move_to_unmapped id s2.focused_panel))
      | some (wl_link.head _) => none
    else
      some (with_panel server (move_to_unmapped id server.focused_panel))

/-- The unmap handler of a foreign window, `xwayland_surface_unmap`. -/
def xwayland_surface_unmap (server : tinywl_server) (id : Nat) : Option tinywl_server :=
  xdg_surface_unmap server id

/-- The destroy handler, `xdg_surface_destroy`: the view is unlinked and
freed. Nothing else is touched. -/
def xdg_surface_destroy (server : tinywl_server) (id : Nat) : tinywl_server :=
  { server with focused_panel := unlink_view id server.focused_panel }

/-- The destroy handler of a foreign window, `xwayland_surface_destroy`. -/
def xwayland_surface_destroy (server : tinywl_server) (id : Nat) : tinywl_server :=
  xdg_surface_destroy server id

/-! ## Outputs -/

/-- Effect of `mapped = true` on a stack. -/
def set_mapped (s : gateway_panel_stack) : gateway_panel_stack :=
  { s with mapped := true }

/-- The output registration, `server_new_output`, from the point where the
output is allocated: it joins the single panel, becomes the main output if
there is none, claims the stacks `start` and `start + 1`, and marks them
mapped. `output` carries the size and layout position the compositor library
gives the new output. A write past the end of the stack array is dropped. -/
def server_new_output (server : tinywl_server) (output : tinywl_output) : tinywl_server :=
  let o : tinywl_output :=
    { output with stack_array := [server.output_start, server.output_start + 1] }
  let p := server.focused_panel
  let main : Option Nat :=
    match p.main_output with
    | none => some o.id
    | some m => some m
  let p1 : gateway_panel := { p with main_output := main, outputs := o :: p.outputs }
  let marked : List gateway_panel_stack :=
    List.foldl (fun sts i => stack_update set_mapped sts (Int.toNat i)) p1.stack_array
      o.stack_array
  let p2 : gateway_panel := { p1 with stack_array := marked }
  { server with focused_panel := p2, output_start := server.output_start + 2 }

/-- The step after an output's frame, `panel_post_update`: every redirect view
is linked back at the front of the managed list. -/
def panel_post_update (panel : gateway_panel) : gateway_panel :=
  { panel with views := panel.redirect_views.reverse ++ panel.views, redirect_views := [] }

/-! ## Key bindings -/

/-- The value of `WLR_MODIFIER_SHIFT` in the compositor library's
`enum wlr_keyboard_modifier`. -/
def WLR_MODIFIER_SHIFT : Nat := 1

/-- The value of `WLR_MODIFIER_LOGO` in the compositor library's
`enum wlr_keyboard_modifier`. -/
def WLR_MODIFIER_LOGO : Nat := 64

/-- The cyclic list of links of one of the panel's lists, from its head. -/
def ring_of (p : gateway_panel) (l : view_list) : List wl_link :=
  wl_link.head l :: (panel_list p l).map (fun v => wl_link.view v.id)

/-- The cyclic list `ring` read from the link `a`. -/
def rotate_to (a : wl_link) : List wl_link → List wl_link → Option (List wl_link)
  | [], _ => none
  | x :: xs, acc => if x = a then some (x :: xs ++ acc.reverse) else rotate_to a xs (x :: acc)

/-- The pointer surgery `list_swap(a, b)` on a cyclic list in which `b`
follows `a`: the two links change places. On a cycle of fewer than 3 links, or
when `b` does not follow `a`, the C code leaves no well-formed list and the
result is `none`. -/
def list_swap (ring : List wl_link) (a b : wl_link) : Option (List wl_link) :=
  match rotate_to a ring [] with
  | some (x :: y :: z :: rest) => if y = b then some (y :: x :: z :: rest) else none
  | _ => none

/-- The views of a cyclic list of links read from the head `h`, the records
being looked up in `l`. -/
def ring_views (l : List tinywl_view) (h : wl_link) (ring : List wl_link) : List tinywl_view :=
  match rotate_to h ring [] with
  | some (_ :: rest) =>
    rest.filterMap (fun lk =>
      match lk with
      | wl_link.view id => l.find? (fun v => decide (v.id = id))
      | wl_link.head _ => none)
  | _ => l

/-- Replaces one of the panel's lists. -/
def set_panel_list (p : gateway_panel) (l : view_list) (vs : List tinywl_view) :
    gateway_panel :=
  match l with
  | view_list.managed => { p with views := vs }
  | view_list.redirect => { p with redirect_views := vs }
  | view_list.unmapped => { p with unmapped_views := vs }

/-- The view a cycle binding lands on: the link itself if it is a view, the
view after (`forward`) or before the head of the managed list if the link is
that head. The head of another list is not the link of a view. -/
def resolve_link (p : gateway_panel) (forward : Bool) : Option wl_link → Option Nat
  | some (wl_link.view n) => some n
  | some (wl_link.head view_list.managed) =>
    if forward then p.views.head?.map (fun v => v.id)
    else p.views.getLast?.map (fun v => v.id)
  | _ => none

/-- The two swap bindings: `list_swap` on the list the focused view `cur` is
linked into, with the link before it (`forward = false`) or after it, followed
by `center_mouse`. -/
def swap_binding (server : tinywl_server) (cur : Nat) (forward : Bool) :
    Option (Bool × tinywl_server) :=
  let p := server.focused_panel
  match list_of_view p cur with
  | none => none
  | some l =>
    let other := if forward then link_next p cur else link_prev p cur
    match other with
    | none => none
    | some o =>
      let swapped :=
        if forward then list_swap (ring_of p l) (wl_link.view cur) o
        else list_swap (ring_of p l) o (wl_link.view cur)
      match swapped with
      | none => none
      | some ring =>
        let p1 := set_panel_list p l (ring_views (panel_list p l) (wl_link.head l) ring)
        some (true, center_mouse { server with focused_panel := p1 })

/-- The key binding dispatcher, `handle_keybinding`. The result is `none` when
the C code does not return normally or follows a pointer the model does not
follow: key 1 (terminate, then `assert(0)`), a binding that dereferences a
`NULL` focused view, or a link that is the head of another list. -/
def handle_keybinding (server : tinywl_server) (keycode modifiers : Nat) :
    Option (Bool × tinywl_server) :=
  let p := server.focused_panel
  if server.passthrough_enabled && keycode != 88 then some (false, server)
  else if keycode = 88 then
    some (true, { server with passthrough_enabled := !server.passthrough_enabled })
  else if keycode = 1 then none
  else if keycode = 36 ∧ modifiers &&& WLR_MODIFIER_SHIFT = 0 then
    if p.views.length < 2 then some (false, server)
    else
      match p.focused_view with
      | none => none
      | some cur =>
        match resolve_link p false (link_prev p cur) with
        | none => none
        | some n => some (true, center_mouse (focus_view server (some n) false))
  else if keycode = 37 ∧ modifiers &&& WLR_MODIFIER_SHIFT = 0 then
    if p.views.length < 2 then some (false, server)
    else
      match p.focused_view with
      | none => none
      | some cur =>
        match resolve_link p true (link_next p cur) with
        | none => none
        | some n => some (true, center_mouse (focus_view server (some n) false))
  else if keycode = 38 then
    if p.views.length < 2 then some (false, server)
    else
      some (true, center_mouse
        (focus_view server (p.views.getLast?.map (fun v => v.id)) false))
  else if keycode = 36 ∧ modifiers &&& WLR_MODIFIER_SHIFT ≠ 0 then
    if p.views.length < 2 then some (false, server)
    else
      match p.focused_view with
      | none => none
      | some cur => swap_binding server cur false
  else if keycode = 37 ∧ modifiers &&& WLR_MODIFIER_SHIFT ≠ 0 then
    if p.views.length < 2 then some (false, server)
    else
      match p.focused_view with
      | none => none
      | some cur => swap_binding server cur true
  else if keycode = 49 then
    match p.focused_view with
    | none => some (true, server)
    | some cur => some (true, center_mouse (move_to_front server cur))
  else if keycode = 21 then
    match p.focused_view with
    | none => none
    | some cur =>
      let p1 := update_view cur (fun u => { u with is_fullscreen := !u.is_fullscreen }) p
      some (true, { server with focused_panel := p1 })
  else if keycode = 28 then some (true, server)
  else if keycode = 35 then some (true, server)
  else if keycode = 53 ∧ (decide (modifiers ≠ 0) && decide (WLR_MODIFIER_SHIFT ≠ 0)) = true then
    match p.focused_view with
    | none => some (false, server)
    | some cur =>
      match resolve_link p true (link_next p cur) with
      | none => none
      | some n =>
        let target : Option Nat := if n = cur then none else some n
        some (true, center_mouse
          { server with focused_panel := { p with focused_view := target } })
  else some (false, server)

/-! ## Predicates used in the statements -/

/-- Number of views of a list whose `stack_index` is `s`. -/
def views_on (vs : List tinywl_view) (s : Int) : Nat :=
  vs.countP (fun v => decide (v.stack_index = s))

/-- No stack below `t` passes the migration test for a view on stack `t`. -/
def settled (sts : List gateway_panel_stack) (t : Nat) : Prop :=
  ∀ i, i < t → qualifies sts i t = false

/-- The test of the redirect step: the view is a foreign window whose surface
is flagged override-redirect. -/
def is_override_redirect (v : tinywl_view) : Bool :=
  match v.xwayland_surface with
  | some xw => xw.override_redirect
  | none => false

/-- What identifies a view in the redirect step: its address and whether it
is an override-redirect window. -/
def view_tag (v : tinywl_view) : Nat × Bool := (v.id, is_override_redirect v)

/-- Panel `q` holds the same views as panel `p`, list by list and in the same
order. -/
def same_tags (p q : gateway_panel) : Prop :=
  q.views.map view_tag = p.views.map view_tag ∧
  q.redirect_views.map view_tag = p.redirect_views.map view_tag ∧
  q.unmapped_views.map view_tag = p.unmapped_views.map view_tag

/-- Sum of the `item_count`s of the mapped stacks. -/
def mapped_item_total (sts : List gateway_panel_stack) : Int :=
  ((sts.filter (fun s => s.mapped)).map (fun s => s.item_count)).sum

/-- The `stack_index` of view `v` is the index of a mapped stack. -/
def on_mapped_stack (sts : List gateway_panel_stack) (v : tinywl_view) : Prop :=
  0 ≤ v.stack_index ∧ (stack_at sts v.stack_index.toNat).mapped = true

instance (sts : List gateway_panel_stack) (v : tinywl_view) :
    Decidable (on_mapped_stack sts v) := by
  unfold on_mapped_stack
  infer_instance

/-- Two stack arrays that agree on what the rebalancing pass reads. -/
def same_load (a b : List gateway_panel_stack) : Prop :=
  ∀ j, (stack_at a j).mapped = (stack_at b j).mapped ∧
    (stack_at a j).max_items = (stack_at b j).max_items ∧
    (stack_at a j).item_count = (stack_at b j).item_count

/-- The stack array after the migrations `ms` are applied in order. -/
def replay (sts : List gateway_panel_stack) (ms : List migration) : List gateway_panel_stack :=
  ms.foldl (fun s m => move_view s m.src m.dst) sts

/-- The list `ms` is a run of migrations from the stack array `sts`: each
migration records the array its predecessors left. -/
def moves_from : List gateway_panel_stack → List migration → Prop
  | _, [] => True
  | sts, m :: ms => m.before = sts ∧ moves_from (move_view sts m.src m.dst) ms

/-- What the claim on migrations says of one migration `m`: the target is a
lower-indexed mapped stack that is below its `max_items` and is empty or at
least 2 less loaded than the stack the view leaves. -/
def migration_ok (m : migration) : Prop :=
  m.dst < m.src ∧ (stack_at m.before m.dst).mapped = true ∧
  (stack_at m.before m.dst).item_count < (stack_at m.before m.dst).max_items ∧
  ((stack_at m.before m.dst).item_count = 0 ∨
    (stack_at m.before m.dst).item_count + 2 ≤ (stack_at m.before m.src).item_count)

/-! ## Sample data -/

/-- A shell toplevel view with no size limits. -/
def xdg_view (id : Nat) : tinywl_view :=
  { id := id, xdg_surface := some ⟨id, 0, 0, 0, 0⟩, xwayland_surface := none,
    x := 0, y := 0, width := 0, height := 0, is_fullscreen := false,
    focused_by := false, stack_index := 0 }

/-- The stack array `main` allocates, `max_items = {1, 1, 2, 2}`, with the
given mapped flags. -/
def main_stacks (m0 m1 m2 m3 : Bool) : List gateway_panel_stack :=
  [⟨0, 0, 0, 0, 1, 0, m0⟩, ⟨0, 0, 0, 0, 1, 0, m1⟩, ⟨0, 0, 0, 0, 2, 0, m2⟩, ⟨0, 0, 0, 0, 2, 0, m3⟩]

/-- An output of 1920x1080 at the layout origin claiming the given stacks. -/
def sample_output (sts : List Int) : tinywl_output :=
  { id := 0, layout_x := 0, layout_y := 0, width := 1920, height := 1080, stack_array := sts }

/-- A panel with the stack array of `main`, all four stacks mapped, one output
claiming all of them, and the given managed views. -/
def sample_panel (views : List tinywl_view) : gateway_panel :=
  { unmapped_views := [], views := views, redirect_views := [], focused_view := none,
    stack_array := main_stacks true true true true, main_output := some 0,
    outputs := [sample_output [0, 1, 2, 3]] }

instance (m : migration) : Decidable (migration_ok m) := by
  unfold migration_ok
  infer_instance

instance (sts : List gateway_panel_stack) (t : Nat) : Decidable (settled sts t) := by
  unfold settled
  infer_instance

instance (p q : gateway_panel) : Decidable (same_tags p q) := by
  unfold same_tags
  infer_instance

/-- A panel with the stack array of `main`, no stack mapped, and the given
managed views. -/
def unmapped_panel (views : List tinywl_view) : gateway_panel :=
  { unmapped_views := [], views := views, redirect_views := [], focused_view := none,
    stack_array := main_stacks false false false false, main_output := none,
    outputs := [] }

/-- The first migration of the layout pass over 5 views on `sample_panel`:
from stack 3, which holds all 5 views, to the empty stack 2. -/
def sample_migration : migration :=
  ⟨3, 2, [⟨480, 1080, 0, 0, 1, 0, true⟩, ⟨480, 1080, 0, 480, 1, 0, true⟩,
    ⟨480, 1080, 0, 960, 2, 0, true⟩, ⟨480, 1080, 0, 1440, 2, 5, true⟩]⟩

/-- The panel `main` allocates: no view, no output, no stack mapped. -/
def empty_panel : gateway_panel :=
  { unmapped_views := [], views := [], redirect_views := [], focused_view := none,
    stack_array := main_stacks false false false false, main_output := none, outputs := [] }

/-- The server state at startup, with the gap `main` configures. -/
def initial_server : tinywl_server :=
  { focused_panel := empty_panel, keyboard_focused_surface := none, pointer_warps := [],
    window_gaps := 8, passthrough_enabled := false, output_start := 0 }

/-- The startup state after one output of 1920x1080 was registered, two shell
surfaces (views 1 and 2, surfaces 101 and 102) were created, and both were
mapped, view 1 first. View 1 is focused. -/
def two_views_server : tinywl_server :=
  xdg_surface_map
    (xdg_surface_map
      (server_new_xdg_surface
        (server_new_xdg_surface
          (server_new_output initial_server (sample_output []))
          1 ⟨101, 0, 0, 0, 0⟩)
        2 ⟨102, 0, 0, 0, 0⟩)
      1)
    2

/-- The output of `two_views_server` as its registration left it: it claims the
stacks 0 and 1. -/
def registered_output : tinywl_output :=
  { sample_output [] with stack_array := [0, 1] }

/-- The state `two_views_server` with the seat's keyboard focus on the surface
of view 2 while view 1 is the panel's focused view. -/
def stale_seat_server : tinywl_server :=
  { two_views_server with keyboard_focused_surface := some 102 }

/-- The record of view 1 in `two_views_server`. -/
def sample_view_1 : tinywl_view :=
  { id := 1, xdg_surface := some ⟨101, 0, 0, 0, 0⟩, xwayland_surface := none,
    x := 8, y := 8, width := 944, height := 1064, is_fullscreen := false,
    focused_by := true, stack_index := 0 }

/-- The record of view 2 in `two_views_server`. -/
def sample_view_2 : tinywl_view :=
  { id := 2, xdg_surface := some ⟨102, 0, 0, 0, 0⟩, xwayland_surface := none,
    x := 0, y := 0, width := 0, height := 0, is_fullscreen := false,
    focused_by := false, stack_index := 0 }

/-! ## Further predicates and sample data -/

/-- The record of view `u` after `focus_view` reassigned the focus fields of
panel `p` to the view `id`: the view `id` has `focused_by` set, the view that
was the panel's focused view has it cleared, every other view is as before. -/
def refocused_view (p : gateway_panel) (id : Nat) (u : tinywl_view) : tinywl_view :=
  if u.id = id then set_focused_by true u
  else if p.focused_view = some u.id then set_focused_by false u
  else u

/-- The state `two_views_server` with passthrough enabled. -/
def passthrough_server : tinywl_server :=
  { two_views_server with passthrough_enabled := true }

/-! ## Interactive resize -/

/-- The rectangle type of the compositor library, `struct wlr_box`. -/
structure wlr_box where
  x : Int
  y : Int
  width : Int
  height : Int
  deriving DecidableEq, Repr

/-- The values of `enum wlr_edges` in the compositor library. -/
def WLR_EDGE_TOP : Nat := 1

/-- The bottom edge bit of `enum wlr_edges`. -/
def WLR_EDGE_BOTTOM : Nat := 2

/-- The left edge bit of `enum wlr_edges`. -/
def WLR_EDGE_LEFT : Nat := 4

/-- The right edge bit of `enum wlr_edges`. -/
def WLR_EDGE_RIGHT : Nat := 8

/-- What `process_cursor_resize` writes: the position stored in the grabbed
view and the size requested from the client with `wlr_xdg_toplevel_set_size`. -/
structure resize_request where
  x : Int
  y : Int
  new_width : Int
  new_height : Int
  deriving DecidableEq, Repr

/-- The resize step, `process_cursor_resize`. `border_x` and `border_y` are the
`int` values that `cursor->x - grab_x` and `cursor->y - grab_y` convert to,
`geo_box` is the geometry `wlr_xdg_surface_get_geometry` reports. The `int`
arithmetic is exact (signed overflow is undefined in C and not modelled). -/
def process_cursor_resize (grab_geobox : wlr_box) (resize_edges : Nat)
    (border_x border_y : Int) (geo_box : wlr_box) : resize_request :=
  let new_left : Int := grab_geobox.x
  let new_right : Int := grab_geobox.x + grab_geobox.width
  let new_top : Int := grab_geobox.y
  let new_bottom : Int := grab_geobox.y + grab_geobox.height
  let tb : Int × Int :=
    if resize_edges &&& WLR_EDGE_TOP ≠ 0 then
      (if border_y ≥ new_bottom then new_bottom - 1 else border_y, new_bottom)
    else if resize_edges &&& WLR_EDGE_BOTTOM ≠ 0 then
      (new_top, if border_y ≤ new_top then new_top + 1 else border_y)
    else (new_top, new_bottom)
  let lr : Int × Int :=
    if resize_edges &&& WLR_EDGE_LEFT ≠ 0 then
      (if border_x ≥ new_right then new_right - 1 else border_x, new_right)
    else if resize_edges &&& WLR_EDGE_RIGHT ≠ 0 then
      (new_left, if border_x ≤ new_left then new_left + 1 else border_x)
    else (new_left, new_right)
  { x := lr.1 - geo_box.x, y := tb.1 - geo_box.y,
    new_width := lr.2 - lr.1, new_height := tb.2 - tb.1 }

/-! ## The frame of an output -/

/-- The four view loops of `output_frame`, in the order the views are handed
to the renderer: each loop walks its list from the tail to the head and skips
a view with `continue`. `focused_by == output->panel` is the `focused_by` flag. -/
def drawn_views (panel : gateway_panel) (output : tinywl_output) : List tinywl_view :=
  panel.views.reverse.filter (fun v =>
    !(!output_contains_stack output v.stack_index || v.is_fullscreen || v.focused_by)) ++
  panel.views.reverse.filter (fun v =>
    !(!output_contains_stack output v.stack_index || !v.is_fullscreen || v.focused_by)) ++
  panel.views.reverse.filter (fun v =>
    !(!output_contains_stack output v.stack_index || !v.focused_by)) ++
  panel.redirect_views.reverse

/-- The frame handler, `output_frame`: the layout pass, then, unless
`wlr_output_attach_render` fails (`attach_render = false`), the view loops and
`panel_post_update`. Returns the panel and the views drawn, bottom first. The
layer surfaces, the brightness quad and the cursor are not part of the model. -/
def output_frame (gaps : Nat) (panel : gateway_panel) (output : tinywl_output)
    (attach_render : Bool) : gateway_panel × List tinywl_view :=
  let p := panel_update gaps panel output
  if attach_render then (panel_post_update p, drawn_views p output)
  else (p, [])

/-! ## Reordered lists -/

/-- The list `pre ++ f :: post` after `f` changed places with what follows it;
from the last place `f` goes to the front. -/
def swapped_with_next (pre : List Nat) (f : Nat) (post : List Nat) : List Nat :=
  match post with
  | [] => f :: pre
  | b :: rest => pre ++ b :: f :: rest

/-- The list `pre ++ f :: post` after `f` changed places with what precedes
it; from the first place `f` goes to the end. -/
def swapped_with_prev (pre : List Nat) (f : Nat) (post : List Nat) : List Nat :=
  match pre.reverse with
  | [] => post ++ [f]
  | a :: rest => rest.reverse ++ f :: a :: post

/-- The state `two_views_server` after a third shell surface (view 3, surface
103) was created and mapped. The managed list is 1, 2, 3 and view 1 is focused. -/
def three_views_server : tinywl_server :=
  xdg_surface_map (server_new_xdg_surface two_views_server 3 ⟨103, 0, 0, 0, 0⟩) 3

/-- The view after the one at the split of `pre ++ f :: post`, going round
from the last place to the first; nothing when `f` is alone. -/
def cycle_successor (pre post : List Nat) : Option Nat :=
  match post with
  | b :: _ => some b
  | [] => pre.head?

/-- The state `two_views_server` after an override-redirect foreign window
(view 3, surface 103) was created and mapped. The managed list is 1, 2, 3. -/
def popup_server : tinywl_server :=
  xwayland_surface_map
    (server_new_xwayland_surface two_views_server 3 ⟨103, true, 40, 40, 200, 100, none⟩) 3

/-- The view before the one at the split of `pre ++ f :: post`, going round
from the first place to the last. -/
def cycle_predecessor (pre post : List Nat) : Option Nat :=
  match pre.getLast? with
  | some a => some a
  | none => post.getLast?

/-! ## Rectangles of the layout pass -/

/-- The rectangle fields of a stack: `width`, `height`, `current_x`,
`current_y`. -/
def stack_geometry (s : gateway_panel_stack) : Int × Int × Int × Int :=
  (s.width, s.height, s.current_x, s.current_y)

/-- Number of mapped stacks with an index below `i` that the output claims. -/
def claimed_before (output : tinywl_output) (sts : List gateway_panel_stack) (i : Nat) : Nat :=
  (List.range i).countP (fun t => (stack_at sts t).mapped && output_contains_stack output (t : Int))

/-- The values an `int32_t` holds. -/
def in_int32 (z : Int) : Prop := -2147483648 ≤ z ∧ z < 2147483648

instance (z : Int) : Decidable (in_int32 z) := by
  unfold in_int32
  infer_instance

/-! ## Sequences of output registrations -/

/-- The registrations of the outputs `os`, in order, by `server_new_output`. -/
def register_outputs (server : tinywl_server) (os : List tinywl_output) : tinywl_server :=
  os.foldl server_new_output server

/-- The startup state after three outputs (0, 1 and 2) were registered. -/
def three_outputs_server : tinywl_server :=
  register_outputs initial_server
    [sample_output [], { sample_output [] with id := 1 }, { sample_output [] with id := 2 }]

/-! ## The target of a migration -/

/-- The target of the migration `m` passes the migration test and is the
highest-indexed stack below the view's stack that does. -/
def highest_target (m : migration) : Prop :=
  m.dst < m.src ∧ qualifies m.before m.dst m.src = true ∧
  ∀ i, i < m.src → m.dst < i → qualifies m.before i m.src = false

/-- The target of the migration `m` passes the migration test and is the
lowest-indexed stack that does. -/
def lowest_target (m : migration) : Prop :=
  m.dst < m.src ∧ qualifies m.before m.dst m.src = true ∧
  ∀ i, i < m.dst → qualifies m.before i m.src = false

instance (m : migration) : Decidable (highest_target m) := by
  unfold highest_target
  infer_instance

instance (m : migration) : Decidable (lowest_target m) := by
  unfold lowest_target
  infer_instance

/-! ## Size requests -/

/-- The two tests `panel_update` makes on one axis of a tile size before it
asks the client for it: `if (min > w) w = min;` then
`if (max > 0 && max < w) w = max;`. -/
def hint_clamp (min max w : Int) : Int :=
  let w1 := if min > w then min else w
  if max > 0 ∧ max < w1 then max else w1

/-- The value an `int` has after conversion to `uint32_t`. -/
def to_uint32 (z : Int) : Int := z % 4294967296

/-- The two tests of `hint_clamp` as C evaluates them when `min` and `max` are
`uint32_t` values and `w` is an `int32_t`: `w` is converted to `uint32_t` for
each comparison and the hint is converted back when it is assigned. -/
def toplevel_clamp (min max w : Int) : Int :=
  let w1 := if min > to_uint32 w then wrap32 min else w
  if max > 0 ∧ max < to_uint32 w1 then wrap32 max else w1

/-- The size `panel_update` asks the client of a view for, from the rectangle
of the view, as the callee receives it, and no request for a view with neither
surface.

For a foreign window the hints are `int32_t` fields (all 0 without size hints)
and the two tests compare them with the `int32_t` values `w`, `h` as signed
integers; the values are the arguments of `wlr_xwayland_surface_configure`.
That function declares its size parameters `uint16_t`, a conversion that
changes no value from 0 to 65535.

For a shell surface the limits of `toplevel->current` are `uint32_t`, so C
converts `w` and `h` to `uint32_t` in each comparison, and the parameters of
`wlr_xdg_toplevel_set_size` are `uint32_t` too: a negative `w` takes part as
`w + 2^32`. -/
def size_request (v : tinywl_view) : Option (Int × Int) :=
  match v.xwayland_surface with
  | some xw =>
    let size_hints : wlr_xwayland_surface_size_hints := xw.size_hints.getD ⟨0, 0, 0, 0⟩
    some (hint_clamp size_hints.min_width size_hints.max_width v.width,
      hint_clamp size_hints.min_height size_hints.max_height v.height)
  | none =>
    match v.xdg_surface with
    | some xdg =>
      some (to_uint32 (toplevel_clamp xdg.min_width xdg.max_width v.width),
        to_uint32 (toplevel_clamp xdg.min_height xdg.max_height v.height))
    | none => none

/-- The limits of the toplevel of a shell surface are values of their type,
`uint32_t`. -/
def toplevel_limits_ok (v : tinywl_view) : Prop :=
  match v.xdg_surface with
  | some xdg =>
    0 ≤ xdg.min_width ∧ xdg.min_width < 4294967296 ∧
    0 ≤ xdg.min_height ∧ xdg.min_height < 4294967296 ∧
    0 ≤ xdg.max_width ∧ xdg.max_width < 4294967296 ∧
    0 ≤ xdg.max_height ∧ xdg.max_height < 4294967296
  | none => True

instance (v : tinywl_view) : Decidable (toplevel_limits_ok v) := by
  unfold toplevel_limits_ok
  cases v.xdg_surface <;> infer_instance

/-- The size requests of one run of `panel_update`, in list order: one for
each managed view on a stack of the output that has a surface, with the view as
the run leaves it. -/
def panel_update_requests (gaps : Nat) (panel : gateway_panel) (output : tinywl_output) :
    List (tinywl_view × Int × Int) :=
  (panel_update gaps panel output).views.filterMap (fun v =>
    if output_contains_stack output v.stack_index then
      (size_request v).map (fun r => (v, r.1, r.2))
    else none)

/-- The requested value `r` for the tile value `tile` respects the hints `min`
and `max` of its axis. -/
def within_hints (min max tile r : Int) : Prop :=
  (0 < max → r ≤ max) ∧ ((max ≤ 0 ∨ min ≤ max) → min ≤ r) ∧
  (min ≤ tile → tile ≤ max → 0 < max → r = tile)

instance (min max tile r : Int) : Decidable (within_hints min max tile r) := by
  unfold within_hints
  infer_instance

/-- A panel with the stack array of `main`, an output over all stacks, and one
shell view that reports a width between 100 and 300 and a height of at least
100. -/
def limited_panel : gateway_panel :=
  sample_panel [{ xdg_view 1 with xdg_surface := some ⟨1, 100, 100, 300, 0⟩ }]

/-! ## Rectangles of views -/

/-- The rectangles of the views `a` and `b` are apart: one ends, on the x or on
the y axis, where the other has not begun. Two such rectangles share no
point. -/
def rect_disjoint (a b : tinywl_view) : Prop :=
  a.x + a.width ≤ b.x ∨ b.x + b.width ≤ a.x ∨ a.y + a.height ≤ b.y ∨ b.y + b.height ≤ a.y

/-- The rectangle of the view `v` begins and ends within the layout rectangle
of the output `o`. -/
def rect_inside (v : tinywl_view) (o : tinywl_output) : Prop :=
  o.layout_x ≤ v.x ∧ v.x + v.width ≤ o.layout_x + o.width ∧
  o.layout_y ≤ v.y ∧ v.y + v.height ≤ o.layout_y + o.height

/-- The size of the output is not negative, and size, layout position and gap
are small enough for the `int32_t` arithmetic of the layout pass to be exact:
the size below `2^30`, the position below `2^29` in absolute value, the gap
below `2^29`. -/
def layout_fits (gaps : Nat) (o : tinywl_output) : Prop :=
  0 ≤ o.width ∧ o.width < 1073741824 ∧ 0 ≤ o.height ∧ o.height < 1073741824 ∧
  -536870912 ≤ o.layout_x ∧ o.layout_x < 536870912 ∧
  -536870912 ≤ o.layout_y ∧ o.layout_y < 536870912 ∧ (gaps : Int) < 536870912

instance (a b : tinywl_view) : Decidable (rect_disjoint a b) := by
  unfold rect_disjoint
  infer_instance

instance (v : tinywl_view) (o : tinywl_output) : Decidable (rect_inside v o) := by
  unfold rect_inside
  infer_instance

instance (gaps : Nat) (o : tinywl_output) : Decidable (layout_fits gaps o) := by
  unfold layout_fits
  infer_instance

/-! ## Sequences of surface events -/

/-- The operations on the view lists: creation of a surface, the map and unmap
handlers, `panel_update` for an output, `panel_post_update`, `move_to_front`,
and the two swap bindings (`forward` for key 37, else key 36, with the Logo and
Shift modifiers). -/
inductive surface_event where
  | new_xdg (id : Nat) (xdg : wlr_xdg_surface)
  | new_xwayland (id : Nat) (xw : wlr_xwayland_surface)
  | map_xdg (id : Nat)
  | map_xwayland (id : Nat)
  | unmap (id : Nat)
  | update (output : tinywl_output)
  | post_update
  | to_front (id : Nat)
  | swap (forward : Bool)
deriving DecidableEq, Repr

/-- One operation. A new view gets an address no live view has, so a creation
with the address of a view in a list is not a step; the other results `none`
are those of the handlers. -/
def apply_event (server : tinywl_server) : surface_event → Option tinywl_server
  | surface_event.new_xdg id xdg =>
    if (find_view server.focused_panel id).isSome then none
    else some (server_new_xdg_surface server id xdg)
  | surface_event.new_xwayland id xw =>
    if (find_view server.focused_panel id).isSome then none
    else some (server_new_xwayland_surface server id xw)
  | surface_event.map_xdg id => some (xdg_surface_map server id)
  | surface_event.map_xwayland id => some (xwayland_surface_map server id)
  | surface_event.unmap id => xdg_surface_unmap server id
  | surface_event.update output =>
    some (with_panel server (panel_update server.window_gaps server.focused_panel output))
  | surface_event.post_update =>
    some (with_panel server (panel_post_update server.focused_panel))
  | surface_event.to_front id => some (move_to_front server id)
  | surface_event.swap forward =>
    (handle_keybinding server (if forward then 37 else 36)
      (WLR_MODIFIER_LOGO + WLR_MODIFIER_SHIFT)).map (fun r => r.2)

/-- A sequence of operations, in order. -/
def run_events : tinywl_server → List surface_event → Option tinywl_server
  | server, [] => some server
  | server, e :: es =>
    match apply_event server e with
    | none => none
    | some s1 => run_events s1 es

/-- The addresses of the views in the three lists of a panel. -/
def view_ids (p : gateway_panel) : List Nat :=
  (p.views ++ p.redirect_views ++ p.unmapped_views).map (fun v => v.id)

/-- The addresses of the views a sequence of operations creates. -/
def created_ids : List surface_event → List Nat
  | [] => []
  | surface_event.new_xdg id _ :: es => id :: created_ids es
  | surface_event.new_xwayland id _ :: es => id :: created_ids es
  | _ :: es => created_ids es

/-! ## The links of the view lists as pointers -/

/-- The `next` and `prev` pointers of the links, `struct wl_list`. -/
structure wl_list_links where
  next : wl_link → wl_link
  prev : wl_link → wl_link

/-- The pointer surgery of `list_swap(a, b)`, assignment by assignment. -/
def list_swap_links (L : wl_list_links) (a b : wl_link) : wl_list_links :=
  let linknext := L.next b
  let linkprev := L.prev a
  let next1 := Function.update L.next linkprev b
  let prev1 := Function.update L.prev b linkprev
  let next2 := Function.update next1 b a
  let prev2 := Function.update prev1 a b
  let next3 := Function.update next2 a linknext
  let prev3 := Function.update prev2 linknext a
  ⟨next3, prev3⟩

/-- The link after `l` in a cyclic list of links; `l` itself when it is alone
or not in the list. -/
def next_of (ring : List wl_link) (l : wl_link) : wl_link :=
  match rotate_to l ring [] with
  | some (_ :: y :: _) => y
  | _ => l

/-- The link before `l` in a cyclic list of links. -/
def prev_of (ring : List wl_link) (l : wl_link) : wl_link :=
  match rotate_to l ring [] with
  | some (_ :: rest) => rest.getLast?.getD l
  | _ => l

/-- The cyclic list a link belongs to: that of its head, or that of the list
its view is in. -/
def link_ring (p : gateway_panel) : wl_link → List wl_link
  | wl_link.head l => ring_of p l
  | wl_link.view id =>
    match list_of_view p id with
    | some l => ring_of p l
    | none => []

/-- The pointers of the three lists of a panel. -/
def panel_links (p : gateway_panel) : wl_list_links :=
  ⟨fun l => next_of (link_ring p l) l, fun l => prev_of (link_ring p l) l⟩

/-- The views `wl_list_for_each` visits from the head `h`: the links reached
through `next` until `h` comes again, at most `fuel` of them. -/
def walk_list (L : wl_list_links) (h : wl_link) : Nat → wl_link → List wl_link
  | 0, _ => []
  | fuel + 1, l => if l = h then [] else l :: walk_list L h fuel (L.next l)

/-- The startup state with one output, after an override-redirect foreign
window (view 3) was created and mapped, two shell surfaces (views 1 and 2) were
created and mapped, and `panel_update` ran for the output: view 3 is focused
and alone in the redirect list, the managed list is 1, 2. -/
def redirect_focus_events : List surface_event :=
  [surface_event.new_xwayland 3 ⟨103, true, 40, 40, 200, 100, none⟩,
    surface_event.map_xwayland 3,
    surface_event.new_xdg 1 ⟨101, 0, 0, 0, 0⟩, surface_event.map_xdg 1,
    surface_event.new_xdg 2 ⟨102, 0, 0, 0, 0⟩, surface_event.map_xdg 2,
    surface_event.update (sample_output [0, 1])]

/-- The startup state after one output was registered. -/
def one_output_server : tinywl_server :=
  server_new_output initial_server (sample_output [])

/-- The state the operations `redirect_focus_events` lead to from
`one_output_server`. -/
def redirect_focus_server : tinywl_server :=
  (run_events one_output_server redirect_focus_events).getD one_output_server

/-- The views a walk from the head of list `l` meets, for pointers `L`. -/
def walk_from (L : wl_list_links) (l : view_list) : List wl_link :=
  walk_list L (wl_link.head l) 8 (L.next (wl_link.head l))

/-! ## Stack array lemmas -/

theorem stack_update_length (f : gateway_panel_stack → gateway_panel_stack) :
    ∀ (sts : List gateway_panel_stack) (i : Nat), (stack_update f sts i).length = sts.length
  | [], _ => rfl
  | _ :: _, 0 => rfl
  | _ :: rest, i + 1 => by simp [stack_update, stack_update_length f rest i]

theorem stack_at_nil (j : Nat) : stack_at [] j = default := by
  simp [stack_at]

theorem stack_at_cons_zero (s : gateway_panel_stack) (rest : List gateway_panel_stack) :
    stack_at (s :: rest) 0 = s := by
  simp [stack_at]

theorem stack_at_cons_succ (s : gateway_panel_stack) (rest : List gateway_panel_stack)
    (j : Nat) : stack_at (s :: rest) (j + 1) = stack_at rest j := by
  simp [stack_at]

theorem stack_at_of_length_le (sts : List gateway_panel_stack) (j : Nat)
    (h : sts.length ≤ j) : stack_at sts j = default := by
  induction sts generalizing j with
  | nil => exact stack_at_nil j
  | cons s rest ih =>
    cases j with
    | zero => simp at h
    | succ j =>
      rw [stack_at_cons_succ]
      exact ih j (by simpa using h)

theorem stack_at_update_ne (f : gateway_panel_stack → gateway_panel_stack) :
    ∀ (sts : List gateway_panel_stack) (i j : Nat), i ≠ j →
      stack_at (stack_update f sts i) j = stack_at sts j
  | [], _, _, _ => rfl
  | s :: rest, 0, 0, h => absurd rfl h
  | s :: rest, 0, j + 1, _ => by simp [stack_update, stack_at_cons_succ]
  | s :: rest, i + 1, 0, _ => by simp [stack_update, stack_at_cons_zero]
  | s :: rest, i + 1, j + 1, h => by
    simp only [stack_update, stack_at_cons_succ]
    exact stack_at_update_ne f rest i j (by omega)

theorem stack_at_update_eq (f : gateway_panel_stack → gateway_panel_stack) :
    ∀ (sts : List gateway_panel_stack) (i : Nat), i < sts.length →
      stack_at (stack_update f sts i) i = f (stack_at sts i)
  | [], _, h => by simp at h
  | s :: rest, 0, _ => by simp [stack_update, stack_at_cons_zero]
  | s :: rest, i + 1, h => by
    simp only [stack_update, stack_at_cons_succ]
    exact stack_at_update_eq f rest i (by simpa using h)

/-- A mapped entry lies inside the array. -/
theorem lt_length_of_mapped (sts : List gateway_panel_stack) (i : Nat)
    (h : (stack_at sts i).mapped = true) : i < sts.length := by
  by_contra hlt
  rw [stack_at_of_length_le sts i (by omega)] at h
  exact absurd h (by decide)

/-! ## One migration -/

theorem move_view_length (sts : List gateway_panel_stack) (src dst : Nat) :
    (move_view sts src dst).length = sts.length := by
  simp [move_view, stack_update_length]

theorem stack_update_count_mapped (sts : List gateway_panel_stack) (i j : Nat) :
    (stack_at (stack_update incr_count sts i) j).mapped = (stack_at sts j).mapped ∧
    (stack_at (stack_update decr_count sts i) j).mapped = (stack_at sts j).mapped := by
  by_cases hij : i = j
  · subst hij
    by_cases hlt : i < sts.length
    · simp [stack_at_update_eq _ sts i hlt, incr_count, decr_count]
    · have h1 : sts.length ≤ i := by omega
      have h2 : ∀ f, stack_at (stack_update f sts i) i = default := fun f =>
        stack_at_of_length_le _ i (by rw [stack_update_length]; exact h1)
      rw [h2, h2, stack_at_of_length_le _ i h1]
      exact ⟨rfl, rfl⟩
  · simp [stack_at_update_ne _ sts i j hij]

theorem stack_update_count_max (sts : List gateway_panel_stack) (i j : Nat) :
    (stack_at (stack_update incr_count sts i) j).max_items = (stack_at sts j).max_items ∧
    (stack_at (stack_update decr_count sts i) j).max_items = (stack_at sts j).max_items := by
  by_cases hij : i = j
  · subst hij
    by_cases hlt : i < sts.length
    · simp [stack_at_update_eq _ sts i hlt, incr_count, decr_count]
    · have h1 : sts.length ≤ i := by omega
      have h2 : ∀ f, stack_at (stack_update f sts i) i = default := fun f =>
        stack_at_of_length_le _ i (by rw [stack_update_length]; exact h1)
      rw [h2, h2, stack_at_of_length_le _ i h1]
      exact ⟨rfl, rfl⟩
  · simp [stack_at_update_ne _ sts i j hij]

theorem move_view_mapped (sts : List gateway_panel_stack) (src dst j : Nat) :
    (stack_at (move_view sts src dst) j).mapped = (stack_at sts j).mapped := by
  unfold move_view
  rw [(stack_update_count_mapped _ dst j).1, (stack_update_count_mapped _ src j).2]

theorem move_view_max (sts : List gateway_panel_stack) (src dst j : Nat) :
    (stack_at (move_view sts src dst) j).max_items = (stack_at sts j).max_items := by
  unfold move_view
  rw [(stack_update_count_max _ dst j).1, (stack_update_count_max _ src j).2]

theorem incr_count_at (sts : List gateway_panel_stack) (i j : Nat) (hi : i < sts.length) :
    (stack_at (stack_update incr_count sts i) j).item_count =
      (stack_at sts j).item_count + (if j = i then 1 else 0) := by
  by_cases hij : i = j
  · subst hij
    simp [stack_at_update_eq _ sts i hi, incr_count]
  · have : ¬ j = i := fun h => hij h.symm
    simp [stack_at_update_ne _ sts i j hij, this]

theorem decr_count_at (sts : List gateway_panel_stack) (i j : Nat) (hi : i < sts.length) :
    (stack_at (stack_update decr_count sts i) j).item_count =
      (stack_at sts j).item_count - (if j = i then 1 else 0) := by
  by_cases hij : i = j
  · subst hij
    simp [stack_at_update_eq _ sts i hi, decr_count]
  · have : ¬ j = i := fun h => hij h.symm
    simp [stack_at_update_ne _ sts i j hij, this]

theorem move_view_count (sts : List gateway_panel_stack) (src dst j : Nat)
    (hs : src < sts.length) (hd : dst < sts.length) :
    (stack_at (move_view sts src dst) j).item_count =
      (stack_at sts j).item_count - (if j = src then 1 else 0) + (if j = dst then 1 else 0) := by
  unfold move_view
  rw [incr_count_at _ dst j (by rw [stack_update_length]; exact hd), decr_count_at _ src j hs]

/-! ## The scan -/

theorem scan_target_none (sts : List gateway_panel_stack) (sid : Nat) :
    ∀ n, scan_target sts sid n = none ↔ ∀ i, i < n → qualifies sts i sid = false
  | 0 => by simp [scan_target]
  | n + 1 => by
    unfold scan_target
    by_cases hq : qualifies sts n sid = true
    · simp only [hq, if_true]
      constructor
      · intro h; cases h
      · intro h
        have := h n (Nat.lt_succ_self n)
        rw [hq] at this
        cases this
    · have hq2 : qualifies sts n sid = false := by simpa using hq
      simp only [hq2, Bool.false_eq_true, if_false]
      rw [scan_target_none sts sid n]
      constructor
      · intro h i hi
        rcases Nat.lt_succ_iff_lt_or_eq.mp hi with h1 | h1
        · exact h i h1
        · rw [h1]; exact hq2
      · intro h i hi
        exact h i (Nat.lt_succ_of_lt hi)

theorem scan_target_some (sts : List gateway_panel_stack) (sid : Nat) :
    ∀ n d, scan_target sts sid n = some d →
      d < n ∧ qualifies sts d sid = true ∧ ∀ i, d < i → i < n → qualifies sts i sid = false
  | 0, d, h => by simp [scan_target] at h
  | n + 1, d, h => by
    unfold scan_target at h
    by_cases hq : qualifies sts n sid = true
    · simp only [hq, if_true, Option.some.injEq] at h
      subst h
      exact ⟨Nat.lt_succ_self _, hq, fun i h1 h2 => by omega⟩
    · have hq2 : qualifies sts n sid = false := by simpa using hq
      simp only [hq2, Bool.false_eq_true, if_false] at h
      obtain ⟨h1, h2, h3⟩ := scan_target_some sts sid n d h
      refine ⟨by omega, h2, fun i hi1 hi2 => ?_⟩
      rcases Nat.lt_succ_iff_lt_or_eq.mp hi2 with h4 | h4
      · exact h3 i hi1 h4
      · rw [h4]; exact hq2

theorem qualifies_iff (sts : List gateway_panel_stack) (i sid : Nat) :
    qualifies sts i sid = true ↔
      (stack_at sts i).mapped = true ∧
      (stack_at sts i).item_count < (stack_at sts i).max_items ∧
      ((stack_at sts i).item_count + 2 ≤ (stack_at sts sid).item_count ∨
        (stack_at sts i).item_count < 1) := by
  simp [qualifies]

/-! ## The loop for one view -/

/-- Effect of the `while` loop for a view on stack `idx`: the view ends on a
stack `k ≤ idx`, one count moved from `idx` to `k`, and with `idx` iterations
available the loop ended because the scan found no stack. -/
theorem rebalance_while_spec : ∀ (fuel : Nat) (sts : List gateway_panel_stack) (idx : Nat),
    idx < sts.length →
    (rebalance_while fuel sts idx).2 ≤ idx ∧
    (rebalance_while fuel sts idx).1.length = sts.length ∧
    (∀ j, (stack_at (rebalance_while fuel sts idx).1 j).mapped = (stack_at sts j).mapped) ∧
    (∀ j, (stack_at (rebalance_while fuel sts idx).1 j).max_items = (stack_at sts j).max_items) ∧
    ((rebalance_while fuel sts idx).2 = idx ∨
      ((stack_at sts (rebalance_while fuel sts idx).2).mapped = true ∧
        (stack_at sts (rebalance_while fuel sts idx).2).item_count <
          (stack_at sts (rebalance_while fuel sts idx).2).max_items)) ∧
    (∀ j, (stack_at (rebalance_while fuel sts idx).1 j).item_count =
      (stack_at sts j).item_count - (if j = idx then 1 else 0) +
        (if j = (rebalance_while fuel sts idx).2 then 1 else 0)) ∧
    (idx ≤ fuel →
      scan_target (rebalance_while fuel sts idx).1 (rebalance_while fuel sts idx).2
        (rebalance_while fuel sts idx).2 = none)
  | 0, sts, idx, _ => by
    refine ⟨le_refl _, rfl, fun _ => rfl, fun _ => rfl, Or.inl rfl, fun j => ?_, fun h => ?_⟩
    · simp only [rebalance_while]; split_ifs <;> omega
    · have h0 : idx = 0 := by omega
      subst h0
      rfl
  | fuel + 1, sts, idx, hidx => by
    cases hscan : scan_target sts idx idx with
    | none =>
      have hr : rebalance_while (fuel + 1) sts idx = (sts, idx) := by
        simp [rebalance_while, hscan]
      rw [hr]
      refine ⟨le_refl _, rfl, fun _ => rfl, fun _ => rfl, Or.inl rfl, fun j => ?_, fun _ => hscan⟩
      simp only; split_ifs <;> omega
    | some d =>
      have hr : rebalance_while (fuel + 1) sts idx =
          rebalance_while fuel (move_view sts idx d) d := by
        simp [rebalance_while, hscan]
      rw [hr]
      obtain ⟨hd1, hd2, _⟩ := scan_target_some sts idx idx d hscan
      have hdm : (stack_at sts d).mapped = true := ((qualifies_iff sts d idx).mp hd2).1
      have hdc : (stack_at sts d).item_count < (stack_at sts d).max_items :=
        ((qualifies_iff sts d idx).mp hd2).2.1
      have hdl : d < sts.length := lt_length_of_mapped sts d hdm
      have hdl2 : d < (move_view sts idx d).length := by rw [move_view_length]; exact hdl
      obtain ⟨i1, i2, i3, i4, i5, i6, i7⟩ := rebalance_while_spec fuel (move_view sts idx d) d hdl2
      refine ⟨by omega, by rw [i2, move_view_length], fun j => ?_, fun j => ?_, ?_, fun j => ?_,
        fun h => i7 (by omega)⟩
      · rw [i3, move_view_mapped]
      · rw [i4, move_view_max]
      · right
        rcases i5 with h | ⟨h, h2⟩
        · rw [h]; exact ⟨hdm, hdc⟩
        · rw [move_view_mapped] at h
          refine ⟨h, ?_⟩
          rw [move_view_max, move_view_count sts idx d _ hidx hdl] at h2
          by_cases hk : (rebalance_while fuel (move_view sts idx d) d).2 = d
          · rw [hk]; exact hdc
          · have h3 : ¬ (rebalance_while fuel (move_view sts idx d) d).2 = idx := by omega
            simp only [hk, h3, if_false] at h2
            omega
      · rw [i6, move_view_count sts idx d j hidx hdl]
        have hne : d ≠ idx := by omega
        split_ifs <;> omega

theorem rebalance_view_at (sts : List gateway_panel_stack) (v : tinywl_view) (L : Nat)
    (h : v.stack_index = (L : Int)) :
    rebalance_view sts v =
      ((rebalance_while L sts L).1,
        { v with stack_index := ((rebalance_while L sts L).2 : Int) }) := by
  have h0 : ¬ v.stack_index < 0 := by rw [h]; omega
  have h1 : v.stack_index.toNat = L := by rw [h]; simp
  simp [rebalance_view, h0, h1]

theorem views_on_cons (v : tinywl_view) (vs : List tinywl_view) (s : Int) :
    views_on (v :: vs) s = views_on vs s + (if v.stack_index = s then 1 else 0) := by
  simp [views_on, List.countP_cons]

/-! ## The rebalancing pass over views seeded on one stack -/

/-- Frame, index and counting facts of the rebalancing pass when every view
starts on stack `L`. -/
theorem rebalance_views_count (L : Nat) : ∀ (vs : List tinywl_view)
    (sts : List gateway_panel_stack), L < sts.length →
    (∀ v ∈ vs, v.stack_index = (L : Int)) →
    (rebalance_views sts vs).1.length = sts.length ∧
    (∀ j, (stack_at (rebalance_views sts vs).1 j).mapped = (stack_at sts j).mapped) ∧
    (∀ j, (stack_at (rebalance_views sts vs).1 j).max_items = (stack_at sts j).max_items) ∧
    (∀ v ∈ (rebalance_views sts vs).2, ∃ k : Nat, v.stack_index = (k : Int) ∧ k ≤ L ∧
      (k = L ∨ (stack_at sts k).mapped = true)) ∧
    (∀ j : Nat, (stack_at (rebalance_views sts vs).1 j).item_count =
      (stack_at sts j).item_count - (if j = L then (vs.length : Int) else 0) +
        (views_on (rebalance_views sts vs).2 (j : Int) : Int))
  | [], sts, _, _ => by
    refine ⟨rfl, fun _ => rfl, fun _ => rfl, fun v hv => ?_, fun j => ?_⟩
    · simp [rebalance_views] at hv
    · simp only [rebalance_views, views_on, List.countP_nil, List.length_nil]
      split_ifs <;> simp
  | v :: vs, sts, hL, hvs => by
    have hv : v.stack_index = (L : Int) := hvs v (List.mem_cons_self _ _)
    have hrest : ∀ w ∈ vs, w.stack_index = (L : Int) :=
      fun w hw => hvs w (List.mem_cons_of_mem _ hw)
    obtain ⟨w1, w2, w3, w4, w5, w6, _⟩ := rebalance_while_spec L sts L hL
    have hL2 : L < (rebalance_while L sts L).1.length := by rw [w2]; exact hL
    obtain ⟨i1, i2, i3, i4, i5⟩ := rebalance_views_count L vs (rebalance_while L sts L).1 hL2 hrest
    simp only [rebalance_views, rebalance_view_at sts v L hv]
    refine ⟨by rw [i1, w2], fun j => by rw [i2, w3], fun j => by rw [i3, w4], ?_, fun j => ?_⟩
    · intro u hu
      rcases List.mem_cons.mp hu with h | h
      · subst h
        exact ⟨(rebalance_while L sts L).2, rfl, w1, w5.imp id (fun h => h.1)⟩
      · obtain ⟨k, hk1, hk2, hk3⟩ := i4 u h
        refine ⟨k, hk1, hk2, ?_⟩
        rcases hk3 with h3 | h3
        · exact Or.inl h3
        · rw [w3] at h3; exact Or.inr h3
    · rw [views_on_cons, i5 j, w6 j]
      simp only [List.length_cons, Nat.cast_add, Nat.cast_one, Nat.cast_ite, Nat.cast_zero,
        Nat.cast_inj]
      have e : (j = (rebalance_while L sts L).2) ↔ ((rebalance_while L sts L).2 = j) :=
        ⟨fun h => h.symm, fun h => h.symm⟩
      simp only [e]
      split_ifs <;> omega

/-- Moving one count from stack `L` to a stack `f ≤ L` does not make any
stack qualify for the views of a stack `t ≤ L` other than `f`. -/
theorem settled_mono (sts sts1 : List gateway_panel_stack) (L f t : Nat)
    (ht : t ≤ L) (htf : t ≠ f)
    (hm : ∀ j, (stack_at sts1 j).mapped = (stack_at sts j).mapped)
    (hx : ∀ j, (stack_at sts1 j).max_items = (stack_at sts j).max_items)
    (hc : ∀ j, (stack_at sts1 j).item_count =
      (stack_at sts j).item_count - (if j = L then 1 else 0) + (if j = f then 1 else 0))
    (hs : settled sts t) : settled sts1 t := by
  intro i hi
  by_contra hq
  have hq1 : qualifies sts1 i t = true := by simpa using hq
  obtain ⟨q1, q2, q3⟩ := (qualifies_iff sts1 i t).mp hq1
  rw [hm] at q1
  rw [hx, hc i] at q2
  rw [hc i, hc t] at q3
  have hiL : i ≠ L := by omega
  have hold : qualifies sts i t = true := by
    rw [qualifies_iff]
    refine ⟨q1, ?_, ?_⟩
    · split_ifs at q2 <;> omega
    · split_ifs at q3 <;> omega
  rw [hs i hi] at hold
  cases hold

/-- After the rebalancing pass over views seeded on stack `L`, no view has a
qualifying lower stack, and stacks that were settled stay settled. -/
theorem rebalance_views_settled (L : Nat) : ∀ (vs : List tinywl_view)
    (sts : List gateway_panel_stack) (S : Nat → Prop), L < sts.length →
    (∀ v ∈ vs, v.stack_index = (L : Int)) →
    (∀ t, S t → t ≤ L ∧ settled sts t) →
    (∀ v ∈ (rebalance_views sts vs).2, ∃ k : Nat, v.stack_index = (k : Int) ∧
      settled (rebalance_views sts vs).1 k) ∧
    (∀ t, S t → settled (rebalance_views sts vs).1 t)
  | [], sts, S, _, _, hS => by
    refine ⟨fun v hv => ?_, fun t ht => (hS t ht).2⟩
    simp [rebalance_views] at hv
  | v :: vs, sts, S, hL, hvs, hS => by
    have hv : v.stack_index = (L : Int) := hvs v (List.mem_cons_self _ _)
    have hrest : ∀ w ∈ vs, w.stack_index = (L : Int) :=
      fun w hw => hvs w (List.mem_cons_of_mem _ hw)
    obtain ⟨w1, w2, w3, w4, _, w6, w7⟩ := rebalance_while_spec L sts L hL
    have hL2 : L < (rebalance_while L sts L).1.length := by rw [w2]; exact hL
    have hk : settled (rebalance_while L sts L).1 (rebalance_while L sts L).2 :=
      (scan_target_none _ _ _).mp (w7 (le_refl L))
    have hS2 : ∀ t, (S t ∨ t = (rebalance_while L sts L).2) →
        t ≤ L ∧ settled (rebalance_while L sts L).1 t := by
      intro t ht
      by_cases htk : t = (rebalance_while L sts L).2
      · rw [htk]; exact ⟨w1, hk⟩
      · rcases ht with ht | ht
        · exact ⟨(hS t ht).1, settled_mono sts _ L _ t (hS t ht).1 htk w3 w4 w6 (hS t ht).2⟩
        · exact absurd ht htk
    obtain ⟨i1, i2⟩ := rebalance_views_settled L vs (rebalance_while L sts L).1
      (fun t => S t ∨ t = (rebalance_while L sts L).2) hL2 hrest hS2
    simp only [rebalance_views, rebalance_view_at sts v L hv]
    refine ⟨fun u hu => ?_, fun t ht => i2 t (Or.inl ht)⟩
    rcases List.mem_cons.mp hu with h | h
    · subst h
      exact ⟨(rebalance_while L sts L).2, rfl, i2 _ (Or.inr rfl)⟩
    · exact i1 u h

/-- Without a mapped stack no stack ever qualifies. -/
theorem qualifies_of_unmapped (sts : List gateway_panel_stack)
    (h : ∀ j, (stack_at sts j).mapped = false) (i t : Nat) : qualifies sts i t = false := by
  simp [qualifies, h i]

/-- A view that has no qualifying lower stack is left where it is. -/
theorem rebalance_view_of_settled (sts : List gateway_panel_stack) (v : tinywl_view)
    (h : ∀ k : Nat, v.stack_index = (k : Int) → settled sts k) :
    rebalance_view sts v = (sts, v) := by
  unfold rebalance_view
  by_cases h0 : v.stack_index < 0
  · simp [h0]
  · simp only [h0, if_false]
    have hk : v.stack_index = ((v.stack_index.toNat : Nat) : Int) := by
      rw [Int.toNat_of_nonneg (by omega)]
    have hs := (scan_target_none sts _ _).mpr (h _ hk)
    have hr : rebalance_while v.stack_index.toNat sts v.stack_index.toNat =
        (sts, v.stack_index.toNat) := by
      cases hn : v.stack_index.toNat with
      | zero => rfl
      | succ n =>
        rw [hn] at hs
        simp [rebalance_while, hs]
    rw [hr]
    simp only
    rw [← hk]

/-- A rebalancing pass over views that have no qualifying lower stack changes
nothing. -/
theorem rebalance_views_of_settled (sts : List gateway_panel_stack) :
    ∀ (vs : List tinywl_view),
      (∀ v ∈ vs, ∀ k : Nat, v.stack_index = (k : Int) → settled sts k) →
      rebalance_views sts vs = (sts, vs)
  | [], _ => rfl
  | v :: vs, h => by
    have h1 := rebalance_view_of_settled sts v (h v (List.mem_cons_self _ _))
    have h2 := rebalance_views_of_settled sts vs (fun w hw => h w (List.mem_cons_of_mem _ hw))
    simp [rebalance_views, h1, h2]

/-! ## The reset and seeding loops -/

theorem geometry_reset_cons_unmapped (output : tinywl_output) (i : Nat) (x : Int) (last : Nat)
    (s : gateway_panel_stack) (rest : List gateway_panel_stack) (hm : s.mapped = false) :
    geometry_reset output i x last (s :: rest) =
      (s :: (geometry_reset output (i + 1) x last rest).1,
        (geometry_reset output (i + 1) x last rest).2) := by
  simp [geometry_reset, hm]

theorem geometry_reset_cons_mapped (output : tinywl_output) (i : Nat) (x : Int) (last : Nat)
    (s : gateway_panel_stack) (rest : List gateway_panel_stack) (hm : s.mapped = true) :
    ∃ (s1 : gateway_panel_stack) (x1 : Int),
      geometry_reset output i x last (s :: rest) =
        (s1 :: (geometry_reset output (i + 1) x1 i rest).1,
          (geometry_reset output (i + 1) x1 i rest).2) ∧
      s1.mapped = true ∧ s1.max_items = s.max_items ∧ s1.item_count = 0 := by
  by_cases hc : output_contains_stack output (i : Int) = true
  · refine ⟨{ s with item_count := 0, current_y := output.layout_y, current_x := x,
                     height := output.height,
                     width := Int.tdiv output.width output.stack_array.length },
      x + Int.tdiv output.width output.stack_array.length, ?_, hm, rfl, rfl⟩
    simp [geometry_reset, hm, hc]
  · have hc2 : output_contains_stack output (i : Int) = false := by simpa using hc
    refine ⟨{ s with item_count := 0 }, x, ?_, hm, rfl, rfl⟩
    simp [geometry_reset, hm, hc2]

/-- Effect of the reset loop: mapped stacks get `item_count = 0`, nothing else
that the rebalancing pass reads changes, and `last_stack` is the highest mapped
index (or its initial value when no stack is mapped). -/
theorem geometry_reset_spec (output : tinywl_output) :
    ∀ (sts : List gateway_panel_stack) (i : Nat) (x : Int) (last : Nat),
    (geometry_reset output i x last sts).1.length = sts.length ∧
    (∀ j, (stack_at (geometry_reset output i x last sts).1 j).mapped = (stack_at sts j).mapped) ∧
    (∀ j, (stack_at (geometry_reset output i x last sts).1 j).max_items =
      (stack_at sts j).max_items) ∧
    (∀ j, (stack_at (geometry_reset output i x last sts).1 j).item_count =
      (if (stack_at sts j).mapped = true then 0 else (stack_at sts j).item_count)) ∧
    (((geometry_reset output i x last sts).2 = last ∧ ∀ j, (stack_at sts j).mapped = false) ∨
      (i ≤ (geometry_reset output i x last sts).2 ∧
        (stack_at sts ((geometry_reset output i x last sts).2 - i)).mapped = true ∧
        ∀ j, (stack_at sts j).mapped = true → i + j ≤ (geometry_reset output i x last sts).2))
  | [], i, x, last => by
    refine ⟨rfl, fun _ => rfl, fun _ => rfl, fun j => ?_, Or.inl ⟨rfl, fun j => ?_⟩⟩
    · simp [geometry_reset, stack_at_nil]
    · rw [stack_at_nil]; rfl
  | s :: rest, i, x, last => by
    cases hm : s.mapped with
    | false =>
      obtain ⟨i1, i2, i3, i4, i5⟩ := geometry_reset_spec output rest (i + 1) x last
      rw [geometry_reset_cons_unmapped output i x last s rest hm]
      refine ⟨by simp [i1], fun j => ?_, fun j => ?_, fun j => ?_, ?_⟩
      · cases j with
        | zero => simp [stack_at_cons_zero]
        | succ j => simp only [stack_at_cons_succ]; exact i2 j
      · cases j with
        | zero => simp [stack_at_cons_zero]
        | succ j => simp only [stack_at_cons_succ]; exact i3 j
      · cases j with
        | zero => simp [stack_at_cons_zero, hm]
        | succ j => simp only [stack_at_cons_succ]; exact i4 j
      · simp only
        rcases i5 with ⟨h1, h2⟩ | ⟨h1, h2, h3⟩
        · left
          refine ⟨h1, fun j => ?_⟩
          cases j with
          | zero => simp [stack_at_cons_zero, hm]
          | succ j => simp only [stack_at_cons_succ]; exact h2 j
        · right
          refine ⟨by omega, ?_, fun j hj => ?_⟩
          · obtain ⟨n, hn⟩ : ∃ n, (geometry_reset output (i + 1) x last rest).2 - i = n + 1 :=
              ⟨(geometry_reset output (i + 1) x last rest).2 - i - 1, by omega⟩
            rw [hn, stack_at_cons_succ]
            have : (geometry_reset output (i + 1) x last rest).2 - (i + 1) = n := by omega
            rw [this] at h2
            exact h2
          · cases j with
            | zero => rw [stack_at_cons_zero, hm] at hj; cases hj
            | succ j =>
              rw [stack_at_cons_succ] at hj
              have := h3 j hj
              omega
    | true =>
      obtain ⟨s1, x1, hr, hs1, hs2, hs3⟩ := geometry_reset_cons_mapped output i x last s rest hm
      obtain ⟨i1, i2, i3, i4, i5⟩ := geometry_reset_spec output rest (i + 1) x1 i
      rw [hr]
      refine ⟨by simp [i1], fun j => ?_, fun j => ?_, fun j => ?_, ?_⟩
      · cases j with
        | zero => simp [stack_at_cons_zero, hs1, hm]
        | succ j => simp only [stack_at_cons_succ]; exact i2 j
      · cases j with
        | zero => simp [stack_at_cons_zero, hs2]
        | succ j => simp only [stack_at_cons_succ]; exact i3 j
      · cases j with
        | zero => simp [stack_at_cons_zero, hs3, hm]
        | succ j => simp only [stack_at_cons_succ]; exact i4 j
      · simp only
        right
        rcases i5 with ⟨h1, h2⟩ | ⟨h1, h2, h3⟩
        · refine ⟨by omega, ?_, fun j hj => ?_⟩
          · rw [h1, Nat.sub_self, stack_at_cons_zero]; exact hm
          · cases j with
            | zero => omega
            | succ j =>
              rw [stack_at_cons_succ, h2 j] at hj
              cases hj
        · refine ⟨by omega, ?_, fun j hj => ?_⟩
          · obtain ⟨n, hn⟩ : ∃ n, (geometry_reset output (i + 1) x1 i rest).2 - i = n + 1 :=
              ⟨(geometry_reset output (i + 1) x1 i rest).2 - i - 1, by omega⟩
            rw [hn, stack_at_cons_succ]
            have : (geometry_reset output (i + 1) x1 i rest).2 - (i + 1) = n := by omega
            rw [this] at h2
            exact h2
          · cases j with
            | zero => omega
            | succ j =>
              rw [stack_at_cons_succ] at hj
              have := h3 j hj
              omega

/-- Effect of the seeding loop. -/
theorem assign_last_spec (L : Nat) : ∀ (vs : List tinywl_view) (sts : List gateway_panel_stack),
    (assign_last L sts vs).1.length = sts.length ∧
    (∀ j, (stack_at (assign_last L sts vs).1 j).mapped = (stack_at sts j).mapped) ∧
    (∀ j, (stack_at (assign_last L sts vs).1 j).max_items = (stack_at sts j).max_items) ∧
    (assign_last L sts vs).2 = vs.map (fun v => { v with stack_index := (L : Int) }) ∧
    (L < sts.length → ∀ j, (stack_at (assign_last L sts vs).1 j).item_count =
      (stack_at sts j).item_count + (if j = L then (vs.length : Int) else 0))
  | [], sts => by
    refine ⟨rfl, fun _ => rfl, fun _ => rfl, rfl, fun _ j => ?_⟩
    simp [assign_last]
  | v :: vs, sts => by
    obtain ⟨i1, i2, i3, i4, i5⟩ := assign_last_spec L vs (stack_update incr_count sts L)
    simp only [assign_last]
    refine ⟨by rw [i1, stack_update_length], fun j => ?_, fun j => ?_, ?_, fun hL j => ?_⟩
    · rw [i2, (stack_update_count_mapped sts L j).1]
    · rw [i3, (stack_update_count_max sts L j).1]
    · rw [i4]; rfl
    · rw [i5 (by rw [stack_update_length]; exact hL) j, incr_count_at sts L j hL]
      simp only [List.length_cons, Nat.cast_add, Nat.cast_one]
      split_ifs <;> omega

/-! ## The rectangle loop leaves the assignment alone -/

theorem same_load_refl (a : List gateway_panel_stack) : same_load a a :=
  fun _ => ⟨rfl, rfl, rfl⟩

theorem same_load_trans {a b c : List gateway_panel_stack} (h1 : same_load a b)
    (h2 : same_load b c) : same_load a c :=
  fun j => ⟨(h1 j).1.trans (h2 j).1, (h1 j).2.1.trans (h2 j).2.1, (h1 j).2.2.trans (h2 j).2.2⟩

theorem qualifies_congr {a b : List gateway_panel_stack} (h : same_load a b) (i t : Nat) :
    qualifies a i t = qualifies b i t := by
  unfold qualifies
  rw [(h i).1, (h i).2.1, (h i).2.2, (h t).2.2]

theorem settled_congr {a b : List gateway_panel_stack} (h : same_load a b) (t : Nat)
    (hs : settled b t) : settled a t := by
  intro i hi
  rw [qualifies_congr h]
  exact hs i hi

theorem stack_update_of_length_le (f : gateway_panel_stack → gateway_panel_stack) :
    ∀ (sts : List gateway_panel_stack) (i : Nat), sts.length ≤ i → stack_update f sts i = sts
  | [], _, _ => rfl
  | s :: rest, 0, h => by simp at h
  | s :: rest, i + 1, h => by
    simp only [stack_update]
    rw [stack_update_of_length_le f rest i (by simpa using h)]

theorem stack_update_same_load (f : gateway_panel_stack → gateway_panel_stack)
    (hf : ∀ s, (f s).mapped = s.mapped ∧ (f s).max_items = s.max_items ∧
      (f s).item_count = s.item_count)
    (sts : List gateway_panel_stack) (i : Nat) : same_load (stack_update f sts i) sts := by
  intro j
  by_cases hlt : i < sts.length
  · by_cases hij : i = j
    · subst hij
      rw [stack_at_update_eq f sts i hlt]
      exact hf _
    · rw [stack_at_update_ne f sts i j hij]
      exact ⟨rfl, rfl, rfl⟩
  · rw [stack_update_of_length_le f sts i (by omega)]
    exact ⟨rfl, rfl, rfl⟩

theorem place_view_stack_index (gaps : Nat) (output : tinywl_output) (st : gateway_panel_stack)
    (v : tinywl_view) : (place_view gaps output st v).stack_index = v.stack_index := by
  unfold place_view
  split_ifs <;> rfl

/-- The rectangle loop changes no `stack_index` and no `item_count`,
`max_items` or `mapped`. -/
theorem layout_views_frame (gaps : Nat) (output : tinywl_output) :
    ∀ (vs : List tinywl_view) (sts : List gateway_panel_stack),
    (layout_views gaps output sts vs).1.length = sts.length ∧
    same_load (layout_views gaps output sts vs).1 sts ∧
    (layout_views gaps output sts vs).2.map (fun v => v.stack_index) =
      vs.map (fun v => v.stack_index)
  | [], sts => ⟨rfl, same_load_refl _, rfl⟩
  | v :: vs, sts => by
    by_cases hc : output_contains_stack output v.stack_index = true
    · obtain ⟨i1, i2, i3⟩ := layout_views_frame gaps output vs
        (stack_update (advance_y (Int.tdiv (stack_at sts v.stack_index.toNat).height
          (stack_at sts v.stack_index.toNat).item_count)) sts v.stack_index.toNat)
      simp only [layout_views, hc, Bool.not_true, Bool.false_eq_true, if_false, List.map_cons]
      refine ⟨by rw [i1, stack_update_length], ?_, ?_⟩
      · exact same_load_trans i2
          (stack_update_same_load (advance_y _) (fun s => ⟨rfl, rfl, rfl⟩) _ _)
      · rw [i3, place_view_stack_index]
    · have hc2 : output_contains_stack output v.stack_index = false := by simpa using hc
      obtain ⟨i1, i2, i3⟩ := layout_views_frame gaps output vs sts
      simp only [layout_views, hc2, Bool.not_false, if_true, List.map_cons]
      exact ⟨i1, i2, by rw [i3]⟩

theorem views_on_congr : ∀ (vs ws : List tinywl_view),
    vs.map (fun v => v.stack_index) = ws.map (fun v => v.stack_index) →
    ∀ s, views_on vs s = views_on ws s
  | [], [], _, _ => rfl
  | [], _ :: _, h, _ => by simp at h
  | _ :: _, [], h, _ => by simp at h
  | v :: vs, w :: ws, h, s => by
    simp only [List.map_cons, List.cons.injEq] at h
    rw [views_on_cons, views_on_cons, views_on_congr vs ws h.2 s, h.1]

theorem mem_of_map_stack_index : ∀ (vs ws : List tinywl_view),
    vs.map (fun v => v.stack_index) = ws.map (fun v => v.stack_index) →
    ∀ v ∈ vs, ∃ w ∈ ws, w.stack_index = v.stack_index := by
  intro vs ws h v hv
  have h1 : v.stack_index ∈ vs.map (fun v => v.stack_index) := List.mem_map_of_mem _ hv
  rw [h] at h1
  obtain ⟨w, hw, hw2⟩ := List.mem_map.mp h1
  exact ⟨w, hw, hw2⟩

theorem panel_update_eq (gaps : Nat) (panel : gateway_panel) (output : tinywl_output) :
    (panel_update gaps panel output).stack_array =
      (layout_views gaps output (panel_update_balanced panel output).1
        (panel_update_balanced panel output).2).1 ∧
    (panel_update gaps panel output).views =
      (layout_views gaps output (panel_update_balanced panel output).1
        (panel_update_balanced panel output).2).2 :=
  ⟨rfl, rfl⟩

/-! ## The state after the rebalancing pass of `panel_update` -/

theorem assign_last_views (L : Nat) (sts : List gateway_panel_stack) (vs : List tinywl_view) :
    (∀ v ∈ (assign_last L sts vs).2, v.stack_index = (L : Int)) ∧
    (assign_last L sts vs).2.length = vs.length := by
  rw [(assign_last_spec L vs sts).2.2.2.1]
  refine ⟨fun v hv => ?_, by simp⟩
  obtain ⟨w, _, hw⟩ := List.mem_map.mp hv
  rw [← hw]

/-- Summary of the state `panel_update` is in when its rebalancing pass has
ended. -/
theorem panel_update_balanced_spec (panel : gateway_panel) (output : tinywl_output) :
    (∀ j, (stack_at (panel_update_balanced panel output).1 j).mapped =
      (stack_at panel.stack_array j).mapped) ∧
    (∀ j, (stack_at (panel_update_balanced panel output).1 j).max_items =
      (stack_at panel.stack_array j).max_items) ∧
    (∀ v ∈ (panel_update_balanced panel output).2, ∃ k : Nat, v.stack_index = (k : Int) ∧
      settled (panel_update_balanced panel output).1 k) ∧
    (∀ j : Nat, (stack_at panel.stack_array j).mapped = true →
      (stack_at (panel_update_balanced panel output).1 j).item_count =
        (views_on (panel_update_balanced panel output).2 (j : Int) : Int)) ∧
    ((∃ j, (stack_at panel.stack_array j).mapped = true) →
      ∀ v ∈ (panel_update_balanced panel output).2, ∃ k : Nat, v.stack_index = (k : Int) ∧
        (stack_at panel.stack_array k).mapped = true) ∧
    ((∀ j, (stack_at panel.stack_array j).mapped = false) →
      ∀ v ∈ (panel_update_balanced panel output).2, v.stack_index = 0) := by
  obtain ⟨g1, g2, g3, g4, g5⟩ :=
    geometry_reset_spec output panel.stack_array 0 output.layout_x 0
  obtain ⟨a1, a2, a3, a4, a5⟩ :=
    assign_last_spec (geometry_reset output 0 output.layout_x 0 panel.stack_array).2
      (redirect_partition panel.views panel.redirect_views).1
      (geometry_reset output 0 output.layout_x 0 panel.stack_array).1
  obtain ⟨av1, av2⟩ :=
    assign_last_views (geometry_reset output 0 output.layout_x 0 panel.stack_array).2
      (geometry_reset output 0 output.layout_x 0 panel.stack_array).1
      (redirect_partition panel.views panel.redirect_views).1
  have hB : panel_update_balanced panel output =
      rebalance_views
        (assign_last (geometry_reset output 0 output.layout_x 0 panel.stack_array).2
          (geometry_reset output 0 output.layout_x 0 panel.stack_array).1
          (redirect_partition panel.views panel.redirect_views).1).1
        (assign_last (geometry_reset output 0 output.layout_x 0 panel.stack_array).2
          (geometry_reset output 0 output.layout_x 0 panel.stack_array).1
          (redirect_partition panel.views panel.redirect_views).1).2 := rfl
  rcases g5 with ⟨h0, hun⟩ | ⟨_, hLm, _⟩
  · -- no stack is mapped: the pass moves nothing
    have hunA : ∀ j, (stack_at (assign_last
        (geometry_reset output 0 output.layout_x 0 panel.stack_array).2
        (geometry_reset output 0 output.layout_x 0 panel.stack_array).1
        (redirect_partition panel.views panel.redirect_views).1).1 j).mapped = false := by
      intro j; rw [a2, g2]; exact hun j
    have hid := rebalance_views_of_settled _ (assign_last
        (geometry_reset output 0 output.layout_x 0 panel.stack_array).2
        (geometry_reset output 0 output.layout_x 0 panel.stack_array).1
        (redirect_partition panel.views panel.redirect_views).1).2
      (fun v _ k _ i _ => qualifies_of_unmapped _ hunA i k)
    rw [hB, hid]
    refine ⟨fun j => by rw [a2, g2], fun j => by rw [a3, g3], fun v hv => ?_, fun j hj => ?_,
      fun ⟨j, hj⟩ => ?_, fun _ v hv => ?_⟩
    · refine ⟨_, av1 v hv, fun i _ => qualifies_of_unmapped _ hunA i _⟩
    · rw [hun j] at hj; cases hj
    · rw [hun j] at hj; cases hj
    · rw [av1 v hv, h0]; rfl
  · -- the views are seeded on a mapped stack
    simp only [Nat.sub_zero] at hLm
    have hL0 : (geometry_reset output 0 output.layout_x 0 panel.stack_array).2 <
        panel.stack_array.length := lt_length_of_mapped _ _ hLm
    have hLR : (geometry_reset output 0 output.layout_x 0 panel.stack_array).2 <
        (geometry_reset output 0 output.layout_x 0 panel.stack_array).1.length := by
      rw [g1]; exact hL0
    have hLA : (geometry_reset output 0 output.layout_x 0 panel.stack_array).2 <
        (assign_last (geometry_reset output 0 output.layout_x 0 panel.stack_array).2
          (geometry_reset output 0 output.layout_x 0 panel.stack_array).1
          (redirect_partition panel.views panel.redirect_views).1).1.length := by
      rw [a1]; exact hLR
    obtain ⟨c1, c2, c3, c4, c5⟩ := rebalance_views_count _ _ _ hLA av1
    obtain ⟨s1, _⟩ := rebalance_views_settled _ _ _ (fun _ => False) hLA av1
      (fun t ht => False.elim ht)
    rw [hB]
    refine ⟨fun j => by rw [c2, a2, g2], fun j => by rw [c3, a3, g3], s1, fun j hj => ?_,
      fun _ v hv => ?_, fun hun => ?_⟩
    · rw [c5 j, a5 hLR j, g4 j, av2]
      simp only [hj, if_true]
      split_ifs <;> omega
    · obtain ⟨k, hk1, _, hk3⟩ := c4 v hv
      refine ⟨k, hk1, ?_⟩
      rcases hk3 with h | h
      · rw [h]; exact hLm
      · rw [a2, g2] at h; exact h
    · rw [hun] at hLm; cases hLm

/-- When some stack is mapped, the rebalancing pass of `panel_update` starts
with every view on the highest mapped stack `L`, which alone has a nonzero
count among the mapped stacks. -/
theorem seeded_state (panel : gateway_panel) (output : tinywl_output)
    (h : ∃ j, (stack_at panel.stack_array j).mapped = true) :
    ∃ (L : Nat) (sts : List gateway_panel_stack) (vs : List tinywl_view),
      panel_update_balanced panel output = rebalance_views sts vs ∧
      panel_update_moves panel output = rebalance_views_moves sts vs ∧
      L < sts.length ∧ (∀ v ∈ vs, v.stack_index = (L : Int)) ∧
      (∀ j, (stack_at sts j).mapped = (stack_at panel.stack_array j).mapped) ∧
      (∀ j, (stack_at sts j).max_items = (stack_at panel.stack_array j).max_items) ∧
      (∀ j, (stack_at sts j).mapped = true →
        (stack_at sts j).item_count = (if j = L then (vs.length : Int) else 0)) ∧
      (stack_at panel.stack_array L).mapped = true ∧
      (∀ j, (stack_at panel.stack_array j).mapped = true → j ≤ L) ∧
      sts.length = panel.stack_array.length ∧
      vs.length = (redirect_partition panel.views panel.redirect_views).1.length ∧
      (∀ j, (stack_at panel.stack_array j).mapped = false →
        (stack_at sts j).item_count = (stack_at panel.stack_array j).item_count) := by
  obtain ⟨g1, g2, g3, g4, g5⟩ :=
    geometry_reset_spec output panel.stack_array 0 output.layout_x 0
  obtain ⟨a1, a2, a3, _, a5⟩ :=
    assign_last_spec (geometry_reset output 0 output.layout_x 0 panel.stack_array).2
      (redirect_partition panel.views panel.redirect_views).1
      (geometry_reset output 0 output.layout_x 0 panel.stack_array).1
  obtain ⟨av1, av2⟩ :=
    assign_last_views (geometry_reset output 0 output.layout_x 0 panel.stack_array).2
      (geometry_reset output 0 output.layout_x 0 panel.stack_array).1
      (redirect_partition panel.views panel.redirect_views).1
  rcases g5 with ⟨_, hun⟩ | ⟨_, hLm, hmax⟩
  · obtain ⟨j, hj⟩ := h
    rw [hun j] at hj; cases hj
  · simp only [Nat.sub_zero] at hLm
    have hLR : (geometry_reset output 0 output.layout_x 0 panel.stack_array).2 <
        (geometry_reset output 0 output.layout_x 0 panel.stack_array).1.length := by
      rw [g1]; exact lt_length_of_mapped _ _ hLm
    refine ⟨_, _, _, rfl, rfl, by rw [a1]; exact hLR, av1, fun j => by rw [a2, g2],
      fun j => by rw [a3, g3], fun j hj => ?_, hLm, fun j hj => by simpa using hmax j hj,
      by rw [a1, g1], av2, fun j hj => ?_⟩
    · rw [a2, g2] at hj
      rw [a5 hLR j, g4 j, av2]
      simp [hj]
    · have hne : ¬ j = (geometry_reset output 0 output.layout_x 0 panel.stack_array).2 := by
        intro he
        rw [he, hLm] at hj
        cases hj
      rw [a5 hLR j, g4 j]
      simp [hj, hne]

/-! ## Migrations -/

theorem rebalance_while_moves_ok : ∀ (fuel : Nat) (sts : List gateway_panel_stack) (idx : Nat),
    (∀ j, j < idx → (stack_at sts j).mapped = true → 0 ≤ (stack_at sts j).item_count) →
    ∀ m ∈ rebalance_while_moves fuel sts idx, migration_ok m
  | 0, _, _, _, m, hm => by simp [rebalance_while_moves] at hm
  | fuel + 1, sts, idx, hpos, m, hm => by
    cases hscan : scan_target sts idx idx with
    | none => simp [rebalance_while_moves, hscan] at hm
    | some d =>
      simp only [rebalance_while_moves, hscan, List.mem_cons] at hm
      obtain ⟨hd1, hd2, _⟩ := scan_target_some sts idx idx d hscan
      obtain ⟨q1, q2, q3⟩ := (qualifies_iff sts d idx).mp hd2
      rcases hm with hm | hm
      · subst hm
        refine ⟨hd1, q1, q2, ?_⟩
        have := hpos d hd1 q1
        rcases q3 with q3 | q3
        · exact Or.inr q3
        · left; simp only at this ⊢; omega
      · refine rebalance_while_moves_ok fuel (move_view sts idx d) d (fun j hj hjm => ?_) m hm
        rw [move_view_mapped] at hjm
        have e : stack_at (move_view sts idx d) j = stack_at sts j := by
          unfold move_view
          rw [stack_at_update_ne _ _ d j (by omega), stack_at_update_ne _ _ idx j (by omega)]
        rw [e]
        exact hpos j (by omega) hjm

theorem rebalance_views_moves_ok (L : Nat) : ∀ (vs : List tinywl_view)
    (sts : List gateway_panel_stack), L < sts.length →
    (∀ v ∈ vs, v.stack_index = (L : Int)) →
    (∀ j, j < L → (stack_at sts j).mapped = true → 0 ≤ (stack_at sts j).item_count) →
    ∀ m ∈ rebalance_views_moves sts vs, migration_ok m
  | [], _, _, _, _, m, hm => by simp [rebalance_views_moves] at hm
  | v :: vs, sts, hL, hvs, hpos, m, hm => by
    have hv : v.stack_index = (L : Int) := hvs v (List.mem_cons_self _ _)
    have hrest : ∀ w ∈ vs, w.stack_index = (L : Int) :=
      fun w hw => hvs w (List.mem_cons_of_mem _ hw)
    obtain ⟨_, w2, w3, _, _, w6, _⟩ := rebalance_while_spec L sts L hL
    simp only [rebalance_views_moves, List.mem_append, rebalance_view_at sts v L hv] at hm
    rcases hm with hm | hm
    · have h0 : ¬ v.stack_index < 0 := by rw [hv]; omega
      have h1 : v.stack_index.toNat = L := by rw [hv]; simp
      simp only [rebalance_view_moves, h0, if_false, h1] at hm
      exact rebalance_while_moves_ok L sts L hpos m hm
    · refine rebalance_views_moves_ok L vs _ (by rw [w2]; exact hL) hrest (fun j hj hjm => ?_) m hm
      rw [w3] at hjm
      rw [w6 j]
      have := hpos j hj hjm
      have hne : ¬ j = L := by omega
      simp only [hne, if_false]
      split_ifs <;> omega

theorem rebalance_views_moves_of_settled (sts : List gateway_panel_stack) :
    ∀ (vs : List tinywl_view),
      (∀ v ∈ vs, ∀ k : Nat, v.stack_index = (k : Int) → settled sts k) →
      rebalance_views_moves sts vs = []
  | [], _ => rfl
  | v :: vs, h => by
    have h1 := rebalance_view_of_settled sts v (h v (List.mem_cons_self _ _))
    have h2 := rebalance_views_moves_of_settled sts vs
      (fun w hw => h w (List.mem_cons_of_mem _ hw))
    have h3 : rebalance_view_moves sts v = [] := by
      unfold rebalance_view_moves
      by_cases h0 : v.stack_index < 0
      · simp [h0]
      · simp only [h0, if_false]
        have hk : v.stack_index = ((v.stack_index.toNat : Nat) : Int) := by
          rw [Int.toNat_of_nonneg (by omega)]
        have hs := (scan_target_none sts _ _).mpr (h v (List.mem_cons_self _ _) _ hk)
        cases hn : v.stack_index.toNat with
        | zero => rfl
        | succ n =>
          rw [hn] at hs
          simp [rebalance_while_moves, hs]
    simp [rebalance_views_moves, h1, h2, h3]

theorem moves_from_append : ∀ (a b : List migration) (sts : List gateway_panel_stack),
    moves_from sts a → moves_from (replay sts a) b → moves_from sts (a ++ b)
  | [], _, _, _, hb => hb
  | m :: a, b, sts, ha, hb => by
    simp only [List.cons_append, moves_from] at ha ⊢
    exact ⟨ha.1, moves_from_append a b _ ha.2 hb⟩

theorem rebalance_while_replay : ∀ (fuel : Nat) (sts : List gateway_panel_stack) (idx : Nat),
    moves_from sts (rebalance_while_moves fuel sts idx) ∧
    replay sts (rebalance_while_moves fuel sts idx) = (rebalance_while fuel sts idx).1
  | 0, _, _ => ⟨trivial, rfl⟩
  | fuel + 1, sts, idx => by
    cases hscan : scan_target sts idx idx with
    | none =>
      simp only [rebalance_while_moves, rebalance_while, hscan]
      exact ⟨trivial, rfl⟩
    | some d =>
      obtain ⟨i1, i2⟩ := rebalance_while_replay fuel (move_view sts idx d) d
      simp only [rebalance_while_moves, rebalance_while, hscan, moves_from, replay,
        List.foldl_cons]
      exact ⟨⟨trivial, i1⟩, i2⟩

/-- The recorded migrations are the whole effect of the rebalancing pass on
the stack array: they chain from the initial array and replaying them gives
the final one. -/
theorem rebalance_views_replay : ∀ (vs : List tinywl_view) (sts : List gateway_panel_stack),
    moves_from sts (rebalance_views_moves sts vs) ∧
    replay sts (rebalance_views_moves sts vs) = (rebalance_views sts vs).1
  | [], _ => ⟨trivial, rfl⟩
  | v :: vs, sts => by
    have hv : moves_from sts (rebalance_view_moves sts v) ∧
        replay sts (rebalance_view_moves sts v) = (rebalance_view sts v).1 := by
      unfold rebalance_view_moves rebalance_view
      by_cases h0 : v.stack_index < 0
      · simp only [h0, if_true]
        exact ⟨trivial, rfl⟩
      · simp only [h0, if_false]
        exact rebalance_while_replay _ _ _
    obtain ⟨i1, i2⟩ := rebalance_views_replay vs (rebalance_view sts v).1
    simp only [rebalance_views_moves, rebalance_views]
    refine ⟨moves_from_append _ _ _ hv.1 (by rw [hv.2]; exact i1), ?_⟩
    unfold replay at hv i2 ⊢
    rw [List.foldl_append, hv.2, i2]

/-! ## Capacity -/

theorem rebalance_views_bound (L : Nat) : ∀ (vs : List tinywl_view)
    (sts : List gateway_panel_stack), L < sts.length →
    (∀ v ∈ vs, v.stack_index = (L : Int)) →
    (∀ j, j ≠ L → (stack_at sts j).mapped = true →
      (stack_at sts j).item_count ≤ max (stack_at sts j).max_items 0) →
    ∀ j, j ≠ L → (stack_at sts j).mapped = true →
      (stack_at (rebalance_views sts vs).1 j).item_count ≤ max (stack_at sts j).max_items 0
  | [], _, _, _, hb, j, hj, hjm => hb j hj hjm
  | v :: vs, sts, hL, hvs, hb, j, hj, hjm => by
    have hv : v.stack_index = (L : Int) := hvs v (List.mem_cons_self _ _)
    have hrest : ∀ w ∈ vs, w.stack_index = (L : Int) :=
      fun w hw => hvs w (List.mem_cons_of_mem _ hw)
    obtain ⟨_, w2, w3, w4, w5, w6, _⟩ := rebalance_while_spec L sts L hL
    simp only [rebalance_views, rebalance_view_at sts v L hv]
    have key := rebalance_views_bound L vs (rebalance_while L sts L).1 (by rw [w2]; exact hL) hrest
      (fun i hi him => by
        rw [w3] at him
        rw [w4, w6 i]
        have := hb i hi him
        simp only [hi, if_false]
        rcases w5 with h | ⟨_, h⟩
        · rw [h]; simp only [hi, if_false]; omega
        · by_cases hik : i = (rebalance_while L sts L).2
          · rw [← hik] at h
            simp only [hik, if_true]
            rw [← hik]
            have := le_max_left (stack_at sts i).max_items 0
            omega
          · simp only [hik, if_false]; omega)
      j hj (by rw [w3]; exact hjm)
    rw [w4] at key
    exact key

/-! ## Sums of counts -/

theorem mapped_item_total_cons (s : gateway_panel_stack) (rest : List gateway_panel_stack) :
    mapped_item_total (s :: rest) =
      (if s.mapped = true then s.item_count else 0) + mapped_item_total rest := by
  unfold mapped_item_total
  cases hm : s.mapped <;> simp [List.filter_cons, hm]

theorem mapped_item_total_eq_sum : ∀ (sts : List gateway_panel_stack),
    mapped_item_total sts = ∑ j in Finset.range sts.length,
      (if (stack_at sts j).mapped = true then (stack_at sts j).item_count else 0)
  | [] => by simp [mapped_item_total]
  | s :: rest => by
    rw [mapped_item_total_cons, mapped_item_total_eq_sum rest, List.length_cons,
      Finset.sum_range_succ']
    simp only [stack_at_cons_succ, stack_at_cons_zero]
    ring

theorem sum_views_on (n : Nat) (m : Nat → Bool) : ∀ (vs : List tinywl_view),
    (∀ v ∈ vs, ∃ k : Nat, v.stack_index = (k : Int) ∧ k < n ∧ m k = true) →
    ∑ j in Finset.range n, (if m j = true then (views_on vs (j : Int) : Int) else 0) =
      (vs.length : Int)
  | [], _ => by simp [views_on]
  | v :: vs, h => by
    obtain ⟨k, hk1, hk2, hk3⟩ := h v (List.mem_cons_self _ _)
    have ih := sum_views_on n m vs (fun w hw => h w (List.mem_cons_of_mem _ hw))
    have e : ∀ j ∈ Finset.range n,
        (if m j = true then (views_on (v :: vs) (j : Int) : Int) else 0) =
          (if m j = true then (views_on vs (j : Int) : Int) else 0) +
            (if j = k then 1 else 0) := by
      intro j _
      rw [views_on_cons, hk1]
      by_cases hjk : j = k
      · subst hjk
        simp [hk3]
      · have : ¬ (k : Int) = (j : Int) := by omega
        simp [hjk, this]
    rw [Finset.sum_congr rfl e, Finset.sum_add_distrib, ih,
      Finset.sum_ite_eq' (Finset.range n) k (fun _ => (1 : Int))]
    simp [hk2]

/-! ## The assignment depends only on the loads -/

theorem scan_target_congr {a b : List gateway_panel_stack} (h : same_load a b) (sid : Nat) :
    ∀ n, scan_target a sid n = scan_target b sid n
  | 0 => rfl
  | n + 1 => by
    simp only [scan_target, qualifies_congr h, scan_target_congr h sid n]

theorem stack_update_congr (f : gateway_panel_stack → gateway_panel_stack)
    (hf : ∀ s t : gateway_panel_stack, s.mapped = t.mapped → s.max_items = t.max_items →
      s.item_count = t.item_count → (f s).mapped = (f t).mapped ∧
        (f s).max_items = (f t).max_items ∧ (f s).item_count = (f t).item_count)
    {a b : List gateway_panel_stack} (h : same_load a b) (hl : a.length = b.length) (i : Nat) :
    same_load (stack_update f a i) (stack_update f b i) := by
  intro j
  by_cases hlt : i < a.length
  · by_cases hij : i = j
    · subst hij
      rw [stack_at_update_eq f a i hlt, stack_at_update_eq f b i (by omega)]
      exact hf _ _ (h i).1 (h i).2.1 (h i).2.2
    · rw [stack_at_update_ne f a i j hij, stack_at_update_ne f b i j hij]
      exact h j
  · rw [stack_update_of_length_le f a i (by omega), stack_update_of_length_le f b i (by omega)]
    exact h j

theorem move_view_congr {a b : List gateway_panel_stack} (h : same_load a b)
    (hl : a.length = b.length) (src dst : Nat) :
    same_load (move_view a src dst) (move_view b src dst) := by
  unfold move_view
  refine stack_update_congr incr_count (fun s t h1 h2 h3 => ⟨h1, h2, ?_⟩)
    (stack_update_congr decr_count (fun s t h1 h2 h3 => ⟨h1, h2, ?_⟩) h hl src)
    (by rw [stack_update_length, stack_update_length]; exact hl) dst
  · simp [incr_count, h3]
  · simp [decr_count, h3]

theorem rebalance_while_congr : ∀ (fuel : Nat) (a b : List gateway_panel_stack) (idx : Nat),
    same_load a b → a.length = b.length →
    same_load (rebalance_while fuel a idx).1 (rebalance_while fuel b idx).1 ∧
    (rebalance_while fuel a idx).1.length = (rebalance_while fuel b idx).1.length ∧
    (rebalance_while fuel a idx).2 = (rebalance_while fuel b idx).2
  | 0, _, _, _, h, hl => ⟨h, hl, rfl⟩
  | fuel + 1, a, b, idx, h, hl => by
    have hs := scan_target_congr h idx idx
    cases hscan : scan_target b idx idx with
    | none =>
      rw [hscan] at hs
      have ea : rebalance_while (fuel + 1) a idx = (a, idx) := by simp [rebalance_while, hs]
      have eb : rebalance_while (fuel + 1) b idx = (b, idx) := by simp [rebalance_while, hscan]
      rw [ea, eb]
      exact ⟨h, hl, rfl⟩
    | some d =>
      rw [hscan] at hs
      have ea : rebalance_while (fuel + 1) a idx = rebalance_while fuel (move_view a idx d) d := by
        simp [rebalance_while, hs]
      have eb : rebalance_while (fuel + 1) b idx = rebalance_while fuel (move_view b idx d) d := by
        simp [rebalance_while, hscan]
      rw [ea, eb]
      exact rebalance_while_congr fuel _ _ d (move_view_congr h hl idx d)
        (by rw [move_view_length, move_view_length]; exact hl)

theorem rebalance_views_congr : ∀ (vs ws : List tinywl_view) (a b : List gateway_panel_stack),
    same_load a b → a.length = b.length →
    vs.map (fun v => v.stack_index) = ws.map (fun v => v.stack_index) →
    same_load (rebalance_views a vs).1 (rebalance_views b ws).1 ∧
    (rebalance_views a vs).1.length = (rebalance_views b ws).1.length ∧
    (rebalance_views a vs).2.map (fun v => v.stack_index) =
      (rebalance_views b ws).2.map (fun v => v.stack_index)
  | [], [], _, _, h, hl, _ => ⟨h, hl, rfl⟩
  | [], _ :: _, _, _, _, _, hv => by simp at hv
  | _ :: _, [], _, _, _, _, hv => by simp at hv
  | v :: vs, w :: ws, a, b, h, hl, hv => by
    simp only [List.map_cons, List.cons.injEq] at hv
    obtain ⟨hv1, hv2⟩ := hv
    have hstep : same_load (rebalance_view a v).1 (rebalance_view b w).1 ∧
        (rebalance_view a v).1.length = (rebalance_view b w).1.length ∧
        (rebalance_view a v).2.stack_index = (rebalance_view b w).2.stack_index := by
      unfold rebalance_view
      rw [← hv1]
      by_cases h0 : v.stack_index < 0
      · simp only [h0, if_true]
        exact ⟨h, hl, hv1⟩
      · simp only [h0, if_false]
        obtain ⟨r1, r2, r3⟩ := rebalance_while_congr v.stack_index.toNat a b v.stack_index.toNat h hl
        exact ⟨r1, r2, by rw [r3]⟩
    obtain ⟨i1, i2, i3⟩ := rebalance_views_congr vs ws _ _ hstep.1 hstep.2.1 hv2
    simp only [rebalance_views, List.map_cons]
    exact ⟨i1, i2, by rw [hstep.2.2, i3]⟩

theorem item_counts_of_same_load : ∀ (a b : List gateway_panel_stack),
    same_load a b → a.length = b.length → item_counts a = item_counts b
  | [], [], _, _ => rfl
  | [], _ :: _, _, hl => by simp at hl
  | _ :: _, [], _, hl => by simp at hl
  | s :: a, t :: b, h, hl => by
    have h0 := (h 0).2.2
    rw [stack_at_cons_zero, stack_at_cons_zero] at h0
    have ih := item_counts_of_same_load a b
      (fun j => by have := h (j + 1); simpa only [stack_at_cons_succ] using this)
      (by simpa using hl)
    unfold item_counts at ih ⊢
    simp only [List.map_cons, h0, ih]

/-- The item counts `panel_update` ends with are those of any other panel
that has the same mapped flags and `max_items`, the same counts on unmapped
stacks, and as many views left in the managed list by the redirect step. -/
theorem panel_update_counts_congr (gaps gaps2 : Nat) (p c : gateway_panel)
    (o o2 : tinywl_output)
    (hex : ∃ j, (stack_at p.stack_array j).mapped = true)
    (hl : p.stack_array.length = c.stack_array.length)
    (hm : ∀ j, (stack_at p.stack_array j).mapped = (stack_at c.stack_array j).mapped)
    (hx : ∀ j, (stack_at p.stack_array j).max_items = (stack_at c.stack_array j).max_items)
    (hu : ∀ j, (stack_at p.stack_array j).mapped = false →
      (stack_at p.stack_array j).item_count = (stack_at c.stack_array j).item_count)
    (hv : (redirect_partition p.views p.redirect_views).1.length =
      (redirect_partition c.views c.redirect_views).1.length) :
    item_counts (panel_update gaps p o).stack_array =
      item_counts (panel_update gaps2 c o2).stack_array := by
  obtain ⟨j0, hj0⟩ := hex
  obtain ⟨L, sts, vs, h1, _, h3, h4, h5, h6, h7, h8, h9, h10, h11, h12⟩ :=
    seeded_state p o ⟨j0, hj0⟩
  obtain ⟨L2, sts2, vs2, k1, _, k3, k4, k5, k6, k7, k8, k9, k10, k11, k12⟩ :=
    seeded_state c o2 ⟨j0, by rw [← hm]; exact hj0⟩
  have hLL : L = L2 := by
    have a1 := h9 L2 (by rw [hm]; exact k8)
    have a2 := k9 L (by rw [← hm]; exact h8)
    omega
  subst hLL
  have hlen : vs.length = vs2.length := by rw [h11, k11, hv]
  have hload : same_load sts sts2 := by
    intro j
    refine ⟨by rw [h5, k5, hm], by rw [h6, k6, hx], ?_⟩
    cases hjm : (stack_at p.stack_array j).mapped with
    | true =>
      rw [h7 j (by rw [h5]; exact hjm), k7 j (by rw [k5, ← hm]; exact hjm), hlen]
    | false =>
      rw [h12 j hjm, k12 j (by rw [← hm]; exact hjm), hu j hjm]
  have hidx : vs.map (fun v => v.stack_index) = vs2.map (fun v => v.stack_index) := by
    have e1 : vs.map (fun v => v.stack_index) = List.replicate vs.length (L : Int) :=
      List.eq_replicate_iff.mpr ⟨by simp, fun x hx => by
        obtain ⟨v, hv1, hv2⟩ := List.mem_map.mp hx
        rw [← hv2]; exact h4 v hv1⟩
    have e2 : vs2.map (fun v => v.stack_index) = List.replicate vs2.length (L : Int) :=
      List.eq_replicate_iff.mpr ⟨by simp, fun x hx => by
        obtain ⟨v, hv1, hv2⟩ := List.mem_map.mp hx
        rw [← hv2]; exact k4 v hv1⟩
    rw [e1, e2, hlen]
  obtain ⟨r1, r2, _⟩ := rebalance_views_congr vs vs2 sts sts2 hload (by rw [h10, k10, hl]) hidx
  obtain ⟨f1, f2, _⟩ := layout_views_frame gaps o (panel_update_balanced p o).2
    (panel_update_balanced p o).1
  obtain ⟨g1, g2, _⟩ := layout_views_frame gaps2 o2 (panel_update_balanced c o2).2
    (panel_update_balanced c o2).1
  rw [(panel_update_eq gaps p o).1, (panel_update_eq gaps2 c o2).1]
  refine item_counts_of_same_load _ _ (fun j => ?_) (by rw [f1, g1, h1, k1, r2])
  have hb : same_load (panel_update_balanced p o).1 (panel_update_balanced c o2).1 := by
    rw [h1, k1]; exact r1
  exact ⟨(f2 j).1.trans ((hb j).1.trans (g2 j).1.symm),
    (f2 j).2.1.trans ((hb j).2.1.trans (g2 j).2.1.symm),
    (f2 j).2.2.trans ((hb j).2.2.trans (g2 j).2.2.symm)⟩

/-! ## Claims on the layout pass -/

/-- C2. Running the rebalancing pass again on the state `panel_update` left
changes no `stack_index` and no stack (in particular no `item_count`), makes
no migration, and no view has a qualifying lower stack. -/
theorem panel_update_rebalance_idempotent (gaps : Nat) (panel : gateway_panel)
    (output : tinywl_output) :
    rebalance_views (panel_update gaps panel output).stack_array
        (panel_update gaps panel output).views =
      ((panel_update gaps panel output).stack_array, (panel_update gaps panel output).views) ∧
    rebalance_views_moves (panel_update gaps panel output).stack_array
        (panel_update gaps panel output).views = [] ∧
    ∀ v ∈ (panel_update gaps panel output).views, ∀ i : Nat, (i : Int) < v.stack_index →
      qualifies (panel_update gaps panel output).stack_array i v.stack_index.toNat = false := by
  obtain ⟨e1, e2⟩ := panel_update_eq gaps panel output
  obtain ⟨_, f2, f3⟩ := layout_views_frame gaps output (panel_update_balanced panel output).2
    (panel_update_balanced panel output).1
  obtain ⟨_, _, b3, _⟩ := panel_update_balanced_spec panel output
  have hs : ∀ v ∈ (panel_update gaps panel output).views, ∀ k : Nat,
      v.stack_index = (k : Int) → settled (panel_update gaps panel output).stack_array k := by
    intro v hv k hk
    rw [e2] at hv
    obtain ⟨w, hw1, hw2⟩ := mem_of_map_stack_index _ _ f3 v hv
    obtain ⟨k2, hk2, hk3⟩ := b3 w hw1
    have : k2 = k := by rw [hw2, hk] at hk2; omega
    subst this
    rw [e1]
    exact settled_congr f2 _ hk3
  refine ⟨rebalance_views_of_settled _ _ hs, rebalance_views_moves_of_settled _ _ hs, ?_⟩
  intro v hv i hi
  have hk : v.stack_index = ((v.stack_index.toNat : Nat) : Int) := by
    rw [Int.toNat_of_nonneg (by omega)]
  exact hs v hv _ hk i (by omega)

/-- C3. Every migration made by the rebalancing pass of `panel_update` goes to
a strictly lower-indexed mapped stack whose `item_count` before the move is
below its `max_items` and is 0 or at least 2 less than the `item_count` of the
stack the view leaves. -/
theorem panel_update_moves_ok (panel : gateway_panel) (output : tinywl_output)
    (m : migration) (hm : m ∈ panel_update_moves panel output) : migration_ok m := by
  by_cases h : ∃ j, (stack_at panel.stack_array j).mapped = true
  · obtain ⟨L, sts, vs, _, h2, h3, h4, _, _, h7, _, _⟩ := seeded_state panel output h
    rw [h2] at hm
    refine rebalance_views_moves_ok L vs sts h3 h4 (fun j hj hjm => ?_) m hm
    rw [h7 j hjm]
    split_ifs <;> omega
  · have hun : ∀ j, (stack_at panel.stack_array j).mapped = false := by
      intro j
      by_contra hj
      exact h ⟨j, by simpa using hj⟩
    obtain ⟨g1, g2, g3, g4, g5⟩ :=
      geometry_reset_spec output panel.stack_array 0 output.layout_x 0
    obtain ⟨a1, a2, _⟩ :=
      assign_last_spec (geometry_reset output 0 output.layout_x 0 panel.stack_array).2
        (redirect_partition panel.views panel.redirect_views).1
        (geometry_reset output 0 output.layout_x 0 panel.stack_array).1
    have hnil : panel_update_moves panel output = [] :=
      rebalance_views_moves_of_settled _ _
        (fun v _ k _ i _ => qualifies_of_unmapped _ (fun j => by rw [a2, g2]; exact hun j) i k)
    rw [hnil] at hm
    cases hm

/-- C3, at a sample: the first migration of the pass over 5 views on the
stack array of `main` goes from stack 3 to stack 2. -/
theorem panel_update_moves_ok_witness :
    sample_migration ∈ panel_update_moves (sample_panel ((List.range 5).map xdg_view))
        (sample_output [0, 1, 2, 3]) ∧
    migration_ok sample_migration :=
  ⟨by decide, panel_update_moves_ok (sample_panel ((List.range 5).map xdg_view))
    (sample_output [0, 1, 2, 3]) sample_migration (by decide)⟩

/-- C4, as stated, fails: with 7 views on the stack array of `main` the pass
ends with 3 views on stack 3, whose `max_items` is 2. -/
theorem panel_update_over_capacity :
    item_counts (panel_update 8 (sample_panel ((List.range 7).map xdg_view))
      (sample_output [0, 1, 2, 3])).stack_array = [1, 1, 2, 3] ∧
    ¬ ∀ s ∈ (panel_update 8 (sample_panel ((List.range 7).map xdg_view))
      (sample_output [0, 1, 2, 3])).stack_array, s.item_count ≤ s.max_items := by
  decide

/-- C4, amended. After `panel_update` every mapped stack that has a mapped
stack above it holds at most `max_items` views (at most 0 when `max_items` is
negative); only the highest mapped stack, on which the views are seeded, can
hold more. -/
theorem panel_update_capacity (gaps : Nat) (panel : gateway_panel) (output : tinywl_output)
    (s t : Nat) (hst : s < t) (hs : (stack_at panel.stack_array s).mapped = true)
    (ht : (stack_at panel.stack_array t).mapped = true) :
    (stack_at (panel_update gaps panel output).stack_array s).item_count ≤
      max (stack_at (panel_update gaps panel output).stack_array s).max_items 0 := by
  obtain ⟨e1, _⟩ := panel_update_eq gaps panel output
  obtain ⟨_, f2, _⟩ := layout_views_frame gaps output (panel_update_balanced panel output).2
    (panel_update_balanced panel output).1
  obtain ⟨L, sts, vs, h1, _, h3, h4, h5, h6, h7, _, h9, _⟩ := seeded_state panel output ⟨t, ht⟩
  have hsL : s ≠ L := by have := h9 t ht; omega
  have hb := rebalance_views_bound L vs sts h3 h4 (fun j hj hjm => by
    rw [h7 j hjm]; simp only [hj, if_false]; exact le_max_right _ _) s hsL (by rw [h5]; exact hs)
  obtain ⟨_, c2, c3, _⟩ := rebalance_views_count L vs sts h3 h4
  rw [e1, (f2 s).2.2, (f2 s).2.1, h1, c3]
  exact hb

/-- C4, amended, at a sample: with 7 views stack 2 stays within its
`max_items`. -/
theorem panel_update_capacity_witness :
    (2 : Nat) < 3 ∧
    (stack_at (panel_update 8 (sample_panel ((List.range 7).map xdg_view))
      (sample_output [0, 1, 2, 3])).stack_array 2).item_count ≤
      max (stack_at (panel_update 8 (sample_panel ((List.range 7).map xdg_view))
        (sample_output [0, 1, 2, 3])).stack_array 2).max_items 0 :=
  ⟨by decide, panel_update_capacity 8 _ _ 2 3 (by decide) (by decide) (by decide)⟩

/-- The layout pass never changes the `mapped` flag of a stack. -/
theorem panel_update_mapped (gaps : Nat) (panel : gateway_panel) (output : tinywl_output)
    (j : Nat) :
    (stack_at (panel_update gaps panel output).stack_array j).mapped =
      (stack_at panel.stack_array j).mapped := by
  obtain ⟨e1, _⟩ := panel_update_eq gaps panel output
  obtain ⟨_, f2, _⟩ := layout_views_frame gaps output (panel_update_balanced panel output).2
    (panel_update_balanced panel output).1
  obtain ⟨b1, _⟩ := panel_update_balanced_spec panel output
  rw [e1, (f2 j).1, b1]

/-- The sum over the mapped stacks needs a mapped stack: on a panel set up
without one, which no registration of an output leaves, the single managed
view is counted on the unmapped stack 0, so the mapped stacks sum to 0 while
the managed list has length 1. -/
theorem panel_update_mapped_total_unmapped :
    mapped_item_total (panel_update 8 (unmapped_panel [xdg_view 0])
      (sample_output [0, 1])).stack_array = 0 ∧
    (panel_update 8 (unmapped_panel [xdg_view 0]) (sample_output [0, 1])).views.length = 1 ∧
    mapped_item_total (panel_update 8 (unmapped_panel [xdg_view 0])
      (sample_output [0, 1])).stack_array ≠
      ((panel_update 8 (unmapped_panel [xdg_view 0]) (sample_output [0, 1])).views.length : Int) := by
  decide

/-- C5. After `panel_update` the `item_count` of every mapped stack `j` is the
number of managed views whose `stack_index` is `j`, and the `item_count`s of
the mapped stacks sum to the length of the managed list. The sum is taken on a
panel with a mapped stack: `panel_update` runs for registered outputs only,
`server_new_output` maps the stacks of the first output before any run, and
nothing clears `mapped`. -/
theorem panel_update_item_counts (gaps : Nat) (panel : gateway_panel)
    (output : tinywl_output) :
    (∀ j : Nat, (stack_at (panel_update gaps panel output).stack_array j).mapped = true →
      (stack_at (panel_update gaps panel output).stack_array j).item_count =
        (views_on (panel_update gaps panel output).views (j : Int) : Int)) ∧
    ((∃ j, (stack_at panel.stack_array j).mapped = true) →
      mapped_item_total (panel_update gaps panel output).stack_array =
        ((panel_update gaps panel output).views.length : Int)) := by
  obtain ⟨e1, e2⟩ := panel_update_eq gaps panel output
  obtain ⟨f1, f2, f3⟩ := layout_views_frame gaps output (panel_update_balanced panel output).2
    (panel_update_balanced panel output).1
  obtain ⟨b1, _, _, b4, b5, _⟩ := panel_update_balanced_spec panel output
  have hcount : ∀ j : Nat, (stack_at (panel_update gaps panel output).stack_array j).mapped = true →
      (stack_at (panel_update gaps panel output).stack_array j).item_count =
        (views_on (panel_update gaps panel output).views (j : Int) : Int) := by
    intro j hj
    rw [e1, (f2 j).1, b1] at hj
    rw [e1, e2, (f2 j).2.2, b4 j hj, views_on_congr _ _ f3]
  refine ⟨hcount, fun hex => ?_⟩
  rw [mapped_item_total_eq_sum]
  have hsum : ∀ j ∈ Finset.range (panel_update gaps panel output).stack_array.length,
      (if (stack_at (panel_update gaps panel output).stack_array j).mapped = true then
        (stack_at (panel_update gaps panel output).stack_array j).item_count else 0) =
      (if (stack_at (panel_update gaps panel output).stack_array j).mapped = true then
        (views_on (panel_update gaps panel output).views (j : Int) : Int) else 0) := by
    intro j _
    by_cases hj : (stack_at (panel_update gaps panel output).stack_array j).mapped = true
    · rw [if_pos hj, if_pos hj]; exact hcount j hj
    · rw [if_neg hj, if_neg hj]
  rw [Finset.sum_congr rfl hsum]
  refine sum_views_on _ (fun j => (stack_at (panel_update gaps panel output).stack_array j).mapped)
    _ (fun v hv => ?_)
  rw [e2] at hv
  obtain ⟨w, hw1, hw2⟩ := mem_of_map_stack_index _ _ f3 v hv
  obtain ⟨k, hk1, hk2⟩ := b5 hex w hw1
  have hkm : (stack_at (panel_update gaps panel output).stack_array k).mapped = true := by
    rw [e1, (f2 k).1, b1]; exact hk2
  exact ⟨k, by rw [← hw2, hk1], lt_length_of_mapped _ _ hkm, hkm⟩

/-- C5, at a state the program reaches: the panel of `two_views_server`, whose
stacks 0 and 1 the registration of the output mapped, and that output. -/
theorem panel_update_item_counts_witness :
    two_views_server.focused_panel.outputs = [registered_output] ∧
    (stack_at two_views_server.focused_panel.stack_array 0).mapped = true ∧
    (∀ j : Nat,
      (stack_at (panel_update 8 two_views_server.focused_panel
        registered_output).stack_array j).mapped = true →
      (stack_at (panel_update 8 two_views_server.focused_panel
        registered_output).stack_array j).item_count =
        (views_on (panel_update 8 two_views_server.focused_panel registered_output).views
          (j : Int) : Int)) ∧
    mapped_item_total (panel_update 8 two_views_server.focused_panel
      registered_output).stack_array =
    ((panel_update 8 two_views_server.focused_panel registered_output).views.length : Int) :=
  ⟨by decide, by decide,
    (panel_update_item_counts 8 two_views_server.focused_panel registered_output).1,
    (panel_update_item_counts 8 two_views_server.focused_panel registered_output).2
      ⟨0, by decide⟩⟩

/-- The premise of a mapped stack is needed: on a panel set up without one,
which no registration of an output leaves, the managed view ends with
`stack_index = 0`, which is neither a mapped stack nor -1. -/
theorem unmapped_panel_index_zero :
    ((panel_update 8 (unmapped_panel [xdg_view 0]) (sample_output [0, 1])).views.map
      (fun v => v.stack_index)) = [0] ∧
    ¬ ∀ v ∈ (panel_update 8 (unmapped_panel [xdg_view 0]) (sample_output [0, 1])).views,
      on_mapped_stack (panel_update 8 (unmapped_panel [xdg_view 0])
        (sample_output [0, 1])).stack_array v ∨ v.stack_index = -1 := by
  decide

/-- Without a mapped stack every managed view ends with `stack_index = 0`. -/
theorem panel_update_index_unmapped (gaps : Nat) (panel : gateway_panel)
    (output : tinywl_output) (hun : ∀ j, (stack_at panel.stack_array j).mapped = false) :
    ∀ v ∈ (panel_update gaps panel output).views, v.stack_index = 0 := by
  obtain ⟨_, e2⟩ := panel_update_eq gaps panel output
  obtain ⟨_, _, f3⟩ := layout_views_frame gaps output (panel_update_balanced panel output).2
    (panel_update_balanced panel output).1
  obtain ⟨_, _, _, _, _, b6⟩ := panel_update_balanced_spec panel output
  intro v hv
  rw [e2] at hv
  obtain ⟨w, hw1, hw2⟩ := mem_of_map_stack_index _ _ f3 v hv
  rw [← hw2]
  exact b6 hun w hw1

/-- C6. After `panel_update` every view of the managed list has a
`stack_index` that is the index of a mapped stack or -1; in fact it always is
the index of a mapped stack, the -1 of the first loop being overwritten for
every managed view. The panel has a mapped stack: `panel_update` runs for
registered outputs only, `server_new_output` maps the stacks of the first
output before any run, and nothing clears `mapped`. -/
theorem panel_update_index (gaps : Nat) (panel : gateway_panel) (output : tinywl_output)
    (hmapped : ∃ j, (stack_at panel.stack_array j).mapped = true) :
    (∀ v ∈ (panel_update gaps panel output).views,
      on_mapped_stack (panel_update gaps panel output).stack_array v ∨ v.stack_index = -1) ∧
    (∀ v ∈ (panel_update gaps panel output).views,
      on_mapped_stack (panel_update gaps panel output).stack_array v) := by
  obtain ⟨e1, e2⟩ := panel_update_eq gaps panel output
  obtain ⟨_, f2, f3⟩ := layout_views_frame gaps output (panel_update_balanced panel output).2
    (panel_update_balanced panel output).1
  obtain ⟨b1, _, _, _, b5, _⟩ := panel_update_balanced_spec panel output
  have key : ∀ v ∈ (panel_update gaps panel output).views,
      on_mapped_stack (panel_update gaps panel output).stack_array v := by
    intro v hv
    rw [e2] at hv
    obtain ⟨w, hw1, hw2⟩ := mem_of_map_stack_index _ _ f3 v hv
    obtain ⟨k, hk1, hk2⟩ := b5 hmapped w hw1
    have hvk : v.stack_index = (k : Int) := by rw [← hw2, hk1]
    refine ⟨by rw [hvk]; omega, ?_⟩
    rw [hvk, Int.toNat_ofNat, e1, (f2 k).1, b1]
    exact hk2
  exact ⟨fun v hv => Or.inl (key v hv), key⟩

/-- C6, at a state the program reaches: the panel of `two_views_server`, whose
stacks 0 and 1 the registration of the output mapped, and that output. -/
theorem panel_update_index_witness :
    two_views_server.focused_panel.outputs = [registered_output] ∧
    (stack_at two_views_server.focused_panel.stack_array 0).mapped = true ∧
    ∀ v ∈ (panel_update 8 two_views_server.focused_panel registered_output).views,
      on_mapped_stack (panel_update 8 two_views_server.focused_panel
        registered_output).stack_array v ∨ v.stack_index = -1 :=
  ⟨by decide, by decide,
    (panel_update_index 8 two_views_server.focused_panel registered_output
      ⟨0, by decide⟩).1⟩

theorem redirect_partition_length : ∀ (vs red : List tinywl_view),
    (∀ v ∈ vs, is_override_redirect v = false) →
    (redirect_partition vs red).1.length = vs.length
  | [], _, _ => rfl
  | v :: vs, red, h => by
    have hv := h v (List.mem_cons_self _ _)
    have ih := redirect_partition_length vs red (fun w hw => h w (List.mem_cons_of_mem _ hw))
    unfold is_override_redirect at hv
    unfold redirect_partition
    cases hx : v.xwayland_surface with
    | none => simp [ih]
    | some xw =>
      rw [hx] at hv
      simp only at hv
      simp [hv, ih]

/-- C1, as stated, fails: with 5 views on stacks of `max_items` 1, 1, 2, 2, all
mapped and claimed by one output, the pass does not end with counts
1, 1, 2, 1. -/
theorem five_views_counts_differ :
    item_counts (panel_update 8 (sample_panel ((List.range 5).map xdg_view))
      (sample_output [0, 1, 2, 3])).stack_array ≠ [1, 1, 2, 1] := by
  decide

/-- C1, amended. For a panel with 4 stacks of `max_items` 1, 1, 2, 2, all
mapped, and 5 managed views (none of them an override-redirect window),
`panel_update` ends with `item_count`s 1, 1, 1, 2 for stacks 0 to 3, whatever
the output, the gap and the earlier counts. -/
theorem panel_update_five_views (gaps : Nat) (panel : gateway_panel) (output : tinywl_output)
    (hst : panel.stack_array.map (fun s => (s.max_items, s.mapped)) =
      [(1, true), (1, true), (2, true), (2, true)])
    (hov : ∀ v ∈ panel.views, is_override_redirect v = false)
    (h5 : panel.views.length = 5) :
    item_counts (panel_update gaps panel output).stack_array = [1, 1, 1, 2] := by
  have hc : item_counts (panel_update 8 (sample_panel ((List.range 5).map xdg_view))
      (sample_output [0, 1, 2, 3])).stack_array = [1, 1, 1, 2] := by decide
  rw [← hc]
  obtain ⟨sts, hsts⟩ : ∃ sts, panel.stack_array = sts := ⟨_, rfl⟩
  rw [hsts] at hst
  rcases sts with _ | ⟨s0, _ | ⟨s1, _ | ⟨s2, _ | ⟨s3, _ | ⟨s4, rest⟩⟩⟩⟩⟩ <;>
    simp only [List.map_cons, List.map_nil, List.cons.injEq, Prod.mk.injEq, reduceCtorEq,
      and_false, false_and, and_true] at hst
  obtain ⟨⟨a0, b0⟩, ⟨a1, b1⟩, ⟨a2, b2⟩, a3, b3⟩ := hst
  have hfields : ∀ j, (stack_at panel.stack_array j).mapped =
        (stack_at (main_stacks true true true true) j).mapped ∧
      (stack_at panel.stack_array j).max_items =
        (stack_at (main_stacks true true true true) j).max_items := by
    intro j
    rw [hsts]
    rcases j with _ | _ | _ | _ | j <;>
      simp [stack_at, main_stacks, a0, a1, a2, a3, b0, b1, b2, b3]
  refine panel_update_counts_congr gaps 8 panel _ output _ ⟨0, ?_⟩ ?_ (fun j => (hfields j).1)
    (fun j => (hfields j).2) (fun j hj => ?_) ?_
  · rw [(hfields 0).1]; decide
  · rw [hsts]; rfl
  · rw [(hfields j).1] at hj
    rcases j with _ | _ | _ | _ | j
    · simp [stack_at, main_stacks] at hj
    · simp [stack_at, main_stacks] at hj
    · simp [stack_at, main_stacks] at hj
    · simp [stack_at, main_stacks] at hj
    · rw [hsts]
      simp [stack_at, sample_panel, main_stacks]
  · rw [redirect_partition_length _ _ hov, h5]
    decide

/-- C1, amended, at a sample: five shell views on the panel of `main`. -/
theorem panel_update_five_views_witness :
    item_counts (panel_update 8 (sample_panel ((List.range 5).map xdg_view))
      (sample_output [0, 1, 2, 3])).stack_array = [1, 1, 1, 2] :=
  panel_update_five_views 8 (sample_panel ((List.range 5).map xdg_view))
    (sample_output [0, 1, 2, 3]) (by decide) (by decide) (by decide)

/-! ## View lists: lookups -/

theorem find_of_mem_nodup : ∀ (l : List tinywl_view) (v : tinywl_view),
    (l.map (fun u => u.id)).Nodup → v ∈ l →
    l.find? (fun u => decide (u.id = v.id)) = some v
  | [], _, _, h => by cases h
  | u :: l, v, hn, h => by
    simp only [List.map_cons, List.nodup_cons] at hn
    rcases List.mem_cons.mp h with h1 | h1
    · subst h1
      simp
    · have hne : ¬ u.id = v.id := by
        intro he
        exact hn.1 (by rw [he]; exact List.mem_map_of_mem (fun u => u.id) h1)
      simp only [List.find?_cons, hne, decide_False]
      exact find_of_mem_nodup l v hn.2 h1

theorem find_view_of_mem (p : gateway_panel) (v : tinywl_view)
    (hn : (p.views.map (fun u => u.id)).Nodup) (hv : v ∈ p.views) :
    find_view p v.id = some v := by
  unfold find_view
  rw [List.append_assoc, List.find?_append, find_of_mem_nodup p.views v hn hv]
  rfl

theorem has_view_of_mem (l : List tinywl_view) (v : tinywl_view) (hv : v ∈ l) :
    has_view l v.id = true := by
  unfold has_view
  rw [List.any_eq_true]
  exact ⟨v, hv, by simp⟩

theorem list_of_view_of_mem (p : gateway_panel) (v : tinywl_view) (hv : v ∈ p.views) :
    list_of_view p v.id = some view_list.managed := by
  unfold list_of_view
  rw [has_view_of_mem p.views v hv]
  rfl

theorem next_in_mem : ∀ (l : List tinywl_view) (a n : Nat),
    next_in l a = some n → ∃ w ∈ l, w.id = n
  | [], _, _, h => by simp [next_in] at h
  | [_], _, _, h => by simp [next_in] at h
  | v :: w :: rest, a, n, h => by
    unfold next_in at h
    by_cases hva : v.id = a
    · simp only [hva, if_true, Option.some.injEq] at h
      exact ⟨w, by simp, h⟩
    · simp only [hva, if_false] at h
      obtain ⟨u, hu1, hu2⟩ := next_in_mem (w :: rest) a n h
      exact ⟨u, List.mem_cons_of_mem _ hu1, hu2⟩

theorem next_in_ne : ∀ (l : List tinywl_view) (a n : Nat),
    (l.map (fun u => u.id)).Nodup → next_in l a = some n → n ≠ a
  | [], _, _, _, h => by simp [next_in] at h
  | [_], _, _, _, h => by simp [next_in] at h
  | v :: w :: rest, a, n, hn, h => by
    unfold next_in at h
    simp only [List.map_cons, List.nodup_cons] at hn
    by_cases hva : v.id = a
    · simp only [hva, if_true, Option.some.injEq] at h
      intro he
      apply hn.1
      rw [hva, ← he, ← h]
      simp
    · simp only [hva, if_false] at h
      exact next_in_ne (w :: rest) a n (by simp only [List.map_cons, List.nodup_cons]; exact hn.2) h

theorem prev_in_mem : ∀ (l : List tinywl_view) (a n : Nat),
    prev_in l a = some n → ∃ w ∈ l, w.id = n
  | [], _, _, h => by simp [prev_in] at h
  | [_], _, _, h => by simp [prev_in] at h
  | v :: w :: rest, a, n, h => by
    unfold prev_in at h
    by_cases hwa : w.id = a
    · simp only [hwa, if_true, Option.some.injEq] at h
      exact ⟨v, by simp, h⟩
    · simp only [hwa, if_false] at h
      obtain ⟨u, hu1, hu2⟩ := prev_in_mem (w :: rest) a n h
      exact ⟨u, List.mem_cons_of_mem _ hu1, hu2⟩

theorem prev_in_ne : ∀ (l : List tinywl_view) (a n : Nat),
    (l.map (fun u => u.id)).Nodup → prev_in l a = some n → n ≠ a
  | [], _, _, _, h => by simp [prev_in] at h
  | [_], _, _, _, h => by simp [prev_in] at h
  | v :: w :: rest, a, n, hn, h => by
    unfold prev_in at h
    simp only [List.map_cons, List.nodup_cons] at hn
    by_cases hwa : w.id = a
    · simp only [hwa, if_true, Option.some.injEq] at h
      intro he
      apply hn.1
      rw [h, he, ← hwa]
      simp
    · simp only [hwa, if_false] at h
      exact prev_in_ne (w :: rest) a n (by simp only [List.map_cons, List.nodup_cons]; exact hn.2) h

/-- A view without a successor in a list of at least two views has a
predecessor. -/
theorem prev_in_of_last : ∀ (l : List tinywl_view) (v : tinywl_view),
    (l.map (fun u => u.id)).Nodup → v ∈ l → next_in l v.id = none → 1 < l.length →
    ∃ m, prev_in l v.id = some m
  | [], _, _, h, _, _ => by cases h
  | [_], _, _, _, _, hl => by simp at hl
  | u :: w :: rest, v, hn, hv, hnext, _ => by
    unfold next_in at hnext
    by_cases huv : u.id = v.id
    · simp [huv] at hnext
    · simp only [huv, if_false] at hnext
      unfold prev_in
      by_cases hwv : w.id = v.id
      · exact ⟨u.id, by simp [hwv]⟩
      · simp only [hwv, if_false]
        have hv2 : v ∈ w :: rest := by
          rcases List.mem_cons.mp hv with h | h
          · subst h; exact absurd rfl huv
          · exact h
        have hn2 : ((w :: rest).map (fun u => u.id)).Nodup := by
          simp only [List.map_cons, List.nodup_cons] at hn ⊢
          exact hn.2
        cases rest with
        | nil =>
          simp only [List.mem_singleton] at hv2
          subst hv2
          exact absurd rfl hwv
        | cons x rest2 =>
          exact prev_in_of_last (w :: x :: rest2) v hn2 hv2 hnext (by simp)

/-! ## View lists: what the focus and layout steps keep -/

theorem same_tags_refl (p : gateway_panel) : same_tags p p := ⟨rfl, rfl, rfl⟩

theorem same_tags_trans {p q r : gateway_panel} (h1 : same_tags p q) (h2 : same_tags q r) :
    same_tags p r :=
  ⟨h2.1.trans h1.1, h2.2.1.trans h1.2.1, h2.2.2.trans h1.2.2⟩

theorem map_tag_update (a : Nat) (f : tinywl_view → tinywl_view)
    (hf : ∀ u, view_tag (f u) = view_tag u) (l : List tinywl_view) :
    (l.map (fun v => if v.id = a then f v else v)).map view_tag = l.map view_tag := by
  rw [List.map_map]
  apply List.map_congr_left
  intro v _
  simp only [Function.comp]
  split_ifs
  · exact hf v
  · rfl

theorem update_view_same_tags (a : Nat) (f : tinywl_view → tinywl_view)
    (hf : ∀ u, view_tag (f u) = view_tag u) (p : gateway_panel) :
    same_tags p (update_view a f p) :=
  ⟨map_tag_update a f hf _, map_tag_update a f hf _, map_tag_update a f hf _⟩

theorem set_focused_by_tag (b : Bool) (u : tinywl_view) :
    view_tag (set_focused_by b u) = view_tag u := rfl

theorem refocus_same_tags (p : gateway_panel) (id : Nat) : same_tags p (refocus p id) := by
  unfold refocus
  cases hf : p.focused_view with
  | none =>
    exact update_view_same_tags id _ (set_focused_by_tag true) _
  | some f =>
    exact same_tags_trans (update_view_same_tags f _ (set_focused_by_tag false) p)
      (update_view_same_tags id _ (set_focused_by_tag true) _)

theorem refocus_focused_view (p : gateway_panel) (id : Nat) :
    (refocus p id).focused_view = some id := by
  unfold refocus
  cases p.focused_view <;> rfl

theorem refocus_outputs (p : gateway_panel) (id : Nat) :
    (refocus p id).outputs = p.outputs ∧ (refocus p id).stack_array = p.stack_array := by
  unfold refocus
  cases p.focused_view <;> exact ⟨rfl, rfl⟩

/-- The panel after `focus_view` is the panel before, or the panel with the
focus fields reassigned to the requested view. -/
theorem focus_view_panel (s : tinywl_server) (view : Option Nat) (m : Bool) :
    ((focus_view s view m).focused_panel = s.focused_panel ∨
      ∃ id, view = some id ∧ (focus_view s view m).focused_panel = refocus s.focused_panel id) ∧
    (focus_view s view m).window_gaps = s.window_gaps := by
  unfold focus_view
  cases view with
  | none => exact ⟨Or.inl rfl, rfl⟩
  | some id =>
    simp only
    cases hfind : find_view s.focused_panel id with
    | none => exact ⟨Or.inl rfl, rfl⟩
    | some v =>
      simp only
      cases m with
      | true =>
        simp only [if_true]
        split_ifs
        · exact ⟨Or.inl rfl, rfl⟩
        · exact ⟨Or.inr ⟨id, rfl, rfl⟩, rfl⟩
      | false =>
        simp only [Bool.false_eq_true, if_false]
        split_ifs
        · exact ⟨Or.inl rfl, rfl⟩
        · exact ⟨Or.inr ⟨id, rfl, rfl⟩, rfl⟩

/-- When the seat's keyboard focus is not on the surface of the requested
view, `focus_view` reassigns the focus fields. -/
theorem focus_view_proceeds (s : tinywl_server) (id : Nat) (w : tinywl_view)
    (hfind : find_view s.focused_panel id = some w)
    (hseat : s.keyboard_focused_surface ≠ view_surface w) :
    (focus_view s (some id) false).focused_panel = refocus s.focused_panel id ∧
    (focus_view s (some id) false).window_gaps = s.window_gaps := by
  unfold focus_view
  simp only [hfind, Bool.false_eq_true, if_false]
  have h : ¬ (warp_to s w).keyboard_focused_surface = view_surface w := hseat
  simp only [h, if_false]
  exact ⟨rfl, rfl⟩

theorem focus_view_same_tags (s : tinywl_server) (view : Option Nat) (m : Bool) :
    same_tags s.focused_panel (focus_view s view m).focused_panel := by
  rcases (focus_view_panel s view m).1 with h | ⟨id, _, h⟩
  · rw [h]; exact same_tags_refl _
  · rw [h]; exact refocus_same_tags _ _

/-- Refocusing the view that is already the panel's focused view keeps the
panel's focused view. -/
theorem focus_view_focused_view (s : tinywl_server) (m : Bool) :
    (focus_view s s.focused_panel.focused_view m).focused_panel.focused_view =
      s.focused_panel.focused_view := by
  rcases (focus_view_panel s s.focused_panel.focused_view m).1 with h | ⟨id, h1, h⟩
  · rw [h]
  · rw [h, refocus_focused_view, h1]

theorem no_override_of_tags (l l2 : List tinywl_view)
    (h : l2.map view_tag = l.map view_tag)
    (hno : ∀ v ∈ l, is_override_redirect v = false) :
    ∀ v ∈ l2, is_override_redirect v = false := by
  intro v hv
  have h1 : view_tag v ∈ l2.map view_tag := List.mem_map_of_mem _ hv
  rw [h] at h1
  obtain ⟨w, hw1, hw2⟩ := List.mem_map.mp h1
  have h2 : is_override_redirect w = is_override_redirect v := congrArg Prod.snd hw2
  rw [← h2]
  exact hno w hw1

theorem redirect_partition_no_override : ∀ (vs red : List tinywl_view),
    (∀ v ∈ vs, is_override_redirect v = false) →
    (redirect_partition vs red).1.map view_tag = vs.map view_tag ∧
    (redirect_partition vs red).2 = red
  | [], _, _ => ⟨rfl, rfl⟩
  | v :: vs, red, h => by
    have hv := h v (List.mem_cons_self _ _)
    obtain ⟨i1, i2⟩ :=
      redirect_partition_no_override vs red (fun w hw => h w (List.mem_cons_of_mem _ hw))
    unfold is_override_redirect at hv
    unfold redirect_partition
    cases hx : v.xwayland_surface with
    | none =>
      simp only [List.map_cons, i1, i2, and_true]
      congr 1
      simp [view_tag, is_override_redirect, hx]
    | some xw =>
      rw [hx] at hv
      simp only at hv
      simp only [hv, Bool.false_eq_true, if_false, List.map_cons, i1, i2, and_true]
      congr 1
      simp [view_tag, is_override_redirect, hx]

theorem rebalance_view_tag (sts : List gateway_panel_stack) (v : tinywl_view) :
    view_tag (rebalance_view sts v).2 = view_tag v := by
  unfold rebalance_view
  split_ifs <;> rfl

theorem rebalance_views_tags : ∀ (vs : List tinywl_view) (sts : List gateway_panel_stack),
    (rebalance_views sts vs).2.map view_tag = vs.map view_tag
  | [], _ => rfl
  | v :: vs, sts => by
    simp only [rebalance_views, List.map_cons, rebalance_view_tag,
      rebalance_views_tags vs (rebalance_view sts v).1]

theorem place_view_tag (gaps : Nat) (output : tinywl_output) (st : gateway_panel_stack)
    (v : tinywl_view) : view_tag (place_view gaps output st v) = view_tag v := by
  unfold place_view
  split_ifs <;> rfl

theorem layout_views_tags (gaps : Nat) (output : tinywl_output) :
    ∀ (vs : List tinywl_view) (sts : List gateway_panel_stack),
    (layout_views gaps output sts vs).2.map view_tag = vs.map view_tag
  | [], _ => rfl
  | v :: vs, sts => by
    by_cases hc : output_contains_stack output v.stack_index = true
    · simp only [layout_views, hc, Bool.not_true, Bool.false_eq_true, if_false, List.map_cons,
        place_view_tag, layout_views_tags gaps output vs]
    · have hc2 : output_contains_stack output v.stack_index = false := by simpa using hc
      simp only [layout_views, hc2, Bool.not_false, if_true, List.map_cons,
        layout_views_tags gaps output vs]

/-- Without an override-redirect window in the managed list, `panel_update`
keeps the three view lists (as lists of views, in order), the focused view and
the outputs. -/
theorem panel_update_same_tags (gaps : Nat) (p : gateway_panel) (o : tinywl_output)
    (hno : ∀ v ∈ p.views, is_override_redirect v = false) :
    same_tags p (panel_update gaps p o) ∧
    (panel_update gaps p o).unmapped_views = p.unmapped_views ∧
    (panel_update gaps p o).focused_view = p.focused_view ∧
    (panel_update gaps p o).outputs = p.outputs := by
  obtain ⟨r1, r2⟩ := redirect_partition_no_override p.views p.redirect_views hno
  refine ⟨⟨?_, ?_, rfl⟩, rfl, rfl, rfl⟩
  · show (layout_views gaps o _ _).2.map view_tag = _
    rw [layout_views_tags, rebalance_views_tags, (assign_last_spec _ _ _).2.2.2.1, List.map_map,
      ← r1]
    rfl
  · show (redirect_partition p.views p.redirect_views).2.map view_tag = _
    rw [r2]

theorem panel_update_fold_same_tags (gaps : Nat) : ∀ (os : List tinywl_output)
    (p : gateway_panel), (∀ v ∈ p.views, is_override_redirect v = false) →
    same_tags p (os.foldl (fun q o => panel_update gaps q o) p) ∧
    (os.foldl (fun q o => panel_update gaps q o) p).unmapped_views = p.unmapped_views ∧
    (os.foldl (fun q o => panel_update gaps q o) p).focused_view = p.focused_view
  | [], p, _ => ⟨same_tags_refl p, rfl, rfl⟩
  | o :: os, p, hno => by
    obtain ⟨h1, h2, h3, _⟩ := panel_update_same_tags gaps p o hno
    obtain ⟨i1, i2, i3⟩ := panel_update_fold_same_tags gaps os (panel_update gaps p o)
      (no_override_of_tags _ _ h1.1 hno)
    simp only [List.foldl_cons]
    exact ⟨same_tags_trans h1 i1, i2.trans h2, i3.trans h3⟩

/-- The focused view of the panel is the same before and after `center_mouse`,
whatever the views. -/
theorem panel_update_fold_focused_view (gaps : Nat) : ∀ (os : List tinywl_output)
    (p : gateway_panel),
    (os.foldl (fun q o => panel_update gaps q o) p).focused_view = p.focused_view
  | [], _ => rfl
  | o :: os, p => by
    simp only [List.foldl_cons]
    rw [panel_update_fold_focused_view gaps os (panel_update gaps p o)]
    rfl

theorem layout_outputs_focused_view (gaps : Nat) (p : gateway_panel) :
    (layout_outputs gaps p).focused_view = p.focused_view :=
  panel_update_fold_focused_view gaps p.outputs p

theorem layout_outputs_same_tags (gaps : Nat) (p : gateway_panel)
    (hno : ∀ v ∈ p.views, is_override_redirect v = false) :
    same_tags p (layout_outputs gaps p) ∧
    (layout_outputs gaps p).unmapped_views = p.unmapped_views :=
  ⟨(panel_update_fold_same_tags gaps p.outputs p hno).1,
    (panel_update_fold_same_tags gaps p.outputs p hno).2.1⟩

theorem center_mouse_focused_view (s : tinywl_server) :
    (center_mouse s).focused_panel.focused_view = s.focused_panel.focused_view := by
  unfold center_mouse
  simp only
  have h := focus_view_focused_view
    (with_panel s (layout_outputs s.window_gaps s.focused_panel)) false
  simp only [with_panel] at h ⊢
  rw [h, layout_outputs_focused_view]

theorem center_mouse_same_tags (s : tinywl_server)
    (hno : ∀ v ∈ s.focused_panel.views, is_override_redirect v = false) :
    same_tags s.focused_panel (center_mouse s).focused_panel := by
  unfold center_mouse
  simp only
  exact same_tags_trans (layout_outputs_same_tags s.window_gaps s.focused_panel hno).1
    (focus_view_same_tags (with_panel s (layout_outputs s.window_gaps s.focused_panel)) _ false)

/-! ## Unmapping a view -/

theorem move_to_unmapped_focused_view (a : Nat) (p : gateway_panel) :
    (move_to_unmapped a p).focused_view = p.focused_view := by
  unfold move_to_unmapped
  cases find_view p a <;> rfl

theorem move_to_unmapped_views (a : Nat) (p : gateway_panel) :
    (move_to_unmapped a p).views = p.views.filter (fun u => !decide (u.id = a)) := by
  unfold move_to_unmapped
  cases h : find_view p a with
  | some v => rfl
  | none =>
    simp only
    symm
    rw [List.filter_eq_self]
    intro u hu
    unfold find_view at h
    rw [List.find?_eq_none] at h
    have := h u (by simp [hu])
    simpa using this

theorem link_next_of_mem (p : gateway_panel) (v : tinywl_view) (hv : v ∈ p.views) :
    link_next p v.id =
      (match next_in p.views v.id with
       | some n => some (wl_link.view n)
       | none => some (wl_link.head view_list.managed)) := by
  unfold link_next
  rw [list_of_view_of_mem p v hv]
  rfl

theorem link_prev_of_mem (p : gateway_panel) (v : tinywl_view) (hv : v ∈ p.views) :
    link_prev p v.id =
      (match prev_in p.views v.id with
       | some n => some (wl_link.view n)
       | none => some (wl_link.head view_list.managed)) := by
  unfold link_prev
  rw [list_of_view_of_mem p v hv]
  rfl

/-- The branch the unmap handler takes for a focused view of the managed
list. -/
theorem xdg_surface_unmap_focused (s : tinywl_server) (v : tinywl_view)
    (hv : v ∈ s.focused_panel.views)
    (hid : (s.focused_panel.views.map (fun u => u.id)).Nodup)
    (hfb : v.focused_by = true) :
    (∀ n, next_in s.focused_panel.views v.id = some n →
      xdg_surface_unmap s v.id = some (unmap_refocus s v.id n)) ∧
    (next_in s.focused_panel.views v.id = none → 1 < s.focused_panel.views.length →
      ∃ m, prev_in s.focused_panel.views v.id = some m ∧
        xdg_surface_unmap s v.id = some (unmap_refocus s v.id m)) ∧
    (next_in s.focused_panel.views v.id = none → s.focused_panel.views.length ≤ 1 →
      xdg_surface_unmap s v.id =
        some (with_panel s (move_to_unmapped v.id
          (update_view v.id (set_focused_by false)
            { s.focused_panel with focused_view := none })))) := by
  have hfind := find_view_of_mem s.focused_panel v hid hv
  refine ⟨fun n hn => ?_, fun hn hl => ?_, fun hn hl => ?_⟩
  · unfold xdg_surface_unmap
    simp only [hfind, hfb, if_true, link_next_of_mem s.focused_panel v hv, hn]
  · obtain ⟨m, hm⟩ := prev_in_of_last s.focused_panel.views v hid hv hn hl
    refine ⟨m, hm, ?_⟩
    unfold xdg_surface_unmap
    simp only [hfind, hfb, if_true, link_next_of_mem s.focused_panel v hv, hn, gt_iff_lt, hl,
      link_prev_of_mem s.focused_panel v hv, hm]
  · have hl2 : ¬ s.focused_panel.views.length > 1 := by omega
    unfold xdg_surface_unmap
    simp only [hfind, hfb, if_true, link_next_of_mem s.focused_panel v hv, hn, hl2, if_false]
    rfl

/-- After the refocusing tail of the unmap handler, the neighbour `n` is the
panel's focused view, provided the seat's keyboard focus is not already on its
surface. -/
theorem unmap_refocus_focused_view (s : tinywl_server) (a n : Nat) (w : tinywl_view)
    (hfind : find_view s.focused_panel n = some w)
    (hseat : s.keyboard_focused_surface ≠ view_surface w) :
    (unmap_refocus s a n).focused_panel.focused_view = some n := by
  unfold unmap_refocus
  simp only
  rw [center_mouse_focused_view]
  simp only [clear_focused_by, with_panel]
  rw [move_to_unmapped_focused_view]
  show (focus_view s (some n) false).focused_panel.focused_view = some n
  rw [(focus_view_proceeds s n w hfind hseat).1, refocus_focused_view]

theorem surface_ne_of_id_ne (l : List tinywl_view) (v w : tinywl_view)
    (hsurf : (l.map view_surface).Nodup) (hv : v ∈ l) (hw : w ∈ l) (hne : w.id ≠ v.id) :
    view_surface v ≠ view_surface w := by
  intro he
  have := List.inj_on_of_nodup_map hsurf hv hw he
  rw [this] at hne
  exact hne rfl

/-- C8. Unmapping the panel's focused view `v` while the seat's keyboard focus
is on its surface: a list successor becomes the focused view; without a
successor and with more than one managed view the list predecessor does; a
sole view leaves the panel without focused view and the managed list empty.
The two unmap handlers agree. -/
theorem unmap_focused_fallback (s : tinywl_server) (v : tinywl_view)
    (hv : v ∈ s.focused_panel.views)
    (hid : (s.focused_panel.views.map (fun u => u.id)).Nodup)
    (hsurf : (s.focused_panel.views.map view_surface).Nodup)
    (_hf : s.focused_panel.focused_view = some v.id)
    (hfb : v.focused_by = true)
    (hseat : s.keyboard_focused_surface = view_surface v) :
    (∀ n, next_in s.focused_panel.views v.id = some n →
      (xdg_surface_unmap s v.id).map (fun t => t.focused_panel.focused_view) = some (some n)) ∧
    (next_in s.focused_panel.views v.id = none → 1 < s.focused_panel.views.length →
      ∃ m, prev_in s.focused_panel.views v.id = some m ∧
        (xdg_surface_unmap s v.id).map (fun t => t.focused_panel.focused_view) =
          some (some m)) ∧
    (s.focused_panel.views.length ≤ 1 →
      (xdg_surface_unmap s v.id).map
        (fun t => (t.focused_panel.focused_view, t.focused_panel.views)) = some (none, [])) ∧
    xwayland_surface_unmap s v.id = xdg_surface_unmap s v.id := by
  obtain ⟨b1, b2, b3⟩ := xdg_surface_unmap_focused s v hv hid hfb
  have key : ∀ n, n ≠ v.id → (∃ w ∈ s.focused_panel.views, w.id = n) →
      (unmap_refocus s v.id n).focused_panel.focused_view = some n := by
    intro n hne ⟨w, hw1, hw2⟩
    have hfind := find_view_of_mem s.focused_panel w hid hw1
    rw [hw2] at hfind
    refine unmap_refocus_focused_view s v.id n w hfind ?_
    rw [hseat]
    exact surface_ne_of_id_ne _ v w hsurf hv hw1 (by rw [hw2]; exact hne)
  refine ⟨fun n hn => ?_, fun hn hl => ?_, fun hl => ?_, rfl⟩
  · rw [b1 n hn, Option.map_some', key n (next_in_ne _ _ _ hid hn) (next_in_mem _ _ _ hn)]
  · obtain ⟨m, hm1, hm2⟩ := b2 hn hl
    refine ⟨m, hm1, ?_⟩
    rw [hm2, Option.map_some', key m (prev_in_ne _ _ _ hid hm1) (prev_in_mem _ _ _ hm1)]
  · obtain ⟨l, hl2⟩ : ∃ l, s.focused_panel.views = l := ⟨_, rfl⟩
    have hvl : s.focused_panel.views = [v] := by
      rw [hl2] at hv hl ⊢
      match l, hv, hl with
      | [u], hv, _ => simp only [List.mem_singleton] at hv; rw [hv]
      | _ :: _ :: _, _, hl => simp at hl
    have hn : next_in s.focused_panel.views v.id = none := by rw [hvl]; rfl
    rw [b3 hn hl, Option.map_some']
    simp only [with_panel, move_to_unmapped_focused_view]
    rw [move_to_unmapped_views]
    simp [update_view, hvl, set_focused_by]

theorem find_map_id (g : tinywl_view → tinywl_view) (hg : ∀ u, (g u).id = u.id) (a : Nat) :
    ∀ (l : List tinywl_view),
      (l.map g).find? (fun u => decide (u.id = a)) =
        (l.find? (fun u => decide (u.id = a))).map g
  | [] => rfl
  | u :: l => by
    simp only [List.map_cons, List.find?_cons, hg]
    by_cases h : u.id = a
    · simp [h]
    · simp only [h, decide_False]
      exact find_map_id g hg a l

theorem find_view_update_view (b : Nat) (f : tinywl_view → tinywl_view)
    (hf : ∀ u, (f u).id = u.id) (p : gateway_panel) (a : Nat) :
    find_view (update_view b f p) a =
      (find_view p a).map (fun v => if v.id = b then f v else v) := by
  unfold find_view update_view
  simp only
  rw [← List.map_append, ← List.map_append]
  apply find_map_id
  intro u
  split_ifs
  · exact hf u
  · rfl

theorem find_view_id (p : gateway_panel) (a : Nat) (v : tinywl_view)
    (h : find_view p a = some v) : v.id = a := by
  unfold find_view at h
  have := List.find?_some h
  simpa using this

/-- The record of a view other than `n` after the focus fields were reassigned
to `n` differs from the record before at most in `focused_by`. -/
theorem find_view_refocus (p : gateway_panel) (n a : Nat) (v : tinywl_view)
    (h : find_view p a = some v) (hne : a ≠ n) :
    ∃ v2, find_view (refocus p n) a = some v2 ∧
      set_focused_by false v2 = set_focused_by false v := by
  have hva := find_view_id p a v h
  have hvn : ¬ v.id = n := by rw [hva]; exact hne
  unfold refocus
  cases hf : p.focused_view with
  | none =>
    simp only
    rw [find_view_update_view n (set_focused_by true) (fun _ => rfl)]
    have h2 : find_view { p with focused_view := some n } a = some v := h
    rw [h2]
    exact ⟨v, by simp [hvn], rfl⟩
  | some f =>
    simp only
    rw [find_view_update_view n (set_focused_by true) (fun _ => rfl)]
    have h2 : find_view { update_view f (set_focused_by false) p with focused_view := some n } a =
        find_view (update_view f (set_focused_by false) p) a := rfl
    rw [h2, find_view_update_view f (set_focused_by false) (fun _ => rfl), h]
    by_cases hvf : v.id = f
    · refine ⟨set_focused_by false v, ?_, rfl⟩
      have : ¬ (set_focused_by false v).id = n := hvn
      simp [hvf, this]
    · exact ⟨v, by simp [hvf, hvn], rfl⟩

theorem move_to_unmapped_unmapped (a : Nat) (p : gateway_panel) (v : tinywl_view)
    (h : find_view p a = some v) :
    (move_to_unmapped a p).unmapped_views =
      v :: p.unmapped_views.filter (fun u => !decide (u.id = a)) := by
  unfold move_to_unmapped
  rw [h]
  rfl

theorem refocus_unmapped_head (p : gateway_panel) (n : Nat) (u : tinywl_view)
    (rest : List tinywl_view) (hf : p.focused_view = some n)
    (hu : p.unmapped_views = u :: rest) (hne : u.id ≠ n) :
    ∃ rest2, (refocus p n).unmapped_views = u :: rest2 := by
  unfold refocus
  simp only [hf, update_view, hu, List.map_cons, hne, if_false]
  exact ⟨_, rfl⟩

theorem center_mouse_unmapped_head (s : tinywl_server) (n : Nat) (u : tinywl_view)
    (rest : List tinywl_view)
    (hno : ∀ v ∈ s.focused_panel.views, is_override_redirect v = false)
    (hf : s.focused_panel.focused_view = some n)
    (hu : s.focused_panel.unmapped_views = u :: rest) (hne : u.id ≠ n) :
    ∃ rest2, (center_mouse s).focused_panel.unmapped_views = u :: rest2 := by
  have hP1 := (layout_outputs_same_tags s.window_gaps s.focused_panel hno).2
  have hP2 := layout_outputs_focused_view s.window_gaps s.focused_panel
  unfold center_mouse
  simp only
  rcases (focus_view_panel (with_panel s (layout_outputs s.window_gaps s.focused_panel))
    (layout_outputs s.window_gaps s.focused_panel).focused_view false).1 with h | ⟨id, h1, h⟩
  · rw [h]
    exact ⟨rest, by simp only [with_panel]; rw [hP1, hu]⟩
  · rw [h]
    have hid : id = n := by
      rw [hP2, hf] at h1
      exact (Option.some.inj h1).symm
    subst hid
    exact refocus_unmapped_head _ id u rest (by simp only [with_panel]; rw [hP2, hf])
      (by simp only [with_panel]; rw [hP1, hu]) hne

theorem filter_ids (l : List tinywl_view) (a : Nat) :
    (l.filter (fun u => !decide (u.id = a))).map (fun u => u.id) =
      (l.map (fun u => u.id)).filter (fun i => !decide (i = a)) := by
  rw [List.filter_map]
  rfl

theorem filter_tags (l : List tinywl_view) (a : Nat) :
    (l.filter (fun u => !decide (u.id = a))).map view_tag =
      (l.map view_tag).filter (fun t => !decide (t.1 = a)) := by
  rw [List.filter_map]
  rfl

theorem ids_of_tags (l l2 : List tinywl_view) (h : l2.map view_tag = l.map view_tag) :
    l2.map (fun u => u.id) = l.map (fun u => u.id) := by
  have h2 := congrArg (List.map Prod.fst) h
  simpa [List.map_map, Function.comp, view_tag] using h2

theorem length_filter_ne (l : List Nat) (a : Nat) (hn : l.Nodup) (ha : a ∈ l) :
    (l.filter (fun i => !decide (i = a))).length + 1 = l.length := by
  have h1 : l.filter (fun i => !decide (i = a)) = l.erase a := by
    rw [List.Nodup.erase_eq_filter hn a]
    apply List.filter_congr
    intro x _
    by_cases hx : x = a <;> simp [hx]
  rw [h1, List.length_erase_of_mem ha]
  have : 0 < l.length := List.length_pos_of_mem ha
  omega

/-- What the refocusing tail of the unmap handler does to the view lists. -/
theorem unmap_refocus_lists (s : tinywl_server) (a n : Nat) (v : tinywl_view)
    (hfind : find_view s.focused_panel a = some v) (hne : a ≠ n)
    (hno : ∀ u ∈ s.focused_panel.views, is_override_redirect u = false) :
    (unmap_refocus s a n).focused_panel.views.map view_tag =
      (s.focused_panel.views.map view_tag).filter (fun t => !decide (t.1 = a)) ∧
    (∃ u rest, (unmap_refocus s a n).focused_panel.unmapped_views = u :: rest ∧ u.id = a) ∧
    (∀ w, find_view s.focused_panel n = some w →
      s.keyboard_focused_surface ≠ view_surface w →
      ∃ rest, (unmap_refocus s a n).focused_panel.unmapped_views =
        set_focused_by false v :: rest) := by
  have hva := find_view_id _ _ _ hfind
  have t1 := focus_view_same_tags s (some n) false
  have t2 := update_view_same_tags a (set_focused_by false) (set_focused_by_tag false)
    (focus_view s (some n) false).focused_panel
  have hfind1 : ∃ v1, find_view (focus_view s (some n) false).focused_panel a = some v1 ∧
      set_focused_by false v1 = set_focused_by false v := by
    rcases (focus_view_panel s (some n) false).1 with h | ⟨id, h1, h⟩
    · rw [h]; exact ⟨v, hfind, rfl⟩
    · rw [h]
      have : id = n := (Option.some.inj h1).symm
      subst this
      exact find_view_refocus _ _ _ _ hfind hne
  obtain ⟨v1, hv1, hv1e⟩ := hfind1
  have hfind2 : find_view (update_view a (set_focused_by false)
      (focus_view s (some n) false).focused_panel) a = some (set_focused_by false v) := by
    rw [find_view_update_view a (set_focused_by false) (fun _ => rfl), hv1]
    simp [find_view_id _ _ _ hv1, hv1e]
  have hno2 : ∀ u ∈ (update_view a (set_focused_by false)
      (focus_view s (some n) false).focused_panel).views, is_override_redirect u = false :=
    no_override_of_tags _ _ (same_tags_trans t1 t2).1 hno
  have hno3 : ∀ u ∈ (move_to_unmapped a (update_view a (set_focused_by false)
      (focus_view s (some n) false).focused_panel)).views, is_override_redirect u = false := by
    intro u hu
    rw [move_to_unmapped_views] at hu
    exact hno2 u (List.mem_filter.mp hu).1
  have hu3 := move_to_unmapped_unmapped a _ _ hfind2
  have hcm := center_mouse_same_tags
    (with_panel (clear_focused_by (focus_view s (some n) false) a)
      (move_to_unmapped a (clear_focused_by (focus_view s (some n) false) a).focused_panel))
    hno3
  have hres : unmap_refocus s a n = center_mouse
      (with_panel (clear_focused_by (focus_view s (some n) false) a)
        (move_to_unmapped a (clear_focused_by (focus_view s (some n) false) a).focused_panel)) :=
    rfl
  rw [hres]
  refine ⟨?_, ?_, fun w hw hseat => ?_⟩
  · rw [hcm.1]
    show (move_to_unmapped a (update_view a (set_focused_by false)
      (focus_view s (some n) false).focused_panel)).views.map view_tag = _
    rw [move_to_unmapped_views, filter_tags, (same_tags_trans t1 t2).1]
  · have h3 := hcm.2.2
    have h4 : (with_panel (clear_focused_by (focus_view s (some n) false) a)
        (move_to_unmapped a
          (clear_focused_by (focus_view s (some n) false) a).focused_panel)).focused_panel.unmapped_views =
        set_focused_by false v :: _ := hu3
    rw [h4, List.map_cons] at h3
    cases hc : (center_mouse (with_panel (clear_focused_by (focus_view s (some n) false) a)
        (move_to_unmapped a
          (clear_focused_by (focus_view s (some n) false) a).focused_panel))).focused_panel.unmapped_views with
    | nil => rw [hc] at h3; simp at h3
    | cons u rest =>
      rw [hc, List.map_cons, List.cons.injEq] at h3
      refine ⟨u, rest, rfl, ?_⟩
      have := congrArg Prod.fst h3.1
      simp only [view_tag] at this
      rw [this]
      exact hva
  · have hp := (focus_view_proceeds s n w hw hseat).1
    refine center_mouse_unmapped_head _ n (set_focused_by false v) _ hno3 ?_ hu3 ?_
    · show (move_to_unmapped a _).focused_view = some n
      rw [move_to_unmapped_focused_view]
      show (focus_view s (some n) false).focused_panel.focused_view = some n
      rw [hp, refocus_focused_view]
    · show v.id ≠ n
      rw [hva]; exact hne

theorem ids_of_filtered_tags (l l2 : List tinywl_view) (a : Nat)
    (h : l2.map view_tag = (l.map view_tag).filter (fun t => !decide (t.1 = a))) :
    l2.map (fun u => u.id) = (l.map (fun u => u.id)).filter (fun i => !decide (i = a)) := by
  have h2 := congrArg (List.map Prod.fst) h
  rw [List.map_map] at h2
  have h3 : (List.filter (fun t : Nat × Bool => !decide (t.1 = a)) (l.map view_tag)).map Prod.fst =
      ((l.map view_tag).map Prod.fst).filter (fun i => !decide (i = a)) := by
    have h4 : List.filter (fun i => !decide (i = a)) (List.map Prod.fst (l.map view_tag)) =
        List.map Prod.fst
          (List.filter ((fun i => !decide (i = a)) ∘ Prod.fst) (l.map view_tag)) :=
      List.filter_map _ _
    rw [h4]
    rfl
  rw [h3, List.map_map] at h2
  exact h2

theorem set_focused_by_false_self (v : tinywl_view) (h : v.focused_by = false) :
    set_focused_by false v = v := by
  cases v
  simp only [set_focused_by] at h ⊢
  rw [h]

/-- When the seat's keyboard focus is on the surface of the requested view,
`focus_view` returns before it touches the panel. -/
theorem focus_view_early (s : tinywl_server) (id : Nat) (w : tinywl_view)
    (hfind : find_view s.focused_panel id = some w)
    (hseat : s.keyboard_focused_surface = view_surface w) :
    (focus_view s (some id) false).focused_panel = s.focused_panel := by
  unfold focus_view
  simp only [hfind, Bool.false_eq_true, if_false]
  have h : (warp_to s w).keyboard_focused_surface = view_surface w := hseat
  simp only [h, if_true]
  rfl

/-- After `focus_view` for the view `n` the panel's focused view is not
another view `a`, unless it was `a` before and the call returned early. -/
theorem focus_view_focused_view_ne (s : tinywl_server) (a n : Nat) (w : tinywl_view)
    (hfind : find_view s.focused_panel n = some w) (hne : a ≠ n)
    (h : s.keyboard_focused_surface = view_surface w →
      s.focused_panel.focused_view ≠ some a) :
    (focus_view s (some n) false).focused_panel.focused_view ≠ some a := by
  by_cases hseat : s.keyboard_focused_surface = view_surface w
  · rw [focus_view_early s n w hfind hseat]
    exact h hseat
  · rw [(focus_view_proceeds s n w hfind hseat).1, refocus_focused_view]
    intro he
    exact hne (Option.some.inj he).symm

/-- The call of `center_mouse` leaves the first view of the unmapped list as it
is, unless that view is the panel's focused view. -/
theorem center_mouse_unmapped_head_of_ne (s : tinywl_server) (u : tinywl_view)
    (rest : List tinywl_view)
    (hno : ∀ v ∈ s.focused_panel.views, is_override_redirect v = false)
    (hf : s.focused_panel.focused_view ≠ some u.id)
    (hu : s.focused_panel.unmapped_views = u :: rest) :
    ∃ rest2, (center_mouse s).focused_panel.unmapped_views = u :: rest2 := by
  have hP1 := (layout_outputs_same_tags s.window_gaps s.focused_panel hno).2
  have hP2 := layout_outputs_focused_view s.window_gaps s.focused_panel
  unfold center_mouse
  simp only
  rcases (focus_view_panel (with_panel s (layout_outputs s.window_gaps s.focused_panel))
    (layout_outputs s.window_gaps s.focused_panel).focused_view false).1 with h | ⟨id, h1, h⟩
  · rw [h]
    exact ⟨rest, by simp only [with_panel]; rw [hP1, hu]⟩
  · rw [h]
    rw [hP2] at h1
    have hne : u.id ≠ id := by
      intro he
      rw [he] at hf
      exact hf h1
    exact refocus_unmapped_head _ id u rest (by simp only [with_panel]; rw [hP2, h1])
      (by simp only [with_panel]; rw [hP1, hu]) hne

/-- The refocusing tail of the unmap handler leaves the unmapped view at the
front of the unmapped list with `focused_by` cleared, when the panel's focused
view after the first `focus_view` is not the unmapped view. -/
theorem unmap_refocus_cleared (s : tinywl_server) (a n : Nat) (v : tinywl_view)
    (hfind : find_view s.focused_panel a = some v) (hne : a ≠ n)
    (hno : ∀ u ∈ s.focused_panel.views, is_override_redirect u = false)
    (hfv : (focus_view s (some n) false).focused_panel.focused_view ≠ some a) :
    ∃ rest, (unmap_refocus s a n).focused_panel.unmapped_views =
      set_focused_by false v :: rest := by
  have hva := find_view_id _ _ _ hfind
  have t1 := focus_view_same_tags s (some n) false
  have t2 := update_view_same_tags a (set_focused_by false) (set_focused_by_tag false)
    (focus_view s (some n) false).focused_panel
  have hfind1 : ∃ v1, find_view (focus_view s (some n) false).focused_panel a = some v1 ∧
      set_focused_by false v1 = set_focused_by false v := by
    rcases (focus_view_panel s (some n) false).1 with h | ⟨id, h1, h⟩
    · rw [h]; exact ⟨v, hfind, rfl⟩
    · rw [h]
      have : id = n := (Option.some.inj h1).symm
      subst this
      exact find_view_refocus _ _ _ _ hfind hne
  obtain ⟨v1, hv1, hv1e⟩ := hfind1
  have hfind2 : find_view (update_view a (set_focused_by false)
      (focus_view s (some n) false).focused_panel) a = some (set_focused_by false v) := by
    rw [find_view_update_view a (set_focused_by false) (fun _ => rfl), hv1]
    simp [find_view_id _ _ _ hv1, hv1e]
  have hno2 : ∀ u ∈ (update_view a (set_focused_by false)
      (focus_view s (some n) false).focused_panel).views, is_override_redirect u = false :=
    no_override_of_tags _ _ (same_tags_trans t1 t2).1 hno
  have hno3 : ∀ u ∈ (move_to_unmapped a (update_view a (set_focused_by false)
      (focus_view s (some n) false).focused_panel)).views, is_override_redirect u = false := by
    intro u hu
    rw [move_to_unmapped_views] at hu
    exact hno2 u (List.mem_filter.mp hu).1
  have hu3 := move_to_unmapped_unmapped a _ _ hfind2
  have hres : unmap_refocus s a n = center_mouse
      (with_panel (clear_focused_by (focus_view s (some n) false) a)
        (move_to_unmapped a (clear_focused_by (focus_view s (some n) false) a).focused_panel)) :=
    rfl
  rw [hres]
  refine center_mouse_unmapped_head_of_ne _ (set_focused_by false v) _ hno3 ?_ hu3
  show (move_to_unmapped a _).focused_view ≠ some v.id
  rw [move_to_unmapped_focused_view, hva]
  exact hfv

/-- The panel's focused view after the unmap handler is not the unmapped view,
in each branch of the handler. -/
theorem unmap_refocus_focused_view_ne (s : tinywl_server) (a n : Nat)
    (hfv : (focus_view s (some n) false).focused_panel.focused_view ≠ some a) :
    (unmap_refocus s a n).focused_panel.focused_view ≠ some a := by
  unfold unmap_refocus
  simp only
  rw [center_mouse_focused_view]
  simp only [clear_focused_by, with_panel]
  rw [move_to_unmapped_focused_view]
  exact hfv

/-- The premise on the seat cannot be dropped: in `stale_seat_server`, a state
set up with the seat's keyboard focus on the surface of view 2 while view 1 is
the panel's focused view, `focus_view` returns early for the successor and
`center_mouse` focuses the unmapped view 1 again. -/
theorem unmap_keeps_focused_by_on_stale_seat :
    (xdg_surface_unmap stale_seat_server 1).map
      (fun t => (t.focused_panel.focused_view,
        t.focused_panel.unmapped_views.map (fun u => (u.id, u.focused_by)))) =
      some (some 1, [(1, true)]) := by
  decide

/-- The close binding followed by the unmap of the closed view: key 53 on
`two_views_server` leaves view 2 focused and view 1 with `focused_by` still
set; unmapping view 1 then puts it in the unmapped list with `focused_by`
cleared and leaves view 2 focused. -/
theorem unmap_after_close_binding :
    ((handle_keybinding two_views_server 53 WLR_MODIFIER_LOGO).bind
      (fun r => xdg_surface_unmap r.2 1)).map
      (fun t => (t.focused_panel.focused_view,
        t.focused_panel.views.map (fun u => (u.id, u.focused_by)),
        t.focused_panel.unmapped_views.map (fun u => (u.id, u.focused_by)))) =
      some (some 2, [(2, true)], [(1, false)]) := by
  decide

/-- What the unmap handler does to the lists and to the panel's focused view,
for a view of a managed list without override-redirect views. -/
theorem xdg_surface_unmap_spec (s : tinywl_server) (v : tinywl_view)
    (hv : v ∈ s.focused_panel.views)
    (hid : (s.focused_panel.views.map (fun u => u.id)).Nodup)
    (hno : ∀ u ∈ s.focused_panel.views, is_override_redirect u = false)
    (hseat : s.focused_panel.focused_view = some v.id →
      ∀ w ∈ s.focused_panel.views, w.id ≠ v.id →
        view_surface w ≠ s.keyboard_focused_surface) :
    ∃ t, xdg_surface_unmap s v.id = some t ∧ xwayland_surface_unmap s v.id = some t ∧
      t.focused_panel.views.map (fun u => u.id) =
        (s.focused_panel.views.map (fun u => u.id)).filter (fun i => !decide (i = v.id)) ∧
      t.focused_panel.views.length + 1 = s.focused_panel.views.length ∧
      (∃ rest, t.focused_panel.unmapped_views = set_focused_by false v :: rest) ∧
      ((s.focused_panel.focused_view = some v.id → v.focused_by = true) →
        t.focused_panel.focused_view ≠ some v.id) := by
  have hfind := find_view_of_mem s.focused_panel v hid hv
  have hlen : ∀ t : tinywl_server,
      t.focused_panel.views.map (fun u => u.id) =
        (s.focused_panel.views.map (fun u => u.id)).filter (fun i => !decide (i = v.id)) →
      t.focused_panel.views.length + 1 = s.focused_panel.views.length := by
    intro t ht
    have h1 := congrArg List.length ht
    rw [List.length_map] at h1
    rw [h1, length_filter_ne _ _ hid (List.mem_map_of_mem (fun u => u.id) hv), List.length_map]
  have hrefocus : ∀ n, n ≠ v.id → (∃ w ∈ s.focused_panel.views, w.id = n) →
      xdg_surface_unmap s v.id = some (unmap_refocus s v.id n) →
      ∃ t, xdg_surface_unmap s v.id = some t ∧ xwayland_surface_unmap s v.id = some t ∧
        t.focused_panel.views.map (fun u => u.id) =
          (s.focused_panel.views.map (fun u => u.id)).filter (fun i => !decide (i = v.id)) ∧
        t.focused_panel.views.length + 1 = s.focused_panel.views.length ∧
        (∃ rest, t.focused_panel.unmapped_views = set_focused_by false v :: rest) ∧
        ((s.focused_panel.focused_view = some v.id → v.focused_by = true) →
          t.focused_panel.focused_view ≠ some v.id) := by
    intro n hne ⟨w, hw1, hw2⟩ hun
    obtain ⟨l1, _, _⟩ := unmap_refocus_lists s v.id n v hfind (fun h => hne h.symm) hno
    have hids := ids_of_filtered_tags _ _ _ l1
    have hfw := find_view_of_mem s.focused_panel w hid hw1
    rw [hw2] at hfw
    have hfv := focus_view_focused_view_ne s v.id n w hfw (fun h => hne h.symm)
      (fun hs hf => hseat hf w hw1 (by rw [hw2]; exact hne) hs.symm)
    exact ⟨_, hun, hun, hids, hlen _ hids,
      unmap_refocus_cleared s v.id n v hfind (fun h => hne h.symm) hno hfv,
      fun _ => unmap_refocus_focused_view_ne s v.id n hfv⟩
  cases hfb : v.focused_by with
  | false =>
    have hnone : xdg_surface_unmap s v.id =
        some (with_panel s (move_to_unmapped v.id s.focused_panel)) := by
      unfold xdg_surface_unmap
      simp [hfind, hfb]
    have hids : (with_panel s (move_to_unmapped v.id s.focused_panel)).focused_panel.views.map
        (fun u => u.id) =
        (s.focused_panel.views.map (fun u => u.id)).filter (fun i => !decide (i = v.id)) := by
      simp only [with_panel]
      rw [move_to_unmapped_views, filter_ids]
    have hun : (with_panel s (move_to_unmapped v.id s.focused_panel)).focused_panel.unmapped_views =
        v :: s.focused_panel.unmapped_views.filter (fun u => !decide (u.id = v.id)) := by
      simp only [with_panel]
      rw [move_to_unmapped_unmapped _ _ _ hfind]
    exact ⟨_, hnone, hnone, hids, hlen _ hids,
      ⟨_, by rw [hun, set_focused_by_false_self v hfb]⟩, fun hk hf => by
        have hf2 : s.focused_panel.focused_view = some v.id := by
          simp only [with_panel] at hf
          rw [move_to_unmapped_focused_view] at hf
          exact hf
        have := hk hf2
        cases this⟩
  | true =>
    obtain ⟨b1, b2, b3⟩ := xdg_surface_unmap_focused s v hv hid hfb
    cases hnext : next_in s.focused_panel.views v.id with
    | some n =>
      have := hrefocus n (next_in_ne _ _ _ hid hnext) (next_in_mem _ _ _ hnext) (b1 n hnext)
      simpa only [hfb] using this
    | none =>
      by_cases hl : 1 < s.focused_panel.views.length
      · obtain ⟨m, hm1, hm2⟩ := b2 hnext hl
        have := hrefocus m (prev_in_ne _ _ _ hid hm1) (prev_in_mem _ _ _ hm1) hm2
        simpa only [hfb] using this
      · have hsole := b3 hnext (by omega)
        have hfind2 : find_view (update_view v.id (set_focused_by false)
            { s.focused_panel with focused_view := none }) v.id =
            some (set_focused_by false v) := by
          rw [find_view_update_view v.id (set_focused_by false) (fun _ => rfl)]
          have : find_view { s.focused_panel with focused_view := none } v.id = some v := hfind
          rw [this]
          simp
        have hids : (with_panel s (move_to_unmapped v.id (update_view v.id (set_focused_by false)
            { s.focused_panel with focused_view := none }))).focused_panel.views.map
            (fun u => u.id) =
            (s.focused_panel.views.map (fun u => u.id)).filter (fun i => !decide (i = v.id)) := by
          simp only [with_panel]
          rw [move_to_unmapped_views, filter_ids]
          congr 1
          exact ids_of_tags _ _
            (update_view_same_tags v.id (set_focused_by false) (set_focused_by_tag false)
              { s.focused_panel with focused_view := none }).1
        have hun := move_to_unmapped_unmapped v.id _ _ hfind2
        exact ⟨_, hsole, hsole, hids, hlen _ hids, ⟨_, hun⟩, fun _ hf => by
          simp only [with_panel] at hf
          rw [move_to_unmapped_focused_view] at hf
          cases hf⟩

/-- Unmapping the focused view 1 of the three views of `three_views_server`,
which is not the last of the list: the managed list ends with the two views 2
and 3, view 2 focused, and view 1 is in the unmapped list with `focused_by`
cleared. -/
theorem unmap_first_of_three_views :
    (xdg_surface_unmap three_views_server 1).map
      (fun t => (t.focused_panel.focused_view, t.focused_panel.views.length,
        t.focused_panel.views.map (fun u => (u.id, u.focused_by)),
        t.focused_panel.unmapped_views.map (fun u => (u.id, u.focused_by)))) =
      some (some 2, 2, [(2, true), (3, false)], [(1, false)]) := by
  decide

/-- C9. For a managed list without override-redirect views and a view `v` in
it, focused or not, the unmap handler returns, removes exactly `v` from the
managed list (the length drops by one, the other views keep their order), and
puts `v` at the front of the unmapped list with `focused_by` cleared and
nothing else changed. The state is one in which, when `v` is the panel's
focused view, the seat's keyboard focus is not on the surface of another
managed view: the program gives the keyboard focus to the surface of a view
only in `focus_view`, which makes that view the panel's focused view in the
same call, and in `keyboard_handle_key`, for the panel's focused view. -/
theorem unmap_removes_view (s : tinywl_server) (v : tinywl_view)
    (hv : v ∈ s.focused_panel.views)
    (hid : (s.focused_panel.views.map (fun u => u.id)).Nodup)
    (hno : ∀ u ∈ s.focused_panel.views, is_override_redirect u = false)
    (hseat : s.focused_panel.focused_view = some v.id →
      ∀ w ∈ s.focused_panel.views, w.id ≠ v.id →
        view_surface w ≠ s.keyboard_focused_surface) :
    ∃ t, xdg_surface_unmap s v.id = some t ∧ xwayland_surface_unmap s v.id = some t ∧
      t.focused_panel.views.map (fun u => u.id) =
        (s.focused_panel.views.map (fun u => u.id)).filter (fun i => !decide (i = v.id)) ∧
      t.focused_panel.views.length + 1 = s.focused_panel.views.length ∧
      (∃ rest, t.focused_panel.unmapped_views = set_focused_by false v :: rest) ∧
      (set_focused_by false v).focused_by = false := by
  obtain ⟨t, h1, h2, h3, h4, h5, _⟩ := xdg_surface_unmap_spec s v hv hid hno hseat
  exact ⟨t, h1, h2, h3, h4, h5, rfl⟩

/-- C9, at a sample: unmapping the focused view 1 of `two_views_server`, a
state reached from startup by the handlers; view 2 stays, view 1 enters the
unmapped list with `focused_by` cleared. -/
theorem unmap_removes_view_witness :
    sample_view_1 ∈ two_views_server.focused_panel.views ∧
    two_views_server.focused_panel.focused_view = some sample_view_1.id ∧
    ∃ t, xdg_surface_unmap two_views_server sample_view_1.id = some t ∧
      xwayland_surface_unmap two_views_server sample_view_1.id = some t ∧
      t.focused_panel.views.map (fun u => u.id) =
        (two_views_server.focused_panel.views.map (fun u => u.id)).filter
          (fun i => !decide (i = sample_view_1.id)) ∧
      t.focused_panel.views.length + 1 = two_views_server.focused_panel.views.length ∧
      (∃ rest, t.focused_panel.unmapped_views = set_focused_by false sample_view_1 :: rest) ∧
      (set_focused_by false sample_view_1).focused_by = false :=
  ⟨by decide, by decide,
    unmap_removes_view two_views_server sample_view_1 (by decide) (by decide) (by decide)
      (by decide)⟩

/-- C8, at a sample: unmapping the focused view 1 of `two_views_server`
focuses its successor, view 2. -/
theorem unmap_focused_fallback_witness :
    (xdg_surface_unmap two_views_server sample_view_1.id).map
      (fun t => t.focused_panel.focused_view) = some (some 2) :=
  (unmap_focused_fallback two_views_server sample_view_1 (by decide) (by decide) (by decide)
    (by decide) (by decide) (by decide)).1 2 (by decide)

/-! ## Defects found by evaluation -/

/-- C7: the code at the failing input. From the startup state, one output is
registered, two shell views are created and mapped; the close binding
(key 53 with the logo modifier held) then leaves both views with `focused_by`
set. -/
theorem close_binding_two_focused :
    (handle_keybinding two_views_server 53 WLR_MODIFIER_LOGO).map
      (fun r => (r.1, r.2.focused_panel.focused_view,
        r.2.focused_panel.views.map (fun v => (v.id, v.focused_by)))) =
      some (true, some 2, [(1, true), (2, true)]) := by
  decide

/-! ## Destroying a view -/

theorem find_view_unlink (a : Nat) (p : gateway_panel) :
    find_view (unlink_view a p) a = none := by
  unfold find_view unlink_view
  simp only
  rw [List.find?_eq_none]
  intro x hx
  simp only [List.mem_append, List.mem_filter] at hx
  rcases hx with (⟨_, h⟩ | ⟨_, h⟩) | ⟨_, h⟩ <;> simpa using h

theorem filter_of_not_mem_ids (l : List tinywl_view) (a : Nat)
    (h : a ∉ l.map (fun u => u.id)) :
    l.filter (fun u => !decide (u.id = a)) = l := by
  rw [List.filter_eq_self]
  intro u hu
  have : u.id ≠ a := fun he => h (he ▸ List.mem_map_of_mem (fun u => u.id) hu)
  simpa using this

/-- C17. With key 88 `handle_keybinding` flips `passthrough_enabled`, returns
`true` and changes nothing else, whether passthrough is enabled or not; while
passthrough is enabled every other keycode returns `false` and leaves the
state as it is. -/
theorem passthrough_toggle (s : tinywl_server) (modifiers : Nat) :
    handle_keybinding s 88 modifiers =
      some (true, { s with passthrough_enabled := !s.passthrough_enabled }) ∧
    ∀ keycode, s.passthrough_enabled = true → keycode ≠ 88 →
      handle_keybinding s keycode modifiers = some (false, s) := by
  constructor
  · unfold handle_keybinding
    simp
  · intro keycode hp hk
    unfold handle_keybinding
    simp [hp, hk]

theorem passthrough_toggle_witness :
    passthrough_server.passthrough_enabled = true ∧
    handle_keybinding passthrough_server 88 64 =
      some (true, { passthrough_server with
        passthrough_enabled := !passthrough_server.passthrough_enabled }) ∧
    handle_keybinding passthrough_server 36 64 = some (false, passthrough_server) :=
  ⟨by decide, (passthrough_toggle passthrough_server 64).1,
    (passthrough_toggle passthrough_server 64).2 36 (by decide) (by decide)⟩

/-! ## The focus transition -/

/-- C13. For a live view `v`, `focus_view(v, panel, false)` adds exactly one
pointer warp, to `(v.x + v.width / 2, v.y + v.height / 2)` with the truncating
division of C, whether or not `v` already holds the keyboard focus;
`focus_view(v, panel, true)` issues no warp. -/
theorem focus_view_warp (s : tinywl_server) (id : Nat) (v : tinywl_view)
    (hfind : find_view s.focused_panel id = some v) :
    (focus_view s (some id) false).pointer_warps =
      (v.x + Int.tdiv v.width 2, v.y + Int.tdiv v.height 2) :: s.pointer_warps ∧
    (focus_view s (some id) true).pointer_warps = s.pointer_warps := by
  unfold focus_view
  simp only [hfind, Bool.false_eq_true, if_false, if_true]
  constructor
  · split_ifs <;> rfl
  · split_ifs <;> rfl

theorem focus_view_warp_witness :
    find_view two_views_server.focused_panel 2 = some sample_view_2 ∧
    (focus_view two_views_server (some 2) false).pointer_warps =
      (sample_view_2.x + Int.tdiv sample_view_2.width 2,
        sample_view_2.y + Int.tdiv sample_view_2.height 2) :: two_views_server.pointer_warps ∧
    (focus_view two_views_server (some 2) true).pointer_warps =
      two_views_server.pointer_warps :=
  ⟨by decide, focus_view_warp two_views_server 2 sample_view_2 (by decide)⟩

theorem refocused_view_map (p : gateway_panel) (id : Nat) (l : List tinywl_view) :
    (match p.focused_view with
      | some f =>
        (l.map (fun v => if v.id = f then set_focused_by false v else v)).map
          (fun v => if v.id = id then set_focused_by true v else v)
      | none => l.map (fun v => if v.id = id then set_focused_by true v else v)) =
      l.map (refocused_view p id) := by
  cases hf : p.focused_view with
  | none =>
    simp only
    apply List.map_congr_left
    intro u _
    simp [refocused_view, hf]
  | some f =>
    simp only [List.map_map]
    apply List.map_congr_left
    intro u _
    simp only [Function.comp, refocused_view, hf, Option.some.injEq]
    by_cases h1 : u.id = f
    · subst h1
      simp only [if_true]
      show (if u.id = id then set_focused_by true (set_focused_by false u)
        else set_focused_by false u) = _
      by_cases h2 : u.id = id
      · rw [if_pos h2, if_pos h2]
        rfl
      · rw [if_neg h2, if_neg h2]
    · have h4 : ¬ f = u.id := fun h => h1 h.symm
      rw [if_neg h1, if_neg h4]

/-- The view lists after the focus fields were reassigned. -/
theorem refocus_lists (p : gateway_panel) (id : Nat) :
    (refocus p id).views = p.views.map (refocused_view p id) ∧
    (refocus p id).redirect_views = p.redirect_views.map (refocused_view p id) ∧
    (refocus p id).unmapped_views = p.unmapped_views.map (refocused_view p id) := by
  have h1 := refocused_view_map p id p.views
  have h2 := refocused_view_map p id p.redirect_views
  have h3 := refocused_view_map p id p.unmapped_views
  unfold refocus
  cases hf : p.focused_view with
  | none =>
    rw [hf] at h1 h2 h3
    exact ⟨h1, h2, h3⟩
  | some f =>
    rw [hf] at h1 h2 h3
    exact ⟨h1, h2, h3⟩

/-- C14. For a live view `v` whose surface does not hold the seat's keyboard
focus, after `focus_view(v, panel, m)` the panel's focused view is `v`, `v` has
`focused_by` set, the view that was the panel's focused view (if another one)
has `focused_by` cleared, and every other view is as before, in all three
lists; when the surface of `v` already holds the keyboard focus the panel is
left as it was. -/
theorem focus_view_fields (s : tinywl_server) (id : Nat) (v : tinywl_view) (m : Bool)
    (hfind : find_view s.focused_panel id = some v) :
    (s.keyboard_focused_surface ≠ view_surface v →
      (focus_view s (some id) m).focused_panel.focused_view = some id ∧
      (focus_view s (some id) m).focused_panel.views =
        s.focused_panel.views.map (refocused_view s.focused_panel id) ∧
      (focus_view s (some id) m).focused_panel.redirect_views =
        s.focused_panel.redirect_views.map (refocused_view s.focused_panel id) ∧
      (focus_view s (some id) m).focused_panel.unmapped_views =
        s.focused_panel.unmapped_views.map (refocused_view s.focused_panel id)) ∧
    (s.keyboard_focused_surface = view_surface v →
      (focus_view s (some id) m).focused_panel = s.focused_panel) := by
  obtain ⟨l1, l2, l3⟩ := refocus_lists s.focused_panel id
  have hk : (if m = true then s else warp_to s v).keyboard_focused_surface =
      s.keyboard_focused_surface := by
    cases m <;> rfl
  have hp : (if m = true then s else warp_to s v).focused_panel = s.focused_panel := by
    cases m <;> rfl
  unfold focus_view
  simp only [hfind, hk, hp]
  constructor
  · intro hne
    simp only [hne, if_false]
    exact ⟨refocus_focused_view _ _, l1, l2, l3⟩
  · intro he
    simp only [he, if_true]
    exact hp

theorem focus_view_fields_witness :
    find_view two_views_server.focused_panel 2 = some sample_view_2 ∧
    two_views_server.keyboard_focused_surface ≠ view_surface sample_view_2 ∧
    (focus_view two_views_server (some 2) false).focused_panel.focused_view = some 2 ∧
    (focus_view two_views_server (some 2) false).focused_panel.views =
      two_views_server.focused_panel.views.map
        (refocused_view two_views_server.focused_panel 2) :=
  ⟨by decide, by decide,
    ((focus_view_fields two_views_server 2 sample_view_2 false (by decide)).1 (by decide)).1,
    ((focus_view_fields two_views_server 2 sample_view_2 false (by decide)).1 (by decide)).2.1⟩

/-! ## Interactive resize -/

/-- C15. For a grab box of width and height at least 1, every edge mask and
every pointer position, the size `process_cursor_resize` requests has width at
least 1 and height at least 1; when the left edge is dragged to or past the
right edge of the grab box the requested width is exactly 1. -/
theorem process_cursor_resize_min_size (grab_geobox : wlr_box) (resize_edges : Nat)
    (border_x border_y : Int) (geo_box : wlr_box)
    (hw : 1 ≤ grab_geobox.width) (hh : 1 ≤ grab_geobox.height) :
    1 ≤ (process_cursor_resize grab_geobox resize_edges border_x border_y geo_box).new_width ∧
    1 ≤ (process_cursor_resize grab_geobox resize_edges border_x border_y geo_box).new_height ∧
    (resize_edges &&& WLR_EDGE_LEFT ≠ 0 →
      grab_geobox.x + grab_geobox.width ≤ border_x →
      (process_cursor_resize grab_geobox resize_edges border_x border_y geo_box).new_width
        = 1) := by
  unfold process_cursor_resize
  refine ⟨?_, ?_, ?_⟩
  · simp only
    split_ifs <;> simp only [] <;> omega
  · simp only
    split_ifs <;> simp only [] <;> omega
  · intro hl hb
    simp only [hl, ne_eq, not_false_eq_true, if_true, ge_iff_le, hb]
    omega

theorem process_cursor_resize_min_size_witness :
    (1 : Int) ≤ (wlr_box.mk 100 50 300 200).width ∧
    (1 : Int) ≤ (wlr_box.mk 100 50 300 200).height ∧
    (process_cursor_resize ⟨100, 50, 300, 200⟩ 5 450 20 ⟨0, 0, 300, 200⟩).new_width = 1 ∧
    1 ≤ (process_cursor_resize ⟨100, 50, 300, 200⟩ 5 450 20 ⟨0, 0, 300, 200⟩).new_height :=
  ⟨by decide, by decide,
    (process_cursor_resize_min_size ⟨100, 50, 300, 200⟩ 5 450 20 ⟨0, 0, 300, 200⟩
      (by decide) (by decide)).2.2 (by decide) (by decide),
    (process_cursor_resize_min_size ⟨100, 50, 300, 200⟩ 5 450 20 ⟨0, 0, 300, 200⟩
      (by decide) (by decide)).2.1⟩

/-! ## The draw order of a frame -/

/-- Three pairwise exclusive filters that together cover a fourth one split
the filtered list, whatever the order inside each part. -/
theorem filter_three_perm (l : List tinywl_view) (a b c d : tinywl_view → Bool)
    (h : ∀ v, (d v = true → (a v = true ∧ b v = false ∧ c v = false) ∨
        (a v = false ∧ b v = true ∧ c v = false) ∨
        (a v = false ∧ b v = false ∧ c v = true)) ∧
      (d v = false → a v = false ∧ b v = false ∧ c v = false)) :
    List.Perm ((l.filter a).reverse ++ (l.filter b).reverse ++ (l.filter c).reverse)
      (l.filter d) := by
  have h1 : List.Perm ((l.filter a).reverse ++ (l.filter b).reverse ++ (l.filter c).reverse)
      (l.filter a ++ l.filter b ++ l.filter c) :=
    List.Perm.append (List.Perm.append (List.reverse_perm _) (List.reverse_perm _))
      (List.reverse_perm _)
  refine h1.trans ?_
  clear h1
  induction l with
  | nil => simp
  | cons x xs ih =>
    cases hd : d x with
    | false =>
      obtain ⟨ha, hb, hc⟩ := (h x).2 hd
      simp only [List.filter_cons, ha, hb, hc, hd, Bool.false_eq_true, if_false]
      exact ih
    | true =>
      rcases (h x).1 hd with ⟨ha, hb, hc⟩ | ⟨ha, hb, hc⟩ | ⟨ha, hb, hc⟩
      · simp only [List.filter_cons, ha, hb, hc, hd, Bool.false_eq_true, if_false, if_true,
          List.cons_append]
        exact List.Perm.cons x ih
      · simp only [List.filter_cons, ha, hb, hc, hd, Bool.false_eq_true, if_false, if_true]
        refine List.Perm.trans ?_ (List.Perm.cons x ih)
        rw [List.append_assoc, List.append_assoc]
        exact List.perm_middle
      · simp only [List.filter_cons, ha, hb, hc, hd, Bool.false_eq_true, if_false, if_true]
        refine List.Perm.trans ?_ (List.Perm.cons x ih)
        exact List.perm_middle

/-- C20. On a frame that reaches the renderer, `output_frame` draws, bottom
first: the views on a stack of the output that are neither fullscreen nor
focused by the panel, in reverse list order; then the fullscreen ones not
focused by the panel, in reverse list order; then the ones focused by the
panel; then the redirect views. The first three groups together hold every
managed view whose `stack_index` the output claims exactly once, and such a
view meets the condition of exactly one group. The lists are those the layout
pass at the start of the frame leaves. -/
theorem output_frame_draw_order (gaps : Nat) (panel : gateway_panel) (output : tinywl_output) :
    (output_frame gaps panel output true).2 =
      ((panel_update gaps panel output).views.filter (fun v =>
        output_contains_stack output v.stack_index && !v.is_fullscreen && !v.focused_by)).reverse ++
      ((panel_update gaps panel output).views.filter (fun v =>
        output_contains_stack output v.stack_index && v.is_fullscreen && !v.focused_by)).reverse ++
      ((panel_update gaps panel output).views.filter (fun v =>
        output_contains_stack output v.stack_index && v.focused_by)).reverse ++
      (panel_update gaps panel output).redirect_views.reverse ∧
    List.Perm
      (((panel_update gaps panel output).views.filter (fun v =>
        output_contains_stack output v.stack_index && !v.is_fullscreen && !v.focused_by)).reverse ++
      ((panel_update gaps panel output).views.filter (fun v =>
        output_contains_stack output v.stack_index && v.is_fullscreen && !v.focused_by)).reverse ++
      ((panel_update gaps panel output).views.filter (fun v =>
        output_contains_stack output v.stack_index && v.focused_by)).reverse)
      ((panel_update gaps panel output).views.filter (fun v =>
        output_contains_stack output v.stack_index)) ∧
    ∀ v : tinywl_view, output_contains_stack output v.stack_index = true →
      ((!v.is_fullscreen && !v.focused_by) = true ∧ (v.is_fullscreen && !v.focused_by) = false ∧
          v.focused_by = false) ∨
      ((!v.is_fullscreen && !v.focused_by) = false ∧ (v.is_fullscreen && !v.focused_by) = true ∧
          v.focused_by = false) ∨
      ((!v.is_fullscreen && !v.focused_by) = false ∧ (v.is_fullscreen && !v.focused_by) = false ∧
          v.focused_by = true) := by
  refine ⟨?_, ?_, ?_⟩
  · unfold output_frame drawn_views
    simp only [if_true, List.filter_reverse]
    congr 1
    congr 1
    congr 1
    · congr 2
      funext v
      cases output_contains_stack output v.stack_index <;> cases v.is_fullscreen <;>
        cases v.focused_by <;> rfl
    · congr 2
      funext v
      cases output_contains_stack output v.stack_index <;> cases v.is_fullscreen <;>
        cases v.focused_by <;> rfl
    · congr 2
      funext v
      cases output_contains_stack output v.stack_index <;> cases v.focused_by <;> rfl
  · apply filter_three_perm
    intro v
    cases output_contains_stack output v.stack_index <;> cases v.is_fullscreen <;>
      cases v.focused_by <;> simp
  · intro v _
    cases v.is_fullscreen <;> cases v.focused_by <;> simp

/-! ## The pointer surgery of `list_swap` -/

/-- Reading a cyclic list from a link it holds. -/
theorem rotate_to_spec : ∀ (pre post acc : List wl_link) (a : wl_link), a ∉ pre →
    rotate_to a (pre ++ a :: post) acc = some (a :: post ++ acc.reverse ++ pre)
  | [], post, acc, a, _ => by
    simp [rotate_to]
  | x :: pre, post, acc, a, h => by
    have hx : ¬ x = a := fun e => h (by simp [e])
    have hp : a ∉ pre := fun e => h (List.mem_cons_of_mem _ e)
    have ih := rotate_to_spec pre post (x :: acc) a hp
    show rotate_to a (x :: (pre ++ a :: post)) acc = _
    rw [rotate_to, if_neg hx, ih]
    simp

/-- The result of `list_swap(a, b)` on a cyclic list that reads `a, b, ...`
from `a` and has a third link. -/
theorem list_swap_of_rotate (ring t : List wl_link) (a b : wl_link)
    (h : rotate_to a ring [] = some (a :: b :: t)) (ht : t ≠ []) :
    list_swap ring a b = some (b :: a :: t) := by
  cases t with
  | nil => exact absurd rfl ht
  | cons z rest =>
    unfold list_swap
    simp [h]

/-- The links of views of a list with distinct addresses resolve to these
views. -/
theorem ring_lookup (l : List tinywl_view) (hn : (l.map (fun u => u.id)).Nodup) :
    ∀ (m : List tinywl_view), (∀ v ∈ m, v ∈ l) →
    (m.map (fun v => wl_link.view v.id)).filterMap (fun lk =>
      match lk with
      | wl_link.view id => l.find? (fun v => decide (v.id = id))
      | wl_link.head _ => none) = m
  | [], _ => rfl
  | v :: m, h => by
    have hv := find_of_mem_nodup l v hn (h v (List.mem_cons_self _ _))
    have ih := ring_lookup l hn m (fun w hw => h w (List.mem_cons_of_mem _ hw))
    simp only [List.map_cons, List.filterMap_cons, hv, ih]

/-- The views of a cyclic list of links read from its head. -/
theorem ring_views_spec (l X Y : List tinywl_view) (k : view_list)
    (hn : (l.map (fun u => u.id)).Nodup) (hX : ∀ v ∈ X, v ∈ l) (hY : ∀ v ∈ Y, v ∈ l) :
    ring_views l (wl_link.head k)
      (X.map (fun v => wl_link.view v.id) ++
        wl_link.head k :: Y.map (fun v => wl_link.view v.id)) = Y ++ X := by
  have hh : wl_link.head k ∉ X.map (fun v => wl_link.view v.id) := by
    simp
  have h1 := rotate_to_spec _ (Y.map (fun v => wl_link.view v.id)) [] _ hh
  unfold ring_views
  rw [h1]
  simp only [List.reverse_nil, List.append_nil, List.cons_append, ← List.map_append]
  exact ring_lookup l hn (Y ++ X) (by
    intro v hv
    rcases List.mem_append.mp hv with h | h
    · exact hY v h
    · exact hX v h)

/-- The two calls of `list_swap` on a list that holds `a` directly before `b`:
the cyclic lists they leave, read from `b` and from `a`. -/
theorem list_swap_rings (p : gateway_panel) (l : view_list) (pre post : List tinywl_view)
    (a b : tinywl_view) (hl : panel_list p l = pre ++ a :: b :: post)
    (hn : ((panel_list p l).map (fun u => u.id)).Nodup) :
    list_swap (ring_of p l) (wl_link.view a.id) (wl_link.view b.id) =
      some ((wl_link.view b.id :: wl_link.view a.id ::
          post.map (fun v => wl_link.view v.id)) ++
        wl_link.head l :: pre.map (fun v => wl_link.view v.id)) ∧
    list_swap ((wl_link.view b.id :: wl_link.view a.id ::
          post.map (fun v => wl_link.view v.id)) ++
        wl_link.head l :: pre.map (fun v => wl_link.view v.id))
        (wl_link.view b.id) (wl_link.view a.id) =
      some ((wl_link.view a.id :: wl_link.view b.id ::
          post.map (fun v => wl_link.view v.id)) ++
        wl_link.head l :: pre.map (fun v => wl_link.view v.id)) := by
  rw [hl] at hn
  have ha : wl_link.view a.id ∉ wl_link.head l :: pre.map (fun v => wl_link.view v.id) := by
    simp only [List.map_append, List.map_cons, List.nodup_append, List.nodup_cons] at hn
    intro hm
    rcases List.mem_cons.mp hm with h | h
    · cases h
    · obtain ⟨v, hv, he⟩ := List.mem_map.mp h
      have hid : v.id = a.id := by
        injection he
      exact hn.2.2 (List.mem_map.mpr ⟨v, hv, hid⟩) (by simp)
  constructor
  · have h1 := rotate_to_spec _
      (wl_link.view b.id :: post.map (fun v => wl_link.view v.id)) [] _ ha
    have h2 : ring_of p l = (wl_link.head l :: pre.map (fun v => wl_link.view v.id)) ++
        wl_link.view a.id :: (wl_link.view b.id :: post.map (fun v => wl_link.view v.id)) := by
      unfold ring_of
      rw [hl]
      simp
    rw [h2]
    have h3 := list_swap_of_rotate _
      (post.map (fun v => wl_link.view v.id) ++
        wl_link.head l :: pre.map (fun v => wl_link.view v.id))
      (wl_link.view a.id) (wl_link.view b.id) (by rw [h1]; simp) (by simp)
    rw [h3]
    simp
  · have h1 := rotate_to_spec []
      (wl_link.view a.id :: (post.map (fun v => wl_link.view v.id) ++
        wl_link.head l :: pre.map (fun v => wl_link.view v.id))) [] (wl_link.view b.id)
      (by simp)
    have h3 := list_swap_of_rotate
      ((wl_link.view b.id :: wl_link.view a.id ::
          post.map (fun v => wl_link.view v.id)) ++
        wl_link.head l :: pre.map (fun v => wl_link.view v.id))
      (post.map (fun v => wl_link.view v.id) ++
        wl_link.head l :: pre.map (fun v => wl_link.view v.id))
      (wl_link.view b.id) (wl_link.view a.id) (by
        simp only [List.nil_append, List.reverse_nil, List.append_nil] at h1
        simpa using h1) (by simp)
    rw [h3]
    simp

/-- C11. On a list with distinct views that holds `a` directly before `b`,
`list_swap(a, b)` leaves the list with `b` directly before `a` and every other
view in its place, and `list_swap(b, a)` after it restores the original order
of the whole list. -/
theorem list_swap_twice (p : gateway_panel) (l : view_list) (pre post : List tinywl_view)
    (a b : tinywl_view) (hl : panel_list p l = pre ++ a :: b :: post)
    (hn : ((panel_list p l).map (fun u => u.id)).Nodup) :
    (list_swap (ring_of p l) (wl_link.view a.id) (wl_link.view b.id)).map
      (ring_views (panel_list p l) (wl_link.head l)) = some (pre ++ b :: a :: post) ∧
    ((list_swap (ring_of p l) (wl_link.view a.id) (wl_link.view b.id)).bind
      (fun r => list_swap r (wl_link.view b.id) (wl_link.view a.id))).map
      (ring_views (panel_list p l) (wl_link.head l)) = some (panel_list p l) ∧
    ((list_swap (ring_of p l) (wl_link.view a.id) (wl_link.view b.id)).bind
      (fun r => list_swap r (wl_link.view b.id) (wl_link.view a.id))).bind
      (fun r => rotate_to (wl_link.head l) r []) = some (ring_of p l) := by
  obtain ⟨h1, h2⟩ := list_swap_rings p l pre post a b hl hn
  have hpre : ∀ v ∈ pre, v ∈ panel_list p l := by
    intro v hv
    rw [hl]
    simp [hv]
  have hba : ∀ v ∈ b :: a :: post, v ∈ panel_list p l := by
    intro v hv
    rw [hl]
    simp only [List.mem_cons] at hv
    rcases hv with h | h | h <;> simp [h]
  have hab : ∀ v ∈ a :: b :: post, v ∈ panel_list p l := by
    intro v hv
    rw [hl]
    simp only [List.mem_cons] at hv
    rcases hv with h | h | h <;> simp [h]
  have v1 := ring_views_spec (panel_list p l) (b :: a :: post) pre l hn hba hpre
  have v2 := ring_views_spec (panel_list p l) (a :: b :: post) pre l hn hab hpre
  simp only [List.map_cons] at v1 v2
  refine ⟨?_, ?_, ?_⟩
  · rw [h1, Option.map_some', v1]
  · rw [h1, Option.some_bind, h2, Option.map_some', v2, hl]
  · rw [h1, Option.some_bind, h2, Option.some_bind]
    have hh : wl_link.head l ∉ (a :: b :: post).map (fun v => wl_link.view v.id) := by
      simp
    have h3 := rotate_to_spec _ (pre.map (fun v => wl_link.view v.id)) [] _ hh
    simp only [List.map_cons] at h3
    rw [h3]
    unfold ring_of
    rw [hl]
    simp

theorem list_swap_twice_witness :
    panel_list (sample_panel [xdg_view 1, xdg_view 2, xdg_view 3]) view_list.managed =
      [xdg_view 1] ++ xdg_view 2 :: xdg_view 3 :: [] ∧
    (list_swap (ring_of (sample_panel [xdg_view 1, xdg_view 2, xdg_view 3]) view_list.managed)
        (wl_link.view (xdg_view 2).id) (wl_link.view (xdg_view 3).id)).map
      (ring_views (panel_list (sample_panel [xdg_view 1, xdg_view 2, xdg_view 3])
        view_list.managed) (wl_link.head view_list.managed)) =
      some ([xdg_view 1] ++ xdg_view 3 :: xdg_view 2 :: []) :=
  ⟨rfl, (list_swap_twice (sample_panel [xdg_view 1, xdg_view 2, xdg_view 3]) view_list.managed
    [xdg_view 1] [] (xdg_view 2) (xdg_view 3) rfl (by decide)).1⟩

/-! ## Successor and predecessor in a list -/

/-- A view that is not in a list has no predecessor in it. -/
theorem prev_in_not_mem : ∀ (l : List tinywl_view) (a : Nat),
    a ∉ l.map (fun u => u.id) → prev_in l a = none
  | [], _, _ => rfl
  | [_], _, _ => rfl
  | v :: w :: rest, a, h => by
    have hw : ¬ w.id = a := fun e => h (by simp [e])
    have hr : a ∉ (w :: rest).map (fun u => u.id) := fun e => h (by
      simp only [List.map_cons, List.mem_cons] at e ⊢
      exact Or.inr e)
    rw [prev_in, if_neg hw]
    exact prev_in_not_mem (w :: rest) a hr

/-- The successor of a view of a list with distinct views is the head of what
follows it. -/
theorem next_in_decomp : ∀ (pre post : List tinywl_view) (f : tinywl_view),
    ((pre ++ f :: post).map (fun u => u.id)).Nodup →
    next_in (pre ++ f :: post) f.id = post.head?.map (fun u => u.id)
  | [], [], _, _ => rfl
  | [], b :: r, f, _ => by
    simp [next_in]
  | x :: pre, post, f, hn => by
    have hn2 : ((pre ++ f :: post).map (fun u => u.id)).Nodup := by
      simp only [List.cons_append, List.map_cons, List.nodup_cons] at hn
      exact hn.2
    have hx : ¬ x.id = f.id := by
      simp only [List.cons_append, List.map_cons, List.nodup_cons] at hn
      intro e
      apply hn.1
      rw [e]
      simp
    have ih := next_in_decomp pre post f hn2
    cases pre with
    | nil =>
      show next_in (x :: f :: post) f.id = _
      rw [next_in, if_neg hx]
      exact ih
    | cons y pre2 =>
      show next_in (x :: y :: (pre2 ++ f :: post)) f.id = _
      rw [next_in, if_neg hx]
      exact ih

/-- The predecessor of a view of a list with distinct views is the last of
what precedes it. -/
theorem prev_in_decomp : ∀ (pre post : List tinywl_view) (f : tinywl_view),
    ((pre ++ f :: post).map (fun u => u.id)).Nodup →
    prev_in (pre ++ f :: post) f.id = pre.getLast?.map (fun u => u.id)
  | [], post, f, hn => by
    have hf : f.id ∉ post.map (fun u => u.id) := by
      simp only [List.nil_append, List.map_cons, List.nodup_cons] at hn
      exact hn.1
    cases post with
    | nil => rfl
    | cons b r =>
      have hb : ¬ b.id = f.id := fun e => hf (by simp [e])
      show prev_in (f :: b :: r) f.id = _
      rw [prev_in, if_neg hb]
      exact prev_in_not_mem (b :: r) f.id hf
  | x :: pre, post, f, hn => by
    have hn2 : ((pre ++ f :: post).map (fun u => u.id)).Nodup := by
      simp only [List.cons_append, List.map_cons, List.nodup_cons] at hn
      exact hn.2
    have ih := prev_in_decomp pre post f hn2
    cases pre with
    | nil =>
      show prev_in (x :: f :: post) f.id = _
      rw [prev_in, if_pos rfl]
      rfl
    | cons y pre2 =>
      have hy : ¬ y.id = f.id := by
        simp only [List.cons_append, List.map_cons, List.nodup_cons] at hn2
        intro e
        apply hn2.1
        rw [e]
        simp
      show prev_in (x :: y :: (pre2 ++ f :: post)) f.id = _
      rw [prev_in, if_neg hy]
      rw [List.getLast?_cons_cons]
      exact ih

/-! ## The swap bindings -/

/-- The swap-with-next binding is `swap_binding` forward. -/
theorem handle_keybinding_swap_next (s : tinywl_server) (modifiers cur : Nat)
    (hp : s.passthrough_enabled = false) (hshift : modifiers &&& WLR_MODIFIER_SHIFT ≠ 0)
    (hlen : 2 ≤ s.focused_panel.views.length)
    (hf : s.focused_panel.focused_view = some cur) :
    handle_keybinding s 37 modifiers = swap_binding s cur true := by
  have hl : ¬ s.focused_panel.views.length < 2 := by omega
  unfold handle_keybinding
  simp [hp, hshift, hl, hf]

/-- The swap-with-prev binding is `swap_binding` backward. -/
theorem handle_keybinding_swap_prev (s : tinywl_server) (modifiers cur : Nat)
    (hp : s.passthrough_enabled = false) (hshift : modifiers &&& WLR_MODIFIER_SHIFT ≠ 0)
    (hlen : 2 ≤ s.focused_panel.views.length)
    (hf : s.focused_panel.focused_view = some cur) :
    handle_keybinding s 36 modifiers = swap_binding s cur false := by
  have hl : ¬ s.focused_panel.views.length < 2 := by omega
  unfold handle_keybinding
  simp [hp, hshift, hl, hf]

/-- What `swap_binding` returns when the link surgery leaves the managed list
`vs`. -/
theorem swap_binding_spec (s : tinywl_server) (f : tinywl_view) (forward : Bool)
    (o : wl_link) (ring : List wl_link) (hmem : f ∈ s.focused_panel.views)
    (ho : (if forward = true then link_next s.focused_panel f.id
      else link_prev s.focused_panel f.id) = some o)
    (hs : (if forward = true then
        list_swap (ring_of s.focused_panel view_list.managed) (wl_link.view f.id) o
      else list_swap (ring_of s.focused_panel view_list.managed) o (wl_link.view f.id)) =
      some ring) :
    swap_binding s f.id forward =
      some (true, center_mouse (with_panel s
        (set_panel_list s.focused_panel view_list.managed
          (ring_views s.focused_panel.views (wl_link.head view_list.managed) ring)))) := by
  unfold swap_binding
  simp only [list_of_view_of_mem s.focused_panel f hmem, ho, hs]
  rfl

/-- After `center_mouse` a managed list without override-redirect windows
holds the same views in the same order, and the focused view is the same. -/
theorem center_mouse_after_reorder (s : tinywl_server) (vs : List tinywl_view)
    (hno : ∀ v ∈ vs, is_override_redirect v = false) :
    (center_mouse (with_panel s
        (set_panel_list s.focused_panel view_list.managed vs))).focused_panel.focused_view =
      s.focused_panel.focused_view ∧
    (center_mouse (with_panel s
        (set_panel_list s.focused_panel view_list.managed vs))).focused_panel.views.map
      (fun v => v.id) = vs.map (fun v => v.id) := by
  constructor
  · rw [center_mouse_focused_view]
    rfl
  · have h := center_mouse_same_tags
      (with_panel s (set_panel_list s.focused_panel view_list.managed vs)) hno
    exact ids_of_tags _ _ h.1

/-- The link surgery of the swap-with-next binding on the last view. -/
theorem list_swap_last (p : gateway_panel) (pre : List tinywl_view) (f : tinywl_view)
    (hl : p.views = pre ++ [f]) (hpre : pre ≠ [])
    (hn : (p.views.map (fun u => u.id)).Nodup) :
    list_swap (ring_of p view_list.managed) (wl_link.view f.id)
        (wl_link.head view_list.managed) =
      some ([].map (fun v : tinywl_view => wl_link.view v.id) ++
        wl_link.head view_list.managed :: (f :: pre).map (fun v => wl_link.view v.id)) := by
  rw [hl] at hn
  have ha : wl_link.view f.id ∉
      wl_link.head view_list.managed :: pre.map (fun v => wl_link.view v.id) := by
    simp only [List.map_append, List.map_cons, List.map_nil, List.nodup_append] at hn
    intro hm
    rcases List.mem_cons.mp hm with h | h
    · cases h
    · obtain ⟨v, hv, he⟩ := List.mem_map.mp h
      have hid : v.id = f.id := by
        injection he
      exact hn.2.2 (List.mem_map.mpr ⟨v, hv, hid⟩) (by simp)
  have h1 := rotate_to_spec _ [] [] _ ha
  have h2 : ring_of p view_list.managed =
      (wl_link.head view_list.managed :: pre.map (fun v => wl_link.view v.id)) ++
        wl_link.view f.id :: [] := by
    unfold ring_of
    show wl_link.head view_list.managed :: p.views.map (fun v => wl_link.view v.id) = _
    rw [hl]
    simp
  rw [h2]
  have h3 := list_swap_of_rotate _ (pre.map (fun v => wl_link.view v.id))
    (wl_link.view f.id) (wl_link.head view_list.managed) (by rw [h1]; simp) (by simpa using hpre)
  rw [h3]
  simp

/-- The link surgery of the swap-with-prev binding on the first view. -/
theorem list_swap_first (p : gateway_panel) (post : List tinywl_view) (f : tinywl_view)
    (hl : p.views = f :: post) (hpost : post ≠ []) :
    list_swap (ring_of p view_list.managed) (wl_link.head view_list.managed)
        (wl_link.view f.id) =
      some ([f].map (fun v => wl_link.view v.id) ++
        wl_link.head view_list.managed :: post.map (fun v => wl_link.view v.id)) := by
  have h1 := rotate_to_spec [] (wl_link.view f.id :: post.map (fun v => wl_link.view v.id)) []
    (wl_link.head view_list.managed) (by simp)
  have h2 : ring_of p view_list.managed =
      wl_link.head view_list.managed ::
        wl_link.view f.id :: post.map (fun v => wl_link.view v.id) := by
    unfold ring_of
    show wl_link.head view_list.managed :: p.views.map (fun v => wl_link.view v.id) = _
    rw [hl]
    simp
  rw [h2]
  have h3 := list_swap_of_rotate
    (wl_link.head view_list.managed ::
        wl_link.view f.id :: post.map (fun v => wl_link.view v.id))
    (post.map (fun v => wl_link.view v.id))
    (wl_link.head view_list.managed) (wl_link.view f.id) (by simpa using h1)
    (by simpa using hpost)
  rw [h3]
  simp

/-- The swap-with-next binding on a managed list `pre ++ f :: post` whose
focused view is `f`. -/
theorem swap_next_reorder (s : tinywl_server) (modifiers : Nat) (pre post : List tinywl_view)
    (f : tinywl_view)
    (hp : s.passthrough_enabled = false) (hshift : modifiers &&& WLR_MODIFIER_SHIFT ≠ 0)
    (hv : s.focused_panel.views = pre ++ f :: post)
    (hlen : 2 ≤ s.focused_panel.views.length)
    (hn : (s.focused_panel.views.map (fun u => u.id)).Nodup)
    (hno : ∀ v ∈ s.focused_panel.views, is_override_redirect v = false)
    (hf : s.focused_panel.focused_view = some f.id) :
    (handle_keybinding s 37 modifiers).map (fun r =>
        (r.1, r.2.focused_panel.focused_view, r.2.focused_panel.views.map (fun v => v.id))) =
      some (true, some f.id,
        swapped_with_next (pre.map (fun v => v.id)) f.id (post.map (fun v => v.id))) := by
  have hmem : f ∈ s.focused_panel.views := by
    rw [hv]
    simp
  have hnext := link_next_of_mem s.focused_panel f hmem
  have hn2 := hn
  rw [hv] at hn2
  have hsub : ∀ w, w ∈ pre ∨ w = f ∨ w ∈ post → w ∈ s.focused_panel.views := by
    intro w hw
    rw [hv]
    simp only [List.mem_append, List.mem_cons]
    tauto
  rw [hv, next_in_decomp pre post f hn2] at hnext
  rw [handle_keybinding_swap_next s modifiers f.id hp hshift hlen hf]
  cases post with
  | nil =>
    have hpre : pre ≠ [] := by
      intro e
      rw [hv, e] at hlen
      simp at hlen
    have h1 := list_swap_last s.focused_panel pre f hv hpre hn
    rw [swap_binding_spec s f true _ _ hmem hnext h1]
    have h2 := ring_views_spec s.focused_panel.views [] (f :: pre) view_list.managed hn
      (by simp) (by
        intro w hw
        apply hsub
        simp only [List.mem_cons] at hw
        tauto)
    rw [h2]
    obtain ⟨c1, c2⟩ := center_mouse_after_reorder s (f :: pre ++ []) (by
      intro w hw
      apply hno
      apply hsub
      simp only [List.append_nil, List.mem_cons] at hw
      tauto)
    simp only [Option.map_some', c1, c2, hf]
    simp [swapped_with_next]
  | cons b r =>
    obtain ⟨h1, _⟩ := list_swap_rings s.focused_panel view_list.managed pre r f b hv hn
    rw [swap_binding_spec s f true _ _ hmem hnext h1]
    have h2 := ring_views_spec s.focused_panel.views (b :: f :: r) pre view_list.managed hn
      (by
        intro w hw
        apply hsub
        simp only [List.mem_cons] at hw ⊢
        tauto) (by
        intro w hw
        apply hsub
        tauto)
    simp only [List.map_cons] at h2
    rw [h2]
    obtain ⟨c1, c2⟩ := center_mouse_after_reorder s (pre ++ b :: f :: r) (by
      intro w hw
      apply hno
      apply hsub
      simp only [List.mem_append, List.mem_cons] at hw ⊢
      tauto)
    simp only [Option.map_some', c1, c2, hf]
    simp [swapped_with_next]

/-- The swap-with-prev binding on a managed list `pre ++ f :: post` whose
focused view is `f`. -/
theorem swap_prev_reorder (s : tinywl_server) (modifiers : Nat) (pre post : List tinywl_view)
    (f : tinywl_view)
    (hp : s.passthrough_enabled = false) (hshift : modifiers &&& WLR_MODIFIER_SHIFT ≠ 0)
    (hv : s.focused_panel.views = pre ++ f :: post)
    (hlen : 2 ≤ s.focused_panel.views.length)
    (hn : (s.focused_panel.views.map (fun u => u.id)).Nodup)
    (hno : ∀ v ∈ s.focused_panel.views, is_override_redirect v = false)
    (hf : s.focused_panel.focused_view = some f.id) :
    (handle_keybinding s 36 modifiers).map (fun r =>
        (r.1, r.2.focused_panel.focused_view, r.2.focused_panel.views.map (fun v => v.id))) =
      some (true, some f.id,
        swapped_with_prev (pre.map (fun v => v.id)) f.id (post.map (fun v => v.id))) := by
  have hmem : f ∈ s.focused_panel.views := by
    rw [hv]
    simp
  have hprev := link_prev_of_mem s.focused_panel f hmem
  have hn2 := hn
  rw [hv] at hn2
  have hsub : ∀ w, w ∈ pre ∨ w = f ∨ w ∈ post → w ∈ s.focused_panel.views := by
    intro w hw
    rw [hv]
    simp only [List.mem_append, List.mem_cons]
    tauto
  rw [hv, prev_in_decomp pre post f hn2] at hprev
  rw [handle_keybinding_swap_prev s modifiers f.id hp hshift hlen hf]
  rcases List.eq_nil_or_concat pre with e | ⟨pre2, a, e⟩
  · subst e
    have hpost : post ≠ [] := by
      intro e
      rw [hv, e] at hlen
      simp at hlen
    have h1 := list_swap_first s.focused_panel post f hv hpost
    rw [swap_binding_spec s f false _ _ hmem hprev h1]
    have h2 := ring_views_spec s.focused_panel.views [f] post view_list.managed hn
      (by
        intro w hw
        apply hsub
        simp only [List.mem_singleton] at hw
        tauto) (by
        intro w hw
        apply hsub
        tauto)
    rw [h2]
    obtain ⟨c1, c2⟩ := center_mouse_after_reorder s (post ++ [f]) (by
      intro w hw
      apply hno
      apply hsub
      simp only [List.mem_append, List.mem_singleton] at hw
      tauto)
    simp only [Option.map_some', c1, c2, hf]
    simp [swapped_with_prev]
  · rw [List.concat_eq_append] at e
    subst e
    have hv2 : panel_list s.focused_panel view_list.managed = pre2 ++ a :: f :: post := by
      show s.focused_panel.views = _
      rw [hv]
      simp
    obtain ⟨h1, _⟩ := list_swap_rings s.focused_panel view_list.managed pre2 post a f hv2 hn
    have hprev2 : link_prev s.focused_panel f.id = some (wl_link.view a.id) := by
      rw [hprev]
      simp
    rw [swap_binding_spec s f false _ _ hmem hprev2 h1]
    have h2 := ring_views_spec s.focused_panel.views (f :: a :: post) pre2 view_list.managed hn
      (by
        intro w hw
        apply hsub
        simp only [List.mem_cons, List.mem_append, List.mem_singleton] at hw ⊢
        tauto) (by
        intro w hw
        apply hsub
        simp only [List.mem_append]
        tauto)
    simp only [List.map_cons] at h2
    rw [h2]
    obtain ⟨c1, c2⟩ := center_mouse_after_reorder s (pre2 ++ f :: a :: post) (by
      intro w hw
      apply hno
      apply hsub
      simp only [List.mem_append, List.mem_cons, List.mem_singleton] at hw ⊢
      tauto)
    simp only [Option.map_some', c1, c2, hf]
    simp [swapped_with_prev]

/-- C12, as the code has it. On a managed list `pre ++ f :: post` of at least
two distinct views, none of them an override-redirect window, whose focused
view is `f`: key 37 with Shift exchanges `f` with the view after it and leaves
every other view in its place, and moves `f` from the last place to the front;
key 36 with Shift exchanges `f` with the view before it, and moves `f` from the
first place to the end. The panel's focused view stays `f`. -/
theorem swap_bindings_reorder (s : tinywl_server) (modifiers : Nat)
    (pre post : List tinywl_view) (f : tinywl_view)
    (hp : s.passthrough_enabled = false) (hshift : modifiers &&& WLR_MODIFIER_SHIFT ≠ 0)
    (hv : s.focused_panel.views = pre ++ f :: post)
    (hlen : 2 ≤ s.focused_panel.views.length)
    (hn : (s.focused_panel.views.map (fun u => u.id)).Nodup)
    (hno : ∀ v ∈ s.focused_panel.views, is_override_redirect v = false)
    (hf : s.focused_panel.focused_view = some f.id) :
    (handle_keybinding s 37 modifiers).map (fun r =>
        (r.1, r.2.focused_panel.focused_view, r.2.focused_panel.views.map (fun v => v.id))) =
      some (true, some f.id,
        swapped_with_next (pre.map (fun v => v.id)) f.id (post.map (fun v => v.id))) ∧
    (handle_keybinding s 36 modifiers).map (fun r =>
        (r.1, r.2.focused_panel.focused_view, r.2.focused_panel.views.map (fun v => v.id))) =
      some (true, some f.id,
        swapped_with_prev (pre.map (fun v => v.id)) f.id (post.map (fun v => v.id))) :=
  ⟨swap_next_reorder s modifiers pre post f hp hshift hv hlen hn hno hf,
    swap_prev_reorder s modifiers pre post f hp hshift hv hlen hn hno hf⟩

/-- C12, counterexample. On the managed list 1, 2, 3 with view 1 focused, key
36 with Shift leaves the list 2, 3, 1: views 2 and 3 both change position. With
view 3 focused, key 37 with Shift leaves 3, 1, 2. -/
theorem swap_prev_first_view_rotates :
    three_views_server.focused_panel.views.map (fun v => v.id) = [1, 2, 3] ∧
    three_views_server.focused_panel.focused_view = some 1 ∧
    (handle_keybinding three_views_server 36 65).map (fun r =>
        (r.1, r.2.focused_panel.focused_view, r.2.focused_panel.views.map (fun v => v.id))) =
      some (true, some 1, [2, 3, 1]) ∧
    (focus_view three_views_server (some 3) false).focused_panel.focused_view = some 3 ∧
    (handle_keybinding (focus_view three_views_server (some 3) false) 37 65).map (fun r =>
        (r.1, r.2.focused_panel.focused_view, r.2.focused_panel.views.map (fun v => v.id))) =
      some (true, some 3, [3, 1, 2]) := by
  decide

theorem swap_bindings_reorder_witness :
    (handle_keybinding three_views_server 37 65).map (fun r =>
        (r.1, r.2.focused_panel.focused_view, r.2.focused_panel.views.map (fun v => v.id))) =
      some (true, some 1, [2, 1, 3]) ∧
    (handle_keybinding three_views_server 36 65).map (fun r =>
        (r.1, r.2.focused_panel.focused_view, r.2.focused_panel.views.map (fun v => v.id))) =
      some (true, some 1, [2, 3, 1]) :=
  swap_bindings_reorder three_views_server 65 []
    (three_views_server.focused_panel.views.drop 1)
    (three_views_server.focused_panel.views.getD 0 (xdg_view 1))
    (by decide) (by decide) (by decide) (by decide) (by decide) (by decide) (by decide)

/-! ## The managed list across the layout pass -/

/-- The first loop of `panel_update` keeps the views that are not
override-redirect windows, in their order. -/
theorem redirect_partition_tags : ∀ (vs red : List tinywl_view),
    (redirect_partition vs red).1.map view_tag =
      (vs.filter (fun v => !is_override_redirect v)).map view_tag
  | [], _ => rfl
  | v :: vs, red => by
    cases hx : v.xwayland_surface with
    | none =>
      have ho : is_override_redirect v = false := by
        simp [is_override_redirect, hx]
      have ih := redirect_partition_tags vs red
      simp only [redirect_partition, hx, List.filter_cons, ho, Bool.not_false, if_true,
        List.map_cons, ih]
      simp [view_tag, is_override_redirect, hx]
    | some xw =>
      cases hxo : xw.override_redirect with
      | true =>
        have ho : is_override_redirect v = true := by
          simp [is_override_redirect, hx, hxo]
        simp only [redirect_partition, hx, hxo, if_true, List.filter_cons, ho, Bool.not_true,
          Bool.false_eq_true, if_false]
        exact redirect_partition_tags vs _
      | false =>
        have ho : is_override_redirect v = false := by
          simp [is_override_redirect, hx, hxo]
        have ih := redirect_partition_tags vs red
        simp only [redirect_partition, hx, hxo, Bool.false_eq_true, if_false, List.filter_cons,
          ho, Bool.not_false, if_true, List.map_cons, ih]
        simp [view_tag, is_override_redirect, hx]

/-- After `panel_update` the managed list holds the views that are not
override-redirect windows, in their order. -/
theorem panel_update_views_tags (gaps : Nat) (p : gateway_panel) (o : tinywl_output) :
    (panel_update gaps p o).views.map view_tag =
      (p.views.filter (fun v => !is_override_redirect v)).map view_tag := by
  show (layout_views gaps o _ _).2.map view_tag = _
  rw [layout_views_tags, rebalance_views_tags, (assign_last_spec _ _ _).2.2.2.1, List.map_map,
    ← redirect_partition_tags p.views p.redirect_views]
  rfl

/-- After the loop of `center_mouse` over at least one output the managed list
holds the views that are not override-redirect windows; without an output it
is as before. -/
theorem layout_outputs_views_tags (gaps : Nat) (p : gateway_panel) :
    (layout_outputs gaps p).views.map view_tag =
      if p.outputs.isEmpty then p.views.map view_tag
      else (p.views.filter (fun v => !is_override_redirect v)).map view_tag := by
  unfold layout_outputs
  cases ho : p.outputs with
  | nil => rfl
  | cons o os =>
    have h1 := panel_update_views_tags gaps p o
    have hno : ∀ v ∈ (panel_update gaps p o).views, is_override_redirect v = false := by
      intro v hv
      have h2 : view_tag v ∈ (panel_update gaps p o).views.map view_tag :=
        List.mem_map_of_mem _ hv
      rw [h1] at h2
      obtain ⟨w, hw, he⟩ := List.mem_map.mp h2
      have h3 := (List.mem_filter.mp hw).2
      have h4 : is_override_redirect w = is_override_redirect v := congrArg Prod.snd he
      rw [← h4]
      simpa using h3
    have h5 := (panel_update_fold_same_tags gaps os (panel_update gaps p o) hno).1.1
    simp only [List.foldl_cons, List.isEmpty_cons, Bool.false_eq_true, if_false]
    rw [h5, h1]

/-- The managed list after `center_mouse`. -/
theorem center_mouse_views_tags (s : tinywl_server) :
    (center_mouse s).focused_panel.views.map view_tag =
      if s.focused_panel.outputs.isEmpty then s.focused_panel.views.map view_tag
      else (s.focused_panel.views.filter (fun v => !is_override_redirect v)).map view_tag := by
  unfold center_mouse
  simp only
  rw [(focus_view_same_tags (with_panel s (layout_outputs s.window_gaps s.focused_panel))
    _ false).1]
  exact layout_outputs_views_tags s.window_gaps s.focused_panel

/-! ## The close binding -/

/-- The close-focused-and-advance binding with a focused view. -/
theorem handle_keybinding_close (s : tinywl_server) (modifiers cur : Nat)
    (hp : s.passthrough_enabled = false) (hm : modifiers ≠ 0)
    (hf : s.focused_panel.focused_view = some cur) :
    handle_keybinding s 53 modifiers =
      match resolve_link s.focused_panel true (link_next s.focused_panel cur) with
      | none => none
      | some n =>
        some (true, center_mouse (with_panel s
          { s.focused_panel with focused_view := if n = cur then none else some n })) := by
  obtain ⟨fp, kfs, pw, wg, pe, os⟩ := s
  simp only at hp hf
  subst hp
  unfold handle_keybinding
  simp [hf, hm, WLR_MODIFIER_SHIFT]
  rfl

/-- The close binding when the link after the focused view resolves to the
view `n`. -/
theorem close_binding_result (s : tinywl_server) (modifiers cur n : Nat)
    (hp : s.passthrough_enabled = false) (hm : modifiers ≠ 0)
    (hf : s.focused_panel.focused_view = some cur)
    (h : resolve_link s.focused_panel true (link_next s.focused_panel cur) = some n) :
    (handle_keybinding s 53 modifiers).map (fun r =>
        (r.1, r.2.focused_panel.focused_view, r.2.focused_panel.views.map view_tag)) =
      some (true, (if n = cur then none else some n),
        if s.focused_panel.outputs.isEmpty then s.focused_panel.views.map view_tag
        else (s.focused_panel.views.filter (fun v => !is_override_redirect v)).map view_tag) := by
  rw [handle_keybinding_close s modifiers cur hp hm hf, h]
  simp only [Option.map_some']
  rw [center_mouse_focused_view, center_mouse_views_tags]
  rfl

/-- C18, as the code has it. On a managed list `pre ++ f :: post` of distinct
views whose focused view is `f`, key 53 with a modifier returns `true` and makes
the panel's focused view the view after `f`, the first view when `f` is the
last one, and none when `f` is the only view. The managed list keeps its views
that are not override-redirect windows, in their order; the override-redirect
windows leave it when the panel has an output. -/
theorem close_binding_advances (s : tinywl_server) (modifiers : Nat)
    (pre post : List tinywl_view) (f : tinywl_view)
    (hp : s.passthrough_enabled = false) (hm : modifiers ≠ 0)
    (hv : s.focused_panel.views = pre ++ f :: post)
    (hn : (s.focused_panel.views.map (fun u => u.id)).Nodup)
    (hf : s.focused_panel.focused_view = some f.id) :
    (handle_keybinding s 53 modifiers).map (fun r =>
        (r.1, r.2.focused_panel.focused_view, r.2.focused_panel.views.map view_tag)) =
      some (true, cycle_successor (pre.map (fun v => v.id)) (post.map (fun v => v.id)),
        if s.focused_panel.outputs.isEmpty then s.focused_panel.views.map view_tag
        else (s.focused_panel.views.filter (fun v => !is_override_redirect v)).map view_tag) := by
  have hmem : f ∈ s.focused_panel.views := by
    rw [hv]
    simp
  have hnext := link_next_of_mem s.focused_panel f hmem
  have hn2 := hn
  rw [hv] at hn2
  rw [hv, next_in_decomp pre post f hn2] at hnext
  cases post with
  | nil =>
    cases pre with
    | nil =>
      have hres : resolve_link s.focused_panel true (link_next s.focused_panel f.id) =
          some f.id := by
        rw [hnext]
        simp [resolve_link, hv]
      rw [close_binding_result s modifiers f.id f.id hp hm hf hres]
      simp [cycle_successor]
    | cons a pre2 =>
      have ha : ¬ a.id = f.id := by
        simp only [List.cons_append, List.map_cons, List.nodup_cons] at hn2
        intro e
        apply hn2.1
        rw [e]
        simp
      have hres : resolve_link s.focused_panel true (link_next s.focused_panel f.id) =
          some a.id := by
        rw [hnext]
        simp [resolve_link, hv]
      rw [close_binding_result s modifiers f.id a.id hp hm hf hres]
      simp [cycle_successor, ha]
  | cons b r =>
    have hb : ¬ b.id = f.id := by
      simp only [List.map_append, List.map_cons, List.nodup_append, List.nodup_cons] at hn2
      intro e
      apply hn2.2.1.1
      rw [e]
      simp
    have hres : resolve_link s.focused_panel true (link_next s.focused_panel f.id) =
        some b.id := by
      rw [hnext]
      simp [resolve_link]
    rw [close_binding_result s modifiers f.id b.id hp hm hf hres]
    simp [cycle_successor, hb]

theorem close_binding_advances_witness :
    (handle_keybinding popup_server 53 1).map (fun r =>
        (r.1, r.2.focused_panel.focused_view, r.2.focused_panel.views.map view_tag)) =
      some (true, some 2, [(1, false), (2, false)]) :=
  close_binding_advances popup_server 1 []
    (popup_server.focused_panel.views.drop 1)
    (popup_server.focused_panel.views.getD 0 (xdg_view 1))
    (by decide) (by decide) (by decide) (by decide) (by decide)

/-- C18, counterexample. With an override-redirect window in the managed list
1, 2, 3 (view 3), key 53 leaves the managed list 1, 2: the binding takes view 3
out of it. -/
theorem close_binding_changes_managed_list :
    popup_server.focused_panel.views.map (fun v => v.id) = [1, 2, 3] ∧
    popup_server.focused_panel.focused_view = some 1 ∧
    (handle_keybinding popup_server 53 1).map (fun r =>
        (r.1, r.2.focused_panel.focused_view, r.2.focused_panel.views.map (fun v => v.id),
          r.2.focused_panel.redirect_views.map (fun v => v.id))) =
      some (true, some 2, [1, 2], [3]) := by
  decide

/-! ## The cycle bindings -/

/-- The cycle-next binding with a focused view on a list of two or more. -/
theorem handle_keybinding_cycle_next (s : tinywl_server) (modifiers cur : Nat)
    (hp : s.passthrough_enabled = false) (hshift : modifiers &&& WLR_MODIFIER_SHIFT = 0)
    (hlen : 2 ≤ s.focused_panel.views.length)
    (hf : s.focused_panel.focused_view = some cur) :
    handle_keybinding s 37 modifiers =
      match resolve_link s.focused_panel true (link_next s.focused_panel cur) with
      | none => none
      | some n => some (true, center_mouse (focus_view s (some n) false)) := by
  have hl : ¬ s.focused_panel.views.length < 2 := by omega
  obtain ⟨fp, kfs, pw, wg, pe, os⟩ := s
  simp only at hp hf hl
  subst hp
  unfold handle_keybinding
  simp [hf, hshift, hl]

/-- The cycle-prev binding with a focused view on a list of two or more. -/
theorem handle_keybinding_cycle_prev (s : tinywl_server) (modifiers cur : Nat)
    (hp : s.passthrough_enabled = false) (hshift : modifiers &&& WLR_MODIFIER_SHIFT = 0)
    (hlen : 2 ≤ s.focused_panel.views.length)
    (hf : s.focused_panel.focused_view = some cur) :
    handle_keybinding s 36 modifiers =
      match resolve_link s.focused_panel false (link_prev s.focused_panel cur) with
      | none => none
      | some n => some (true, center_mouse (focus_view s (some n) false)) := by
  have hl : ¬ s.focused_panel.views.length < 2 := by omega
  obtain ⟨fp, kfs, pw, wg, pe, os⟩ := s
  simp only at hp hf hl
  subst hp
  unfold handle_keybinding
  simp [hf, hshift, hl]

/-- Focusing another managed view while the seat's keyboard focus is on the
focused view `c`, then `center_mouse`: the panel's focused view is the other
view. -/
theorem focus_then_center (s : tinywl_server) (c w : tinywl_view)
    (hc : c ∈ s.focused_panel.views) (hw : w ∈ s.focused_panel.views) (hne : w.id ≠ c.id)
    (hn : (s.focused_panel.views.map (fun u => u.id)).Nodup)
    (hsurf : (s.focused_panel.views.map view_surface).Nodup)
    (hseat : s.keyboard_focused_surface = view_surface c) :
    (center_mouse (focus_view s (some w.id) false)).focused_panel.focused_view = some w.id := by
  have hfind := find_view_of_mem s.focused_panel w hn hw
  have hs : s.keyboard_focused_surface ≠ view_surface w := by
    rw [hseat]
    exact surface_ne_of_id_ne s.focused_panel.views c w hsurf hc hw hne
  rw [center_mouse_focused_view, (focus_view_proceeds s w.id w hfind hs).1]
  exact refocus_focused_view _ _

/-- A list splits at each of its positions. -/
theorem split_at_index (l : List tinywl_view) (i : Nat) (c : tinywl_view)
    (h : l[i]? = some c) : ∃ pre post, l = pre ++ c :: post ∧ pre.length = i := by
  obtain ⟨hi, he⟩ := List.getElem?_eq_some_iff.mp h
  refine ⟨l.take i, l.drop (i + 1), ?_, ?_⟩
  · rw [← he, ← List.drop_eq_getElem_cons hi, List.take_append_drop]
  · rw [List.length_take]
    omega

/-- The position after a split position, going round. -/
theorem index_successor (pre post : List tinywl_view) (c : tinywl_view)
    (hlen : 2 ≤ (pre ++ c :: post).length) :
    ((pre ++ c :: post)[(pre.length + 1) % (pre ++ c :: post).length]?).map (fun v => v.id) =
      cycle_successor (pre.map (fun v => v.id)) (post.map (fun v => v.id)) := by
  cases post with
  | nil =>
    cases pre with
    | nil => simp at hlen
    | cons a pre2 => simp [cycle_successor]
  | cons b r =>
    have h1 : (pre.length + 1) % (pre ++ c :: b :: r).length = pre.length + 1 := by
      apply Nat.mod_eq_of_lt
      simp
    rw [h1]
    have h2 : (pre ++ c :: b :: r)[pre.length + 1]? = some b := by
      rw [List.getElem?_append_right (by omega)]
      simp
    rw [h2]
    simp [cycle_successor]

/-- The position before a split position, going round. -/
theorem index_predecessor (pre post : List tinywl_view) (c : tinywl_view)
    (hlen : 2 ≤ (pre ++ c :: post).length) :
    ((pre ++ c :: post)[(pre.length + (pre ++ c :: post).length - 1) %
        (pre ++ c :: post).length]?).map (fun v => v.id) =
      cycle_predecessor (pre.map (fun v => v.id)) (post.map (fun v => v.id)) := by
  rcases List.eq_nil_or_concat pre with e | ⟨pre2, a, e⟩
  · subst e
    cases post with
    | nil => simp at hlen
    | cons b r =>
      have h1 : (([] : List tinywl_view).length + ([] ++ c :: b :: r).length - 1) %
          ([] ++ c :: b :: r).length = (b :: r).length := by
        simp only [List.nil_append, List.length_cons, List.length_nil, Nat.zero_add]
        apply Nat.mod_eq_of_lt
        omega
      rw [h1]
      have h3 : ([] ++ c :: b :: r)[(b :: r).length]? = (b :: r).getLast? := by
        rw [List.getLast?_eq_getElem?]
        simp
      rw [h3]
      simp only [cycle_predecessor, List.map_nil, List.getLast?_nil]
      rw [List.getLast?_map]
  · rw [List.concat_eq_append] at e
    subst e
    have h1 : ((pre2 ++ [a]).length + ((pre2 ++ [a]) ++ c :: post).length - 1) %
        ((pre2 ++ [a]) ++ c :: post).length = pre2.length := by
      simp only [List.length_append, List.length_cons, List.length_nil]
      have e2 : pre2.length + (0 + 1) + (pre2.length + (0 + 1) + (post.length + 1)) - 1 =
          pre2.length + (pre2.length + (0 + 1) + (post.length + 1)) * 1 := by omega
      rw [e2, Nat.add_mul_mod_self_left]
      apply Nat.mod_eq_of_lt
      omega
    rw [h1]
    have h2 : ((pre2 ++ [a]) ++ c :: post)[pre2.length]? = some a := by
      rw [List.append_assoc, List.getElem?_append_right (by omega)]
      simp
    rw [h2]
    simp [cycle_predecessor]

/-- In a list of distinct views the views around a split position are not the
view at it. -/
theorem ne_of_split (pre post : List tinywl_view) (c w : tinywl_view)
    (hn : ((pre ++ c :: post).map (fun u => u.id)).Nodup) (hw : w ∈ pre ∨ w ∈ post) :
    w.id ≠ c.id := by
  simp only [List.map_append, List.map_cons, List.nodup_append, List.nodup_cons] at hn
  intro e
  rcases hw with h | h
  · exact hn.2.2 (List.mem_map.mpr ⟨w, h, e⟩) (by simp)
  · exact hn.2.1.1 (List.mem_map.mpr ⟨w, h, e⟩)

/-- The cycle-next binding on a managed list `pre ++ c :: post`. -/
theorem cycle_next_decomp (s : tinywl_server) (modifiers : Nat) (pre post : List tinywl_view)
    (c : tinywl_view)
    (hp : s.passthrough_enabled = false) (hshift : modifiers &&& WLR_MODIFIER_SHIFT = 0)
    (hv : s.focused_panel.views = pre ++ c :: post)
    (hlen : 2 ≤ s.focused_panel.views.length)
    (hn : (s.focused_panel.views.map (fun u => u.id)).Nodup)
    (hsurf : (s.focused_panel.views.map view_surface).Nodup)
    (hf : s.focused_panel.focused_view = some c.id)
    (hseat : s.keyboard_focused_surface = view_surface c) :
    (handle_keybinding s 37 modifiers).map (fun r => (r.1, r.2.focused_panel.focused_view)) =
      some (true, cycle_successor (pre.map (fun v => v.id)) (post.map (fun v => v.id))) := by
  have hmem : c ∈ s.focused_panel.views := by
    rw [hv]
    simp
  have hnext := link_next_of_mem s.focused_panel c hmem
  have hn2 := hn
  rw [hv] at hn2
  rw [hv, next_in_decomp pre post c hn2] at hnext
  rw [handle_keybinding_cycle_next s modifiers c.id hp hshift hlen hf, hnext]
  cases post with
  | nil =>
    cases pre with
    | nil =>
      rw [hv] at hlen
      simp at hlen
    | cons a pre2 =>
      have hres : resolve_link s.focused_panel true
          (match Option.map (fun u => u.id) ([] : List tinywl_view).head? with
            | some n => some (wl_link.view n)
            | none => some (wl_link.head view_list.managed)) = some a.id := by
        simp [resolve_link, hv]
      rw [hres]
      simp only [Option.map_some']
      rw [focus_then_center s c a hmem (by rw [hv]; simp)
        (ne_of_split (a :: pre2) [] c a hn2 (Or.inl (by simp))) hn hsurf hseat]
      simp [cycle_successor]
  | cons b r =>
    have hres : resolve_link s.focused_panel true
        (match Option.map (fun u => u.id) (b :: r).head? with
          | some n => some (wl_link.view n)
          | none => some (wl_link.head view_list.managed)) = some b.id := by
      simp [resolve_link]
    rw [hres]
    simp only [Option.map_some']
    rw [focus_then_center s c b hmem (by rw [hv]; simp)
      (ne_of_split pre (b :: r) c b hn2 (Or.inr (by simp))) hn hsurf hseat]
    simp [cycle_successor]

/-- The cycle-prev binding on a managed list `pre ++ c :: post`. -/
theorem cycle_prev_decomp (s : tinywl_server) (modifiers : Nat) (pre post : List tinywl_view)
    (c : tinywl_view)
    (hp : s.passthrough_enabled = false) (hshift : modifiers &&& WLR_MODIFIER_SHIFT = 0)
    (hv : s.focused_panel.views = pre ++ c :: post)
    (hlen : 2 ≤ s.focused_panel.views.length)
    (hn : (s.focused_panel.views.map (fun u => u.id)).Nodup)
    (hsurf : (s.focused_panel.views.map view_surface).Nodup)
    (hf : s.focused_panel.focused_view = some c.id)
    (hseat : s.keyboard_focused_surface = view_surface c) :
    (handle_keybinding s 36 modifiers).map (fun r => (r.1, r.2.focused_panel.focused_view)) =
      some (true, cycle_predecessor (pre.map (fun v => v.id)) (post.map (fun v => v.id))) := by
  have hmem : c ∈ s.focused_panel.views := by
    rw [hv]
    simp
  have hprev := link_prev_of_mem s.focused_panel c hmem
  have hn2 := hn
  rw [hv] at hn2
  rw [hv, prev_in_decomp pre post c hn2] at hprev
  rw [handle_keybinding_cycle_prev s modifiers c.id hp hshift hlen hf, hprev]
  rcases List.eq_nil_or_concat pre with e | ⟨pre2, a, e⟩
  · subst e
    rcases List.eq_nil_or_concat post with e2 | ⟨post2, z, e2⟩
    · subst e2
      rw [hv] at hlen
      simp at hlen
    · rw [List.concat_eq_append] at e2
      subst e2
      have hres : resolve_link s.focused_panel false
          (match Option.map (fun u => u.id) ([] : List tinywl_view).getLast? with
            | some n => some (wl_link.view n)
            | none => some (wl_link.head view_list.managed)) = some z.id := by
        have hlast : (c :: (post2 ++ [z])).getLast? = some z := by
          rw [← List.cons_append, List.getLast?_append]
          simp
        simp [resolve_link, hv, hlast]
      rw [hres]
      simp only [Option.map_some']
      rw [focus_then_center s c z hmem (by rw [hv]; simp)
        (ne_of_split [] (post2 ++ [z]) c z hn2 (Or.inr (by simp))) hn hsurf hseat]
      simp [cycle_predecessor]
  · rw [List.concat_eq_append] at e
    subst e
    have hres : resolve_link s.focused_panel false
        (match Option.map (fun u => u.id) (pre2 ++ [a]).getLast? with
          | some n => some (wl_link.view n)
          | none => some (wl_link.head view_list.managed)) = some a.id := by
      simp [resolve_link]
    rw [hres]
    simp only [Option.map_some']
    rw [focus_then_center s c a hmem (by rw [hv]; simp)
      (ne_of_split (pre2 ++ [a]) post c a hn2 (Or.inl (by simp))) hn hsurf hseat]
    simp [cycle_predecessor]

/-- C19. With passthrough disabled and no Shift: on a managed list of `n ≥ 2`
views with distinct surfaces whose focused view is at position `i` and holds
the seat's keyboard focus, key 37 makes the view at position `(i + 1) mod n`
the panel's focused view and key 36 the view at position `(i - 1) mod n`; with
fewer than 2 views both bindings return `false` and leave the state as it is. -/
theorem cycle_bindings (s : tinywl_server) (modifiers : Nat)
    (hp : s.passthrough_enabled = false) (hshift : modifiers &&& WLR_MODIFIER_SHIFT = 0) :
    (∀ (i : Nat) (c : tinywl_view), 2 ≤ s.focused_panel.views.length →
      (s.focused_panel.views.map (fun u => u.id)).Nodup →
      (s.focused_panel.views.map view_surface).Nodup →
      s.focused_panel.views[i]? = some c →
      s.focused_panel.focused_view = some c.id →
      s.keyboard_focused_surface = view_surface c →
      (handle_keybinding s 37 modifiers).map (fun r => (r.1, r.2.focused_panel.focused_view)) =
        some (true, (s.focused_panel.views[(i + 1) % s.focused_panel.views.length]?).map
          (fun v => v.id)) ∧
      (handle_keybinding s 36 modifiers).map (fun r => (r.1, r.2.focused_panel.focused_view)) =
        some (true, (s.focused_panel.views[(i + s.focused_panel.views.length - 1) %
          s.focused_panel.views.length]?).map (fun v => v.id))) ∧
    (s.focused_panel.views.length < 2 →
      handle_keybinding s 37 modifiers = some (false, s) ∧
      handle_keybinding s 36 modifiers = some (false, s)) := by
  constructor
  · intro i c hlen hn hsurf hi hf hseat
    obtain ⟨pre, post, hv, hpre⟩ := split_at_index _ i c hi
    have h1 := cycle_next_decomp s modifiers pre post c hp hshift hv hlen hn hsurf hf hseat
    have h2 := cycle_prev_decomp s modifiers pre post c hp hshift hv hlen hn hsurf hf hseat
    rw [hv] at hlen
    have h3 := index_successor pre post c hlen
    have h4 := index_predecessor pre post c hlen
    rw [hpre, ← hv] at h3 h4
    rw [h1, h2, h3, h4]
    exact ⟨rfl, rfl⟩
  · intro hlen
    constructor
    · unfold handle_keybinding
      simp [hp, hshift, hlen]
    · unfold handle_keybinding
      simp [hp, hshift, hlen]

theorem cycle_bindings_witness :
    (handle_keybinding three_views_server 37 64).map
        (fun r => (r.1, r.2.focused_panel.focused_view)) = some (true, some 2) ∧
    (handle_keybinding three_views_server 36 64).map
        (fun r => (r.1, r.2.focused_panel.focused_view)) = some (true, some 3) :=
  (cycle_bindings three_views_server 64 (by decide) (by decide)).1 0
    (three_views_server.focused_panel.views.getD 0 (xdg_view 1))
    (by decide) (by decide) (by decide) (by decide) (by decide) (by decide)

/-! ## The rectangles of the layout pass -/

theorem wrap32_of_in_int32 (z : Int) (h : in_int32 z) : wrap32 z = z := by
  unfold in_int32 at h
  unfold wrap32
  omega

/-- A write that keeps the rectangle fields keeps them in the whole array. -/
theorem stack_update_geometry (f : gateway_panel_stack → gateway_panel_stack)
    (hf : ∀ s, stack_geometry (f s) = stack_geometry s) :
    ∀ (sts : List gateway_panel_stack) (i j : Nat),
      stack_geometry (stack_at (stack_update f sts i) j) = stack_geometry (stack_at sts j)
  | [], _, _ => rfl
  | s :: _, 0, 0 => hf s
  | _ :: _, 0, _ + 1 => rfl
  | _ :: _, _ + 1, 0 => rfl
  | _ :: rest, i + 1, j + 1 => stack_update_geometry f hf rest i j

theorem assign_last_geometry (L : Nat) : ∀ (vs : List tinywl_view)
    (sts : List gateway_panel_stack) (j : Nat),
    stack_geometry (stack_at (assign_last L sts vs).1 j) = stack_geometry (stack_at sts j)
  | [], _, _ => rfl
  | _ :: vs, sts, j => by
    show stack_geometry (stack_at (assign_last L (stack_update incr_count sts L) vs).1 j) = _
    rw [assign_last_geometry L vs _ j]
    exact stack_update_geometry incr_count (fun _ => rfl) sts L j

theorem move_view_geometry (sts : List gateway_panel_stack) (src dst j : Nat) :
    stack_geometry (stack_at (move_view sts src dst) j) = stack_geometry (stack_at sts j) := by
  unfold move_view
  rw [stack_update_geometry incr_count (fun _ => rfl),
    stack_update_geometry decr_count (fun _ => rfl)]

theorem rebalance_while_geometry : ∀ (fuel : Nat) (sts : List gateway_panel_stack)
    (idx j : Nat),
    stack_geometry (stack_at (rebalance_while fuel sts idx).1 j) = stack_geometry (stack_at sts j)
  | 0, _, _, _ => rfl
  | fuel + 1, sts, idx, j => by
    unfold rebalance_while
    cases h : scan_target sts idx idx with
    | none => rfl
    | some sid =>
      simp only
      rw [rebalance_while_geometry fuel _ sid j, move_view_geometry]

theorem rebalance_views_geometry : ∀ (vs : List tinywl_view) (sts : List gateway_panel_stack)
    (j : Nat),
    stack_geometry (stack_at (rebalance_views sts vs).1 j) = stack_geometry (stack_at sts j)
  | [], _, _ => rfl
  | v :: vs, sts, j => by
    show stack_geometry (stack_at (rebalance_views (rebalance_view sts v).1 vs).1 j) = _
    rw [rebalance_views_geometry vs _ j]
    unfold rebalance_view
    by_cases h : v.stack_index < 0
    · simp only [h, if_true]
    · simp only [h, if_false]
      exact rebalance_while_geometry _ _ _ j

/-- Counting over `0, ..., t` from the front. -/
theorem countP_range_succ (f : Nat → Bool) (t : Nat) :
    (List.range (t + 1)).countP f =
      (if f 0 = true then 1 else 0) + (List.range t).countP (fun u => f (u + 1)) := by
  rw [List.range_succ_eq_map, List.countP_cons, List.countP_map]
  rw [Nat.add_comm]
  rfl

/-- The rectangle the second loop of `panel_update` gives a mapped stack of
the output: the width is the output's width divided by its stack count, and
`current_x` is the start value advanced once for each mapped stack of the
output met before. -/
theorem geometry_reset_geometry (output : tinywl_output) :
    ∀ (sts : List gateway_panel_stack) (i0 : Nat) (x : Int) (last t : Nat),
    (stack_at sts t).mapped = true →
    output_contains_stack output ((i0 + t : Nat) : Int) = true →
    stack_geometry (stack_at (geometry_reset output i0 x last sts).1 t) =
      (Int.tdiv output.width output.stack_array.length, output.height,
        x + ((List.range t).countP (fun u => (stack_at sts u).mapped &&
            output_contains_stack output ((i0 + u : Nat) : Int)) : Int) *
          Int.tdiv output.width output.stack_array.length,
        output.layout_y)
  | [], _, _, _, t, hm, _ => by
    have : (stack_at [] t).mapped = false := by
      simp [stack_at, default]
    rw [this] at hm
    cases hm
  | s :: rest, i0, x, last, 0, hm, hc => by
    have hm2 : s.mapped = true := hm
    have hc2 : output_contains_stack output (i0 : Int) = true := hc
    unfold geometry_reset
    simp only [hm2, hc2, Bool.not_true, Bool.false_eq_true, if_false]
    simp [stack_at, stack_geometry]
  | s :: rest, i0, x, last, t + 1, hm, hc => by
    have hm2 : (stack_at rest t).mapped = true := hm
    have hc2 : output_contains_stack output ((i0 + 1 + t : Nat) : Int) = true := by
      have e : i0 + 1 + t = i0 + (t + 1) := by omega
      rw [e]
      exact hc
    have hcount := countP_range_succ (fun u => (stack_at (s :: rest) u).mapped &&
      output_contains_stack output ((i0 + u : Nat) : Int)) t
    have hshift : (fun u => (stack_at (s :: rest) (u + 1)).mapped &&
        output_contains_stack output ((i0 + (u + 1) : Nat) : Int)) =
        (fun u => (stack_at rest u).mapped &&
          output_contains_stack output ((i0 + 1 + u : Nat) : Int)) := by
      funext u
      have e : i0 + (u + 1) = i0 + 1 + u := by omega
      rw [e]
      rfl
    simp only [hshift] at hcount
    rw [hcount]
    have h0 : stack_at (s :: rest) 0 = s := rfl
    simp only [h0, Nat.add_zero]
    by_cases hs : s.mapped = true
    · by_cases hcs : output_contains_stack output (i0 : Int) = true
      · have ih := geometry_reset_geometry output rest (i0 + 1)
          (x + Int.tdiv output.width output.stack_array.length) i0 t hm2 hc2
        unfold geometry_reset
        simp only [hs, hcs, Bool.not_true, Bool.false_eq_true, if_false]
        show stack_geometry (stack_at (geometry_reset output (i0 + 1)
          (x + Int.tdiv output.width output.stack_array.length) i0 rest).1 t) = _
        rw [ih]
        simp only [Bool.and_self, if_true, Nat.cast_add, Nat.cast_one]
        congr 2
        congr 1
        ring
      · have hcs2 : output_contains_stack output (i0 : Int) = false := by simpa using hcs
        have ih := geometry_reset_geometry output rest (i0 + 1) x i0 t hm2 hc2
        unfold geometry_reset
        simp only [hs, hcs2, Bool.not_true, Bool.not_false, Bool.false_eq_true, if_false,
          if_true]
        show stack_geometry (stack_at (geometry_reset output (i0 + 1) x i0 rest).1 t) = _
        rw [ih]
        simp
    · have hs2 : s.mapped = false := by simpa using hs
      have ih := geometry_reset_geometry output rest (i0 + 1) x last t hm2 hc2
      unfold geometry_reset
      simp only [hs2, Bool.not_false, if_true]
      show stack_geometry (stack_at (geometry_reset output (i0 + 1) x last rest).1 t) = _
      rw [ih]
      simp

theorem advance_y_zero (s : gateway_panel_stack) (h : Int) :
    advance_y (((0 : Nat) : Int) * h) s = s := by
  cases s
  simp [advance_y]

theorem advance_y_twice (s : gateway_panel_stack) (k : Nat) (h : Int) :
    advance_y ((k : Int) * h) (advance_y h s) = advance_y (((k + 1 : Nat) : Int) * h) s := by
  cases s
  simp only [advance_y, Nat.cast_add, Nat.cast_one]
  congr 1
  ring

/-- The rectangle of a view in the last loop of `panel_update`: it is placed
from its stack with `current_y` advanced once for each earlier view of the list
on the same stack. -/
theorem layout_views_place (gaps : Nat) (output : tinywl_output) (v : tinywl_view)
    (post : List tinywl_view) (i : Nat) (hv : v.stack_index = (i : Int))
    (hc : output_contains_stack output (i : Int) = true) :
    ∀ (pre : List tinywl_view) (sts : List gateway_panel_stack), i < sts.length →
    (∀ u ∈ pre, ∃ k : Nat, u.stack_index = (k : Int)) →
    (layout_views gaps output sts (pre ++ v :: post)).2[pre.length]? =
      some (place_view gaps output
        (advance_y ((views_on pre (i : Int) : Int) *
          Int.tdiv (stack_at sts i).height (stack_at sts i).item_count) (stack_at sts i)) v)
  | [], sts, _, _ => by
    have hc2 : output_contains_stack output v.stack_index = true := by
      rw [hv]
      exact hc
    have ht : v.stack_index.toNat = i := by
      rw [hv]
      simp
    simp only [List.nil_append, layout_views, hc2, Bool.not_true, Bool.false_eq_true, if_false,
      List.length_nil, List.getElem?_cons_zero, ht]
    have h0 : views_on [] (i : Int) = 0 := rfl
    rw [h0, advance_y_zero]
  | u :: pre, sts, hi, hpre => by
    have hpre2 : ∀ w ∈ pre, ∃ k : Nat, w.stack_index = (k : Int) :=
      fun w hw => hpre w (List.mem_cons_of_mem _ hw)
    obtain ⟨k, hk⟩ := hpre u (List.mem_cons_self _ _)
    have hcount := views_on_cons u pre (i : Int)
    by_cases hcu : output_contains_stack output u.stack_index = true
    · have ht : u.stack_index.toNat = k := by
        rw [hk]
        simp
      have ih := layout_views_place gaps output v post i hv hc pre
        (stack_update (advance_y (Int.tdiv (stack_at sts k).height (stack_at sts k).item_count))
          sts k) (by rw [stack_update_length]; exact hi) hpre2
      simp only [List.cons_append, layout_views, hcu, Bool.not_true, Bool.false_eq_true,
        if_false, List.length_cons, List.getElem?_cons_succ, ht]
      refine ih.trans ?_
      by_cases hki : k = i
      · subst hki
        rw [stack_at_update_eq _ _ _ hi]
        have hone : views_on (u :: pre) (k : Int) = views_on pre (k : Int) + 1 := by
          rw [hcount, if_pos hk]
        rw [hone]
        have e1 : (advance_y (Int.tdiv (stack_at sts k).height (stack_at sts k).item_count)
            (stack_at sts k)).height = (stack_at sts k).height := rfl
        have e2 : (advance_y (Int.tdiv (stack_at sts k).height (stack_at sts k).item_count)
            (stack_at sts k)).item_count = (stack_at sts k).item_count := rfl
        rw [e1, e2, advance_y_twice]
      · rw [stack_at_update_ne _ _ _ _ hki]
        have hne : ¬ u.stack_index = (i : Int) := by
          rw [hk]
          intro e
          exact hki (Int.ofNat.inj e)
        have hsame : views_on (u :: pre) (i : Int) = views_on pre (i : Int) := by
          rw [hcount, if_neg hne]
          rfl
        rw [hsame]
    · have hcu2 : output_contains_stack output u.stack_index = false := by simpa using hcu
      have ih := layout_views_place gaps output v post i hv hc pre sts hi hpre2
      simp only [List.cons_append, layout_views, hcu2, Bool.not_false, if_true,
        List.length_cons, List.getElem?_cons_succ]
      refine ih.trans ?_
      have hne : ¬ u.stack_index = (i : Int) := by
        intro e
        rw [e, hc] at hcu2
        cases hcu2
      have hsame : views_on (u :: pre) (i : Int) = views_on pre (i : Int) := by
        rw [hcount, if_neg hne]
        rfl
      rw [hsame]

theorem place_view_not_fullscreen (gaps : Nat) (output : tinywl_output)
    (st : gateway_panel_stack) (v0 : tinywl_view)
    (h : (place_view gaps output st v0).is_fullscreen = false) :
    (place_view gaps output st v0).x = wrap32 (st.current_x + gaps) ∧
    (place_view gaps output st v0).y = wrap32 (st.current_y + gaps) ∧
    (place_view gaps output st v0).width = wrap32 (st.width - 2 * gaps) ∧
    (place_view gaps output st v0).height =
      wrap32 (Int.tdiv st.height st.item_count - 2 * gaps) := by
  unfold place_view at h ⊢
  by_cases hf : v0.is_fullscreen = true
  · simp only [hf, if_true] at h
    cases h
  · simp only [hf, if_false]
    exact ⟨rfl, rfl, rfl, rfl⟩

/-- The rectangle `panel_update` gives the view at position `idx` of the
managed list, when it is on the mapped stack `i` of the output and not
fullscreen, as the `int32_t` values the code stores. -/
theorem layout_rectangle_wrapped (gaps : Nat) (panel : gateway_panel) (output : tinywl_output)
    (idx i : Nat) (v : tinywl_view)
    (hidx : (panel_update gaps panel output).views[idx]? = some v)
    (hvi : v.stack_index = (i : Int))
    (hm : (stack_at panel.stack_array i).mapped = true)
    (hc : output_contains_stack output (i : Int) = true)
    (hfs : v.is_fullscreen = false) :
    v.x = wrap32 (output.layout_x + (claimed_before output panel.stack_array i : Int) *
      Int.tdiv output.width output.stack_array.length + gaps) ∧
    v.y = wrap32 (output.layout_y +
      (views_on ((panel_update gaps panel output).views.take idx) (i : Int) : Int) *
        Int.tdiv output.height (views_on (panel_update gaps panel output).views (i : Int)) +
      gaps) ∧
    v.width = wrap32 (Int.tdiv output.width output.stack_array.length - 2 * gaps) ∧
    v.height = wrap32
      (Int.tdiv output.height (views_on (panel_update gaps panel output).views (i : Int)) -
        2 * gaps) := by
  obtain ⟨_, e2⟩ := panel_update_eq gaps panel output
  obtain ⟨b1, _, b3, b4, _, _⟩ := panel_update_balanced_spec panel output
  obtain ⟨_, _, f3⟩ := layout_views_frame gaps output (panel_update_balanced panel output).2
    (panel_update_balanced panel output).1
  rw [e2] at hidx ⊢
  obtain ⟨hlenF, hget⟩ := List.getElem?_eq_some_iff.mp hidx
  have hlen : (layout_views gaps output (panel_update_balanced panel output).1
      (panel_update_balanced panel output).2).2.length =
      (panel_update_balanced panel output).2.length := by
    have := congrArg List.length f3
    simpa using this
  have hlenB : idx < (panel_update_balanced panel output).2.length := by
    rw [← hlen]
    exact hlenF
  obtain ⟨pre, post, hsplit, hpre⟩ := split_at_index (panel_update_balanced panel output).2 idx
    ((panel_update_balanced panel output).2[idx]) (List.getElem?_eq_getElem hlenB)
  have hv0 : ((panel_update_balanced panel output).2[idx]).stack_index = (i : Int) := by
    have h1 := congrArg (fun l => l[idx]?) f3
    simp only [List.getElem?_map, hidx, List.getElem?_eq_getElem hlenB, Option.map_some'] at h1
    rw [← hvi]
    exact (Option.some.inj h1).symm
  have hiB : i < (panel_update_balanced panel output).1.length :=
    lt_length_of_mapped _ _ (by rw [b1]; exact hm)
  have hnat : ∀ u ∈ pre, ∃ k : Nat, u.stack_index = (k : Int) := by
    intro u hu
    have hu2 : u ∈ (panel_update_balanced panel output).2 := by
      rw [hsplit]
      simp [hu]
    obtain ⟨k, hk, _⟩ := b3 u hu2
    exact ⟨k, hk⟩
  have L := layout_views_place gaps output _ post i hv0 hc pre
    (panel_update_balanced panel output).1 hiB hnat
  rw [← hsplit, hpre, hidx] at L
  have hvp := Option.some.inj L
  have hgeo : stack_geometry (stack_at (panel_update_balanced panel output).1 i) =
      (Int.tdiv output.width output.stack_array.length, output.height,
        output.layout_x + (claimed_before output panel.stack_array i : Int) *
          Int.tdiv output.width output.stack_array.length,
        output.layout_y) := by
    show stack_geometry (stack_at (rebalance_views _ _).1 i) = _
    rw [rebalance_views_geometry, assign_last_geometry,
      geometry_reset_geometry output panel.stack_array 0 output.layout_x 0 i hm
        (by simpa using hc)]
    simp [claimed_before]
  simp only [stack_geometry, Prod.mk.injEq] at hgeo
  obtain ⟨gw, gh, gx, gy⟩ := hgeo
  have hcnt := b4 i hm
  have hon : views_on (panel_update_balanced panel output).2 (i : Int) =
      views_on (layout_views gaps output (panel_update_balanced panel output).1
        (panel_update_balanced panel output).2).2 (i : Int) :=
    (views_on_congr _ _ f3 (i : Int)).symm
  have htake : views_on pre (i : Int) =
      views_on ((layout_views gaps output (panel_update_balanced panel output).1
        (panel_update_balanced panel output).2).2.take idx) (i : Int) := by
    have hp : pre = (panel_update_balanced panel output).2.take idx := by
      rw [hsplit]
      exact (List.take_left' hpre).symm
    rw [hp]
    apply (views_on_congr _ _ _ (i : Int)).symm
    rw [List.map_take, List.map_take, f3]
  have hfs2 : (place_view gaps output
      (advance_y ((views_on pre (i : Int) : Int) *
        Int.tdiv (stack_at (panel_update_balanced panel output).1 i).height
          (stack_at (panel_update_balanced panel output).1 i).item_count)
        (stack_at (panel_update_balanced panel output).1 i))
      ((panel_update_balanced panel output).2[idx])).is_fullscreen = false := by
    rw [← hvp]
    exact hfs
  obtain ⟨px, py, pw, ph⟩ := place_view_not_fullscreen gaps output _ _ hfs2
  rw [← hvp] at px py pw ph
  simp only [advance_y] at px py pw ph
  rw [gx] at px
  rw [gy, gh, hcnt, hon, htake] at py
  rw [gw] at pw
  rw [gh, hcnt, hon] at ph
  exact ⟨px, py, pw, ph⟩

/-- C16. After `panel_update` for an output at layout origin `(ox, oy)` of
size `W`x`H` with `n` stacks, the view at position `idx` of the managed list
that is on the mapped stack `i` of the output and not fullscreen has
`x = ox + j * (W / n) + gap`, `y = oy + k * (H / m) + gap`,
`width = W / n - 2 * gap` and `height = H / m - 2 * gap`, where `j` is the
number of mapped stacks of the output below `i`, `m` the number of views on
stack `i`, `k` the number of views on stack `i` before position `idx`, the
divisions truncate, and the four values are values of an `int32_t`. -/
theorem panel_update_rectangle (gaps : Nat) (panel : gateway_panel) (output : tinywl_output)
    (idx i : Nat) (v : tinywl_view)
    (hidx : (panel_update gaps panel output).views[idx]? = some v)
    (hvi : v.stack_index = (i : Int))
    (hm : (stack_at panel.stack_array i).mapped = true)
    (hc : output_contains_stack output (i : Int) = true)
    (hfs : v.is_fullscreen = false)
    (hx : in_int32 (output.layout_x + (claimed_before output panel.stack_array i : Int) *
      Int.tdiv output.width output.stack_array.length + gaps))
    (hy : in_int32 (output.layout_y +
      (views_on ((panel_update gaps panel output).views.take idx) (i : Int) : Int) *
        Int.tdiv output.height (views_on (panel_update gaps panel output).views (i : Int)) +
      gaps))
    (hw : in_int32 (Int.tdiv output.width output.stack_array.length - 2 * gaps))
    (hh : in_int32
      (Int.tdiv output.height (views_on (panel_update gaps panel output).views (i : Int)) -
        2 * gaps)) :
    v.x = output.layout_x + (claimed_before output panel.stack_array i : Int) *
      Int.tdiv output.width output.stack_array.length + gaps ∧
    v.y = output.layout_y +
      (views_on ((panel_update gaps panel output).views.take idx) (i : Int) : Int) *
        Int.tdiv output.height (views_on (panel_update gaps panel output).views (i : Int)) +
      gaps ∧
    v.width = Int.tdiv output.width output.stack_array.length - 2 * gaps ∧
    v.height =
      Int.tdiv output.height (views_on (panel_update gaps panel output).views (i : Int)) -
        2 * gaps := by
  obtain ⟨px, py, pw, ph⟩ := layout_rectangle_wrapped gaps panel output idx i v hidx hvi hm hc hfs
  rw [wrap32_of_in_int32 _ hx] at px
  rw [wrap32_of_in_int32 _ hy] at py
  rw [wrap32_of_in_int32 _ hw] at pw
  rw [wrap32_of_in_int32 _ hh] at ph
  exact ⟨px, py, pw, ph⟩

theorem panel_update_rectangle_witness :
    ((panel_update 8 (sample_panel ((List.range 5).map xdg_view))
      (sample_output [0, 1, 2, 3])).views.getD 4 (xdg_view 4)).x = 0 + 3 * 480 + 8 ∧
    ((panel_update 8 (sample_panel ((List.range 5).map xdg_view))
      (sample_output [0, 1, 2, 3])).views.getD 4 (xdg_view 4)).y = 0 + 1 * 540 + 8 ∧
    ((panel_update 8 (sample_panel ((List.range 5).map xdg_view))
      (sample_output [0, 1, 2, 3])).views.getD 4 (xdg_view 4)).width = 480 - 2 * 8 ∧
    ((panel_update 8 (sample_panel ((List.range 5).map xdg_view))
      (sample_output [0, 1, 2, 3])).views.getD 4 (xdg_view 4)).height = 540 - 2 * 8 :=
  panel_update_rectangle 8 (sample_panel ((List.range 5).map xdg_view))
    (sample_output [0, 1, 2, 3]) 4 3
    ((panel_update 8 (sample_panel ((List.range 5).map xdg_view))
      (sample_output [0, 1, 2, 3])).views.getD 4 (xdg_view 4))
    (by decide) (by decide) (by decide) (by decide) (by decide)
    (by decide) (by decide) (by decide) (by decide)

/-! ## The modifier test of the close binding -/

/-- The close binding tests `(modifiers && WLR_MODIFIER_SHIFT) == 1` with the
logical `&&`: with passthrough disabled, key 53 with any nonzero modifier mask
does what it does with the Shift mask, and with the empty mask it returns
`false` and leaves the state as it is. -/
theorem close_binding_any_modifier (s : tinywl_server) (modifiers : Nat)
    (hp : s.passthrough_enabled = false) :
    (modifiers ≠ 0 →
      handle_keybinding s 53 modifiers = handle_keybinding s 53 WLR_MODIFIER_SHIFT) ∧
    (modifiers = 0 → handle_keybinding s 53 modifiers = some (false, s)) := by
  constructor
  · intro hm
    unfold handle_keybinding
    simp [hp, hm, WLR_MODIFIER_SHIFT]
  · intro hm
    unfold handle_keybinding
    simp [hp, hm]

/-- C30. Key 53 with the Logo modifier alone, a mask without the Shift bit:
from the state with views 1 and 2, view 1 focused and passthrough disabled,
`handle_keybinding` returns `true` and the panel's focused view is view 2, so
the close-focused-and-advance command has run. -/
theorem close_binding_runs_without_shift :
    WLR_MODIFIER_LOGO &&& WLR_MODIFIER_SHIFT = 0 ∧
    two_views_server.passthrough_enabled = false ∧
    two_views_server.focused_panel.focused_view = some 1 ∧
    (handle_keybinding two_views_server 53 WLR_MODIFIER_LOGO).map
        (fun r => (r.1, r.2.focused_panel.focused_view)) = some (true, some 2) ∧
    handle_keybinding two_views_server 53 WLR_MODIFIER_LOGO ≠ some (false, two_views_server) := by
  decide

/-! ## Output registrations -/

/-- The outputs, the counter `start` and the main output after a sequence of
registrations. -/
theorem register_outputs_spec : ∀ (os : List tinywl_output) (s : tinywl_server),
    (register_outputs s os).focused_panel.outputs.reverse.map (fun o => o.stack_array) =
      s.focused_panel.outputs.reverse.map (fun o => o.stack_array) ++
        (List.range os.length).map
          (fun (k : Nat) => [s.output_start + 2 * (k : Int), s.output_start + 2 * (k : Int) + 1]) ∧
    (register_outputs s os).output_start = s.output_start + 2 * (os.length : Int) ∧
    (register_outputs s os).focused_panel.main_output =
      (match s.focused_panel.main_output with
        | some m => some m
        | none => os.head?.map (fun o => o.id)) ∧
    (register_outputs s os).focused_panel.stack_array.length =
      s.focused_panel.stack_array.length
  | [], s => by
    refine ⟨by simp [register_outputs], by simp [register_outputs], ?_, rfl⟩
    cases h : s.focused_panel.main_output <;> simp [register_outputs, h]
  | o :: os, s => by
    obtain ⟨i1, i2, i3, i4⟩ := register_outputs_spec os (server_new_output s o)
    have e : register_outputs s (o :: os) = register_outputs (server_new_output s o) os := rfl
    rw [e]
    refine ⟨?_, ?_, ?_, ?_⟩
    · rw [i1]
      have h1 : (server_new_output s o).focused_panel.outputs.reverse.map
          (fun o => o.stack_array) =
          s.focused_panel.outputs.reverse.map (fun o => o.stack_array) ++
            [[s.output_start, s.output_start + 1]] := by
        simp [server_new_output]
      have h2 : (server_new_output s o).output_start = s.output_start + 2 := rfl
      rw [h1, h2, List.length_cons, List.range_succ_eq_map, List.map_cons, List.map_map,
        List.append_assoc]
      congr 1
      simp only [List.singleton_append, Nat.cast_zero, mul_zero, add_zero]
      congr 1
      apply List.map_congr_left
      intro k _
      simp only [Function.comp, Nat.cast_succ]
      ring_nf
    · rw [i2]
      have h2 : (server_new_output s o).output_start = s.output_start + 2 := rfl
      rw [h2, List.length_cons]
      push_cast
      ring
    · rw [i3]
      cases h : s.focused_panel.main_output <;> simp [server_new_output, h]
    · rw [i4]
      simp only [server_new_output, List.foldl_cons, List.foldl_nil]
      rw [stack_update_length, stack_update_length]

/-- C22. From a state without outputs whose counter `start` is 0, after any
sequence of registrations the output registered in place `k` (from 0) claims
exactly the stack indices `2k` and `2k + 1`, no stack index is claimed by two
different outputs, the panel's main output is the first output registered, and
further registrations leave the main output as it is. -/
theorem server_new_output_claims (s : tinywl_server) (os : List tinywl_output)
    (h0 : s.focused_panel.outputs = []) (h1 : s.output_start = 0)
    (h2 : s.focused_panel.main_output = none) :
    (register_outputs s os).focused_panel.outputs.length = os.length ∧
    (∀ (k : Nat) (o : tinywl_output),
      (register_outputs s os).focused_panel.outputs.reverse[k]? = some o →
      o.stack_array = [2 * (k : Int), 2 * (k : Int) + 1]) ∧
    (∀ (k1 k2 : Nat) (o1 o2 : tinywl_output) (t : Int), k1 ≠ k2 →
      (register_outputs s os).focused_panel.outputs.reverse[k1]? = some o1 →
      (register_outputs s os).focused_panel.outputs.reverse[k2]? = some o2 →
      ¬ (output_contains_stack o1 t = true ∧ output_contains_stack o2 t = true)) ∧
    (register_outputs s os).focused_panel.main_output = os.head?.map (fun o => o.id) ∧
    (∀ more : List tinywl_output, os ≠ [] →
      (register_outputs s (os ++ more)).focused_panel.main_output =
        (register_outputs s os).focused_panel.main_output) := by
  obtain ⟨r1, _, r3, _⟩ := register_outputs_spec os s
  rw [h0, h1] at r1
  simp only [List.reverse_nil, List.map_nil, List.nil_append, zero_add] at r1
  have hlen : (register_outputs s os).focused_panel.outputs.length = os.length := by
    have := congrArg List.length r1
    simpa using this
  have hk : ∀ (k : Nat) (o : tinywl_output),
      (register_outputs s os).focused_panel.outputs.reverse[k]? = some o →
      o.stack_array = [2 * (k : Int), 2 * (k : Int) + 1] := by
    intro k o ho
    have h3 := congrArg (fun l => l[k]?) r1
    simp only [List.getElem?_map, ho, Option.map_some'] at h3
    have hkl : k < os.length := by
      have := (List.getElem?_eq_some_iff.mp ho).1
      rw [List.length_reverse, hlen] at this
      exact this
    rw [List.getElem?_range hkl] at h3
    simp only [Option.map_some'] at h3
    exact Option.some.inj h3
  refine ⟨hlen, hk, ?_, ?_, ?_⟩
  · intro k1 k2 o1 o2 t hne ho1 ho2 hc
    have e1 := hk k1 o1 ho1
    have e2 := hk k2 o2 ho2
    obtain ⟨c1, c2⟩ := hc
    unfold output_contains_stack at c1 c2
    rw [e1] at c1
    rw [e2] at c2
    simp only [List.any_cons, List.any_nil, Bool.or_false, Bool.or_eq_true,
      decide_eq_true_eq] at c1 c2
    omega
  · rw [r3, h2]
  · intro more hos
    have e : register_outputs s (os ++ more) =
        register_outputs (register_outputs s os) more := by
      unfold register_outputs
      rw [List.foldl_append]
    rw [e, (register_outputs_spec more (register_outputs s os)).2.2.1, r3, h2]
    cases os with
    | nil => exact absurd rfl hos
    | cons o rest => rfl

theorem server_new_output_claims_witness :
    three_outputs_server.focused_panel.outputs.length = 3 ∧
    three_outputs_server.focused_panel.main_output = some 0 :=
  ⟨(server_new_output_claims initial_server
      [sample_output [], { sample_output [] with id := 1 }, { sample_output [] with id := 2 }]
      rfl rfl rfl).1,
    (server_new_output_claims initial_server
      [sample_output [], { sample_output [] with id := 1 }, { sample_output [] with id := 2 }]
      rfl rfl rfl).2.2.2.1⟩

/-- C29. After three registrations from the startup state the third output
claims the stack indices 4 and 5, the panel's stack array has the 4 entries
`main` allocates, and so the two indices are not smaller than `stack_count`:
`stacks[4].mapped` and `stacks[5].mapped` are written past the array. -/
theorem third_output_claims_past_array :
    three_outputs_server.focused_panel.outputs.reverse.map (fun o => o.stack_array) =
      [[0, 1], [2, 3], [4, 5]] ∧
    initial_server.focused_panel.stack_array.length = 4 ∧
    three_outputs_server.focused_panel.stack_array.length = 4 ∧
    (∃ o ∈ three_outputs_server.focused_panel.outputs, ∃ t ∈ o.stack_array,
      (three_outputs_server.focused_panel.stack_array.length : Int) ≤ t) := by
  refine ⟨by decide, by decide, by decide, ?_⟩
  exact ⟨{ sample_output [4, 5] with id := 2 }, by decide, 4, by decide, by decide⟩

/-! ## The direction of the rebalancing scan -/

theorem rebalance_while_moves_highest : ∀ (fuel : Nat) (sts : List gateway_panel_stack)
    (idx : Nat), ∀ m ∈ rebalance_while_moves fuel sts idx, highest_target m
  | 0, _, _, m, hm => by simp [rebalance_while_moves] at hm
  | fuel + 1, sts, idx, m, hm => by
    cases hscan : scan_target sts idx idx with
    | none => simp [rebalance_while_moves, hscan] at hm
    | some d =>
      simp only [rebalance_while_moves, hscan, List.mem_cons] at hm
      obtain ⟨hd1, hd2, hd3⟩ := scan_target_some sts idx idx d hscan
      rcases hm with hm | hm
      · subst hm
        exact ⟨hd1, hd2, fun i h1 h2 => hd3 i h2 h1⟩
      · exact rebalance_while_moves_highest fuel _ d m hm

theorem rebalance_views_moves_highest : ∀ (vs : List tinywl_view)
    (sts : List gateway_panel_stack), ∀ m ∈ rebalance_views_moves sts vs, highest_target m
  | [], _, m, hm => by simp [rebalance_views_moves] at hm
  | v :: vs, sts, m, hm => by
    simp only [rebalance_views_moves, List.mem_append] at hm
    rcases hm with hm | hm
    · unfold rebalance_view_moves at hm
      by_cases h : v.stack_index < 0
      · simp [h] at hm
      · simp only [h, if_false] at hm
        exact rebalance_while_moves_highest _ _ _ m hm
    · exact rebalance_views_moves_highest vs _ m hm

/-- C24, as the code has it. In every step of the rebalancing pass of
`panel_update` the stack the view moves to is below the view's stack, passes
the migration test, and is the highest-indexed stack below the view's stack
that passes it: the scan goes down from `stack_index - 1` to 0 and stops at the
first stack that passes. -/
theorem panel_update_moves_highest (panel : gateway_panel) (output : tinywl_output)
    (m : migration) (hm : m ∈ panel_update_moves panel output) : highest_target m :=
  rebalance_views_moves_highest _ _ m hm

theorem panel_update_moves_highest_witness :
    sample_migration ∈ panel_update_moves (sample_panel ((List.range 5).map xdg_view))
        (sample_output [0, 1, 2, 3]) ∧
    highest_target sample_migration :=
  ⟨by decide, panel_update_moves_highest (sample_panel ((List.range 5).map xdg_view))
    (sample_output [0, 1, 2, 3]) sample_migration (by decide)⟩

/-- C24, counterexample. The first migration of the pass over 5 views on the
stack array of `main` goes from stack 3 to stack 2 while stacks 0 and 1, both
empty, pass the migration test as well: the target is not the lowest-indexed
stack that passes. -/
theorem first_migration_not_lowest :
    (panel_update_moves (sample_panel ((List.range 5).map xdg_view))
      (sample_output [0, 1, 2, 3])).head? = some sample_migration ∧
    sample_migration.src = 3 ∧ sample_migration.dst = 2 ∧
    qualifies sample_migration.before 0 sample_migration.src = true ∧
    qualifies sample_migration.before 1 sample_migration.src = true ∧
    ¬ lowest_target sample_migration := by
  decide

/-! ## Termination of the rebalancing loop -/

/-- One more iteration than the view's stack index changes nothing. -/
theorem rebalance_while_succ : ∀ (fuel : Nat) (sts : List gateway_panel_stack) (idx : Nat),
    idx ≤ fuel →
    rebalance_while (fuel + 1) sts idx = rebalance_while fuel sts idx ∧
    rebalance_while_moves (fuel + 1) sts idx = rebalance_while_moves fuel sts idx
  | 0, sts, idx, h => by
    have h0 : idx = 0 := by omega
    subst h0
    exact ⟨rfl, rfl⟩
  | fuel + 1, sts, idx, h => by
    cases hscan : scan_target sts idx idx with
    | none =>
      constructor
      · rw [rebalance_while, rebalance_while]
        simp only [hscan]
      · rw [rebalance_while_moves, rebalance_while_moves]
        simp only [hscan]
    | some d =>
      have hd := (scan_target_some sts idx idx d hscan).1
      obtain ⟨i1, i2⟩ := rebalance_while_succ fuel (move_view sts idx d) d (by omega)
      constructor
      · rw [rebalance_while, rebalance_while]
        simp only [hscan]
        exact i1
      · rw [rebalance_while_moves, rebalance_while_moves]
        simp only [hscan]
        rw [i2]

/-- With at least as many iterations allowed as the view's stack index the
loop gives what it gives with exactly that many. -/
theorem rebalance_while_stable (sts : List gateway_panel_stack) (idx : Nat) :
    ∀ (d : Nat),
    rebalance_while (idx + d) sts idx = rebalance_while idx sts idx ∧
    rebalance_while_moves (idx + d) sts idx = rebalance_while_moves idx sts idx
  | 0 => ⟨rfl, rfl⟩
  | d + 1 => by
    obtain ⟨i1, i2⟩ := rebalance_while_stable sts idx d
    obtain ⟨s1, s2⟩ := rebalance_while_succ (idx + d) sts idx (by omega)
    exact ⟨s1.trans i1, s2.trans i2⟩

/-- The loop ends in a state in which the scan finds no stack, and each of its
iterations that moved the view lowered the view's stack index. -/
theorem rebalance_while_exit : ∀ (fuel : Nat) (sts : List gateway_panel_stack) (idx : Nat),
    idx ≤ fuel →
    scan_target (rebalance_while fuel sts idx).1 (rebalance_while fuel sts idx).2
      (rebalance_while fuel sts idx).2 = none ∧
    (rebalance_while fuel sts idx).2 + (rebalance_while_moves fuel sts idx).length ≤ idx
  | 0, sts, idx, h => by
    have h0 : idx = 0 := by omega
    subst h0
    exact ⟨rfl, Nat.le_refl _⟩
  | fuel + 1, sts, idx, h => by
    cases hscan : scan_target sts idx idx with
    | none =>
      rw [rebalance_while, rebalance_while_moves]
      simp [hscan]
    | some d =>
      have hd := (scan_target_some sts idx idx d hscan).1
      obtain ⟨i1, i2⟩ := rebalance_while_exit fuel (move_view sts idx d) d (by omega)
      rw [rebalance_while, rebalance_while_moves]
      simp only [hscan, List.length_cons]
      exact ⟨i1, by omega⟩

/-- C25. For every stack array and every stack index `idx` of a view, the
`while` loop of the rebalancing pass ends: run with any bound `fuel ≥ idx` on
its iterations it gives the result it gives with the bound `idx`, it ends in a
state in which the scan finds no stack to move to, every iteration that moved
the view lowered the view's stack index, and the view is moved at most `idx`
times. -/
theorem rebalance_while_terminates (sts : List gateway_panel_stack) (idx fuel : Nat)
    (h : idx ≤ fuel) :
    rebalance_while fuel sts idx = rebalance_while idx sts idx ∧
    rebalance_while_moves fuel sts idx = rebalance_while_moves idx sts idx ∧
    scan_target (rebalance_while idx sts idx).1 (rebalance_while idx sts idx).2
      (rebalance_while idx sts idx).2 = none ∧
    (∀ m ∈ rebalance_while_moves idx sts idx, m.dst < m.src) ∧
    (rebalance_while_moves idx sts idx).length ≤ idx ∧
    (rebalance_while idx sts idx).2 + (rebalance_while_moves idx sts idx).length ≤ idx := by
  obtain ⟨d, hd⟩ := Nat.exists_eq_add_of_le h
  obtain ⟨s1, s2⟩ := rebalance_while_stable sts idx d
  obtain ⟨e1, e2⟩ := rebalance_while_exit idx sts idx (Nat.le_refl _)
  rw [hd]
  exact ⟨s1, s2, e1, fun m hm => (rebalance_while_moves_highest idx sts idx m hm).1,
    by omega, e2⟩

theorem rebalance_while_terminates_witness :
    rebalance_while 10 sample_migration.before 3 = rebalance_while 3 sample_migration.before 3 ∧
    (rebalance_while_moves 3 sample_migration.before 3).length ≤ 3 :=
  ⟨(rebalance_while_terminates sample_migration.before 3 10 (by decide)).1,
    (rebalance_while_terminates sample_migration.before 3 10 (by decide)).2.2.2.2.1⟩

/-! ## Independence of the assignment from the output -/

theorem assign_last_congr (L : Nat) : ∀ (vs : List tinywl_view)
    (a b : List gateway_panel_stack), same_load a b → a.length = b.length →
    same_load (assign_last L a vs).1 (assign_last L b vs).1 ∧
    (assign_last L a vs).1.length = (assign_last L b vs).1.length ∧
    (assign_last L a vs).2 = (assign_last L b vs).2
  | [], _, _, h, hl => ⟨h, hl, rfl⟩
  | v :: vs, a, b, h, hl => by
    have h1 : same_load (stack_update incr_count a L) (stack_update incr_count b L) :=
      stack_update_congr incr_count (fun s t e1 e2 e3 => ⟨e1, e2, by
        show s.item_count + 1 = t.item_count + 1
        rw [e3]⟩) h hl L
    have hl1 : (stack_update incr_count a L).length = (stack_update incr_count b L).length := by
      rw [stack_update_length, stack_update_length, hl]
    obtain ⟨i1, i2, i3⟩ := assign_last_congr L vs _ _ h1 hl1
    refine ⟨i1, i2, ?_⟩
    show _ :: (assign_last L (stack_update incr_count a L) vs).2 =
      _ :: (assign_last L (stack_update incr_count b L) vs).2
    rw [i3]

/-- The second loop of `panel_update` leaves the same `mapped`, `max_items`
and `item_count` and the same `last_stack` for any two outputs. -/
theorem geometry_reset_output_congr (A B : tinywl_output) (sts : List gateway_panel_stack)
    (i : Nat) (xa xb : Int) (last : Nat) :
    same_load (geometry_reset A i xa last sts).1 (geometry_reset B i xb last sts).1 ∧
    (geometry_reset A i xa last sts).1.length = (geometry_reset B i xb last sts).1.length ∧
    (geometry_reset A i xa last sts).2 = (geometry_reset B i xb last sts).2 := by
  obtain ⟨a1, a2, a3, a4, a5⟩ := geometry_reset_spec A sts i xa last
  obtain ⟨b1, b2, b3, b4, b5⟩ := geometry_reset_spec B sts i xb last
  refine ⟨fun j => ⟨by rw [a2, b2], by rw [a3, b3], by rw [a4, b4]⟩, by rw [a1, b1], ?_⟩
  rcases a5 with ⟨ha, hun⟩ | ⟨ha1, ha2, ha3⟩
  · rcases b5 with ⟨hb, _⟩ | ⟨_, hb2, _⟩
    · rw [ha, hb]
    · rw [hun] at hb2
      cases hb2
  · rcases b5 with ⟨_, hun⟩ | ⟨hb1, hb2, hb3⟩
    · rw [hun] at ha2
      cases ha2
    · have h1 := ha3 _ hb2
      have h2 := hb3 _ ha2
      omega

theorem map_pair_of_maps (f : tinywl_view → Nat) (g : tinywl_view → Int) :
    ∀ (l1 l2 : List tinywl_view), l1.map f = l2.map f → l1.map g = l2.map g →
    l1.map (fun v => (f v, g v)) = l2.map (fun v => (f v, g v))
  | [], [], _, _ => rfl
  | [], _ :: _, h, _ => by simp at h
  | _ :: _, [], h, _ => by simp at h
  | a :: l1, b :: l2, h1, h2 => by
    simp only [List.map_cons, List.cons.injEq] at h1 h2 ⊢
    exact ⟨by rw [h1.1, h2.1], map_pair_of_maps f g l1 l2 h1.2 h2.2⟩

/-- C28. For every panel state, gap and two outputs `A` and `B`,
`panel_update(panel, A)` and `panel_update(panel, B)` leave the same views in
the managed list, in the same order and each with the same `stack_index`, and
the same `item_count` in every stack. -/
theorem panel_update_output_independent (gaps : Nat) (panel : gateway_panel)
    (A B : tinywl_output) :
    (panel_update gaps panel A).views.map (fun v => (v.id, v.stack_index)) =
      (panel_update gaps panel B).views.map (fun v => (v.id, v.stack_index)) ∧
    item_counts (panel_update gaps panel A).stack_array =
      item_counts (panel_update gaps panel B).stack_array := by
  obtain ⟨g1, g2, g3⟩ := geometry_reset_output_congr A B panel.stack_array 0
    A.layout_x B.layout_x 0
  obtain ⟨s1, s2, s3⟩ := assign_last_congr (geometry_reset A 0 A.layout_x 0 panel.stack_array).2
    (redirect_partition panel.views panel.redirect_views).1 _ _ g1 g2
  have hB : panel_update_balanced panel B =
      rebalance_views
        (assign_last (geometry_reset A 0 A.layout_x 0 panel.stack_array).2
          (geometry_reset B 0 B.layout_x 0 panel.stack_array).1
          (redirect_partition panel.views panel.redirect_views).1).1
        (assign_last (geometry_reset A 0 A.layout_x 0 panel.stack_array).2
          (geometry_reset B 0 B.layout_x 0 panel.stack_array).1
          (redirect_partition panel.views panel.redirect_views).1).2 := by
    rw [g3]
    rfl
  have hA : panel_update_balanced panel A =
      rebalance_views
        (assign_last (geometry_reset A 0 A.layout_x 0 panel.stack_array).2
          (geometry_reset A 0 A.layout_x 0 panel.stack_array).1
          (redirect_partition panel.views panel.redirect_views).1).1
        (assign_last (geometry_reset A 0 A.layout_x 0 panel.stack_array).2
          (geometry_reset A 0 A.layout_x 0 panel.stack_array).1
          (redirect_partition panel.views panel.redirect_views).1).2 := rfl
  obtain ⟨r1, r2, r3⟩ := rebalance_views_congr _ _ _ _ s1 s2
    (congrArg (List.map (fun v => v.stack_index)) s3)
  rw [← hA, ← hB] at r1 r2 r3
  obtain ⟨fa1, fa2, fa3⟩ := layout_views_frame gaps A (panel_update_balanced panel A).2
    (panel_update_balanced panel A).1
  obtain ⟨fb1, fb2, fb3⟩ := layout_views_frame gaps B (panel_update_balanced panel B).2
    (panel_update_balanced panel B).1
  obtain ⟨ea1, ea2⟩ := panel_update_eq gaps panel A
  obtain ⟨eb1, eb2⟩ := panel_update_eq gaps panel B
  constructor
  · apply map_pair_of_maps
    · have ta := panel_update_views_tags gaps panel A
      have tb := panel_update_views_tags gaps panel B
      have ia := ids_of_tags _ _ (ta.trans tb.symm)
      exact ia
    · rw [ea2, eb2, fa3, fb3, r3]
  · rw [ea1, eb1]
    refine item_counts_of_same_load _ _ (fun j => ?_) (by rw [fa1, fb1, r2])
    exact ⟨(fa2 j).1.trans ((r1 j).1.trans (fb2 j).1.symm),
      (fa2 j).2.1.trans ((r1 j).2.1.trans (fb2 j).2.1.symm),
      (fa2 j).2.2.trans ((r1 j).2.2.trans (fb2 j).2.2.symm)⟩

/-! ## Size requests -/

/-- The two tests keep the value within the hints. -/
theorem hint_clamp_within (min max w : Int) : within_hints min max w (hint_clamp min max w) := by
  unfold within_hints hint_clamp
  refine ⟨?_, ?_, ?_⟩
  · intro h
    simp only
    split_ifs <;> omega
  · intro h
    simp only
    split_ifs <;> omega
  · intro h1 h2 h3
    simp only
    split_ifs <;> omega

/-- With hints and a tile value between 0 and `2^31 - 1` the tests give the
same value whether the hints are compared as `int32_t` or as `uint32_t`. -/
theorem toplevel_clamp_eq (min max w : Int) (hmin : 0 ≤ min ∧ min < 2147483648)
    (hmax : 0 ≤ max ∧ max < 2147483648) (hw : 0 ≤ w ∧ w < 2147483648) :
    toplevel_clamp min max w = hint_clamp min max w := by
  have c1 : to_uint32 w = w := by
    unfold to_uint32
    omega
  have c2 : to_uint32 min = min := by
    unfold to_uint32
    omega
  have c3 : wrap32 min = min := by
    unfold wrap32
    omega
  have c4 : wrap32 max = max := by
    unfold wrap32
    omega
  unfold toplevel_clamp hint_clamp
  simp only [c1, c3, c4]
  by_cases h : min > w
  · simp only [h, if_true, c2]
  · simp only [h, if_false, c1]

/-- The two tests on `uint32_t` limits keep the value the callee receives
within the limits. -/
theorem toplevel_clamp_within (min max w : Int) (hmin : 0 ≤ min ∧ min < 4294967296)
    (hmax : 0 ≤ max ∧ max < 4294967296) :
    within_hints min max w (to_uint32 (toplevel_clamp min max w)) := by
  unfold within_hints toplevel_clamp to_uint32 wrap32
  refine ⟨?_, ?_, ?_⟩
  · intro h
    simp only
    split_ifs <;> omega
  · intro h
    simp only
    split_ifs <;> omega
  · intro h1 h2 h3
    simp only
    split_ifs <;> omega

/-- For a tile value that is not negative, with limits below `2^31`, a shell
surface is asked for the value a foreign window with the same hints is asked
for. -/
theorem toplevel_request_eq (min max w : Int) (hmin : 0 ≤ min ∧ min < 2147483648)
    (hmax : 0 ≤ max ∧ max < 2147483648) (hw : 0 ≤ w ∧ w < 2147483648) :
    to_uint32 (toplevel_clamp min max w) = hint_clamp min max w := by
  rw [toplevel_clamp_eq min max w hmin hmax hw]
  unfold hint_clamp to_uint32
  simp only
  split_ifs <;> omega

/-- For a negative tile value, with limits below `2^31`, a shell surface is
asked for the max limit when that is positive, and else for the tile value
plus `2^32`; a foreign window with the same hints is asked for the min hint, or
for the max hint when that is positive and smaller. -/
theorem toplevel_request_negative_tile (min max w : Int)
    (hmin : 0 ≤ min ∧ min < 2147483648) (hmax : 0 ≤ max ∧ max < 2147483648)
    (hw : -2147483648 ≤ w ∧ w < 0) :
    to_uint32 (toplevel_clamp min max w) = (if 0 < max then max else w + 4294967296) ∧
    hint_clamp min max w = (if 0 < max ∧ max < min then max else min) := by
  unfold toplevel_clamp hint_clamp to_uint32 wrap32
  simp only
  constructor
  · split_ifs <;> omega
  · split_ifs <;> omega

/-- A request for a foreign window fits the `uint16_t` parameters of
`wlr_xwayland_surface_configure` when the min hint is not negative and the min
hint and the tile value are below 65536. -/
theorem hint_clamp_fits (min max w : Int) (hmin : 0 ≤ min ∧ min < 65536) (hw : w < 65536) :
    0 ≤ hint_clamp min max w ∧ hint_clamp min max w < 65536 := by
  unfold hint_clamp
  simp only
  split_ifs <;> omega

set_option maxRecDepth 1000000 in
/-- With 72 shell views on the four stacks of one output of 1920x1080 and a
gap of 8, stack 3 holds 68 views: the tile height is 1080 / 68 - 16 = -1, and
a view without limits is asked for the height `2^32 - 1`. -/
theorem crowded_stack_request :
    ((panel_update_requests 8 (sample_panel ((List.range 72).map xdg_view))
      (sample_output [0, 1, 2, 3])).getLast?).map
      (fun r => (r.1.stack_index, r.1.width, r.1.height, r.2)) =
      some (3, 464, -1, 464, 4294967295) := by
  decide

theorem views_on_pos (vs : List tinywl_view) (v : tinywl_view) (s : Int) (hv : v ∈ vs)
    (hs : v.stack_index = s) : 1 ≤ views_on vs s := by
  unfold views_on
  exact List.countP_pos_iff.mpr ⟨v, hv, by simpa using hs⟩

/-- With no stack mapped the views are counted on stack 0, on top of the count
it had. -/
theorem balanced_unmapped_count (panel : gateway_panel) (output : tinywl_output)
    (hun : ∀ j, (stack_at panel.stack_array j).mapped = false)
    (hlen : 0 < panel.stack_array.length) :
    (stack_at (panel_update_balanced panel output).1 0).item_count =
      (stack_at panel.stack_array 0).item_count +
        ((panel_update_balanced panel output).2.length : Int) := by
  obtain ⟨g1, g2, _, g4, g5⟩ :=
    geometry_reset_spec output panel.stack_array 0 output.layout_x 0
  obtain ⟨_, a2, _, _, a5⟩ :=
    assign_last_spec (geometry_reset output 0 output.layout_x 0 panel.stack_array).2
      (redirect_partition panel.views panel.redirect_views).1
      (geometry_reset output 0 output.layout_x 0 panel.stack_array).1
  obtain ⟨_, av2⟩ :=
    assign_last_views (geometry_reset output 0 output.layout_x 0 panel.stack_array).2
      (geometry_reset output 0 output.layout_x 0 panel.stack_array).1
      (redirect_partition panel.views panel.redirect_views).1
  have hB : panel_update_balanced panel output =
      rebalance_views
        (assign_last (geometry_reset output 0 output.layout_x 0 panel.stack_array).2
          (geometry_reset output 0 output.layout_x 0 panel.stack_array).1
          (redirect_partition panel.views panel.redirect_views).1).1
        (assign_last (geometry_reset output 0 output.layout_x 0 panel.stack_array).2
          (geometry_reset output 0 output.layout_x 0 panel.stack_array).1
          (redirect_partition panel.views panel.redirect_views).1).2 := rfl
  have hL : (geometry_reset output 0 output.layout_x 0 panel.stack_array).2 = 0 := by
    rcases g5 with ⟨h0, _⟩ | ⟨_, hLm, _⟩
    · exact h0
    · rw [hun] at hLm
      cases hLm
  have hunA : ∀ j, (stack_at (assign_last
      (geometry_reset output 0 output.layout_x 0 panel.stack_array).2
      (geometry_reset output 0 output.layout_x 0 panel.stack_array).1
      (redirect_partition panel.views panel.redirect_views).1).1 j).mapped = false := by
    intro j
    rw [a2, g2]
    exact hun j
  have hid := rebalance_views_of_settled _ (assign_last
      (geometry_reset output 0 output.layout_x 0 panel.stack_array).2
      (geometry_reset output 0 output.layout_x 0 panel.stack_array).1
      (redirect_partition panel.views panel.redirect_views).1).2
    (fun v _ k _ i _ => qualifies_of_unmapped _ hunA i k)
  rw [hB, hid]
  have hLR : (geometry_reset output 0 output.layout_x 0 panel.stack_array).2 <
      (geometry_reset output 0 output.layout_x 0 panel.stack_array).1.length := by
    rw [g1, hL]
    exact hlen
  have h5 := a5 hLR 0
  rw [h5, g4 0, hun 0, av2]
  simp [hL]

/-- C26. In `panel_update` neither division divides by zero, for every
output and every panel that has a stack array and no negative `item_count` on
an unmapped stack: a stack's width is computed only for a stack the output
claims, and then the output's `stack_count` is at least 1; and when the
heights are computed the `item_count` of the stack of every managed view is at
least 1, and it still is when `panel_update` returns. -/
theorem panel_update_divisors (gaps : Nat) (panel : gateway_panel) (output : tinywl_output)
    (hne : panel.stack_array ≠ [])
    (hcount : ∀ s ∈ panel.stack_array, s.mapped = false → 0 ≤ s.item_count) :
    (∀ t : Int, output_contains_stack output t = true → 1 ≤ output.stack_array.length) ∧
    (∀ v ∈ (panel_update_balanced panel output).2,
      1 ≤ (stack_at (panel_update_balanced panel output).1 v.stack_index.toNat).item_count) ∧
    (∀ v ∈ (panel_update gaps panel output).views,
      1 ≤ (stack_at (panel_update gaps panel output).stack_array
        v.stack_index.toNat).item_count) := by
  obtain ⟨_, _, _, b4, b5, b6⟩ := panel_update_balanced_spec panel output
  have hbal : ∀ v ∈ (panel_update_balanced panel output).2,
      1 ≤ (stack_at (panel_update_balanced panel output).1 v.stack_index.toNat).item_count := by
    intro v hv
    by_cases hex : ∃ j, (stack_at panel.stack_array j).mapped = true
    · obtain ⟨k, hk1, hk2⟩ := b5 hex v hv
      have hp := views_on_pos _ v (k : Int) hv hk1
      rw [hk1, Int.toNat_ofNat, b4 k hk2]
      exact_mod_cast hp
    · have hun : ∀ j, (stack_at panel.stack_array j).mapped = false := by
        intro j
        by_contra hj
        exact hex ⟨j, by simpa using hj⟩
      have hlen : 0 < panel.stack_array.length := List.length_pos.mpr hne
      rw [b6 hun v hv]
      have h1 := balanced_unmapped_count panel output hun hlen
      have hmem : stack_at panel.stack_array 0 ∈ panel.stack_array := by
        cases hsa : panel.stack_array with
        | nil => exact absurd hsa hne
        | cons s rest =>
          rw [stack_at_cons_zero]
          exact List.mem_cons_self _ _
      have h2 := hcount _ hmem (hun 0)
      have h3 : 1 ≤ (panel_update_balanced panel output).2.length :=
        List.length_pos.mpr (List.ne_nil_of_mem hv)
      show 1 ≤ (stack_at (panel_update_balanced panel output).1 0).item_count
      rw [h1]
      omega
  refine ⟨?_, hbal, ?_⟩
  · intro t ht
    unfold output_contains_stack at ht
    obtain ⟨x, hx, _⟩ := List.any_eq_true.mp ht
    exact List.length_pos.mpr (List.ne_nil_of_mem hx)
  · intro v hv
    obtain ⟨e1, e2⟩ := panel_update_eq gaps panel output
    obtain ⟨_, f2, f3⟩ := layout_views_frame gaps output (panel_update_balanced panel output).2
      (panel_update_balanced panel output).1
    rw [e2] at hv
    obtain ⟨w, hw1, hw2⟩ := mem_of_map_stack_index _ _ f3 v hv
    rw [e1, (f2 _).2.2, ← hw2]
    exact hbal w hw1

theorem panel_update_divisors_witness :
    (sample_panel ((List.range 5).map xdg_view)).stack_array ≠ [] ∧
    (∀ v ∈ (panel_update 8 (sample_panel ((List.range 5).map xdg_view))
        (sample_output [0, 1, 2, 3])).views,
      1 ≤ (stack_at (panel_update 8 (sample_panel ((List.range 5).map xdg_view))
        (sample_output [0, 1, 2, 3])).stack_array v.stack_index.toNat).item_count) :=
  ⟨by decide, (panel_update_divisors 8 (sample_panel ((List.range 5).map xdg_view))
    (sample_output [0, 1, 2, 3]) (by decide) (by decide)).2.2⟩

/-! ## Disjoint rectangles -/

theorem tdiv_facts (W : Int) (n : Nat) (hW : 0 ≤ W) (hn : 1 ≤ n) :
    0 ≤ Int.tdiv W n ∧ Int.tdiv W n * n ≤ W := by
  have hn0 : (0 : Int) ≤ (n : Int) := by positivity
  have hn1 : (n : Int) ≠ 0 := by
    have : (1 : Int) ≤ (n : Int) := by exact_mod_cast hn
    omega
  rw [Int.tdiv_eq_ediv hW hn0]
  exact ⟨Int.ediv_nonneg hW hn0, Int.ediv_mul_le _ hn1⟩

/-- A mapped stack of the output has more mapped stacks of the output below a
higher index. -/
theorem claimed_before_lt (output : tinywl_output) (sts : List gateway_panel_stack)
    (i1 i2 : Nat) (h : i1 < i2) (hm : (stack_at sts i1).mapped = true)
    (hc : output_contains_stack output (i1 : Int) = true) :
    claimed_before output sts i1 < claimed_before output sts i2 := by
  unfold claimed_before
  have h1 : (List.range (i1 + 1)).countP (fun t => (stack_at sts t).mapped &&
      output_contains_stack output (t : Int)) =
      (List.range i1).countP (fun t => (stack_at sts t).mapped &&
        output_contains_stack output (t : Int)) + 1 := by
    rw [List.range_succ, List.countP_append]
    simp [hm, hc]
  have h2 := List.Sublist.countP_le (fun t => (stack_at sts t).mapped &&
      output_contains_stack output (t : Int))
    (List.range_sublist.mpr (show i1 + 1 ≤ i2 by omega))
  omega

/-- The mapped stacks of the output below a mapped stack of the output are
fewer than the output's `stack_count`. -/
theorem claimed_before_lt_length (output : tinywl_output) (sts : List gateway_panel_stack)
    (i : Nat) (hm : (stack_at sts i).mapped = true)
    (hc : output_contains_stack output (i : Int) = true) :
    claimed_before output sts i < output.stack_array.length := by
  have h1 := claimed_before_lt output sts i (i + 1) (Nat.lt_succ_self i) hm hc
  have h2 : claimed_before output sts (i + 1) ≤ output.stack_array.length := by
    unfold claimed_before
    rw [List.countP_eq_length_filter]
    have hnd : (((List.range (i + 1)).filter (fun t => (stack_at sts t).mapped &&
        output_contains_stack output (t : Int))).map (fun t : Nat => (t : Int))).Nodup :=
      List.Nodup.map (fun a b hab => by exact_mod_cast hab)
        (List.Nodup.filter _ (List.nodup_range _))
    have hsub : ((List.range (i + 1)).filter (fun t => (stack_at sts t).mapped &&
        output_contains_stack output (t : Int))).map (fun t : Nat => (t : Int)) ⊆
        output.stack_array := by
      intro z hz
      obtain ⟨t, ht, hzt⟩ := List.mem_map.mp hz
      have h3 := (List.mem_filter.mp ht).2
      simp only [Bool.and_eq_true] at h3
      have h4 := h3.2
      unfold output_contains_stack at h4
      obtain ⟨x, hx, hxe⟩ := List.any_eq_true.mp h4
      have : x = z := by
        rw [← hzt]
        simpa using hxe
      rw [← this]
      exact hx
    have h5 := (List.subperm_of_subset hnd hsub).length_le
    simpa using h5
  omega

/-- An earlier position has fewer views of the same stack before it. -/
theorem views_on_take_lt (vs : List tinywl_view) (idx1 idx2 : Nat) (v : tinywl_view)
    (s : Int) (h1 : vs[idx1]? = some v) (hs : v.stack_index = s) (hlt : idx1 < idx2) :
    views_on (vs.take idx1) s < views_on (vs.take idx2) s ∧
    views_on (vs.take idx1) s < views_on vs s := by
  obtain ⟨hi, he⟩ := List.getElem?_eq_some_iff.mp h1
  have e1 : views_on (vs.take (idx1 + 1)) s = views_on (vs.take idx1) s + 1 := by
    unfold views_on
    rw [List.take_succ, List.countP_append, h1]
    simp [hs]
  have e2 : views_on (vs.take (idx1 + 1)) s ≤ views_on (vs.take idx2) s := by
    unfold views_on
    apply List.Sublist.countP_le
    have : vs.take (idx1 + 1) = (vs.take idx2).take (idx1 + 1) := by
      rw [List.take_take, Nat.min_eq_left (by omega)]
    rw [this]
    exact List.take_sublist _ _
  have e3 : views_on (vs.take idx2) s ≤ views_on vs s := by
    unfold views_on
    exact List.Sublist.countP_le _ (List.take_sublist _ _)
  omega

/-- The rectangle of a view that is not fullscreen, on a mapped stack `i` of
the output, when the output fits: plain formulas, and the column and the row of
the view lie within the output. -/
theorem view_rectangle (gaps : Nat) (panel : gateway_panel) (output : tinywl_output)
    (idx i : Nat) (v : tinywl_view) (hfit : layout_fits gaps output)
    (hidx : (panel_update gaps panel output).views[idx]? = some v)
    (hvi : v.stack_index = (i : Int))
    (hm : (stack_at panel.stack_array i).mapped = true)
    (hc : output_contains_stack output (i : Int) = true)
    (hfs : v.is_fullscreen = false) :
    0 ≤ Int.tdiv output.width output.stack_array.length ∧
    0 ≤ Int.tdiv output.height (views_on (panel_update gaps panel output).views (i : Int)) ∧
    ((claimed_before output panel.stack_array i : Int) + 1) *
      Int.tdiv output.width output.stack_array.length ≤ output.width ∧
    ((views_on ((panel_update gaps panel output).views.take idx) (i : Int) : Int) + 1) *
      Int.tdiv output.height (views_on (panel_update gaps panel output).views (i : Int)) ≤
        output.height ∧
    v.x = output.layout_x + (claimed_before output panel.stack_array i : Int) *
      Int.tdiv output.width output.stack_array.length + gaps ∧
    v.y = output.layout_y +
      (views_on ((panel_update gaps panel output).views.take idx) (i : Int) : Int) *
        Int.tdiv output.height (views_on (panel_update gaps panel output).views (i : Int)) +
      gaps ∧
    v.width = Int.tdiv output.width output.stack_array.length - 2 * gaps ∧
    v.height =
      Int.tdiv output.height (views_on (panel_update gaps panel output).views (i : Int)) -
        2 * gaps := by
  obtain ⟨px, py, pw, ph⟩ := layout_rectangle_wrapped gaps panel output idx i v hidx hvi hm hc hfs
  obtain ⟨fw0, fw1, fh0, fh1, fx0, fx1, fy0, fy1, fg⟩ := hfit
  have hj := claimed_before_lt_length output panel.stack_array i hm hc
  have hk := (views_on_take_lt _ idx (idx + 1) v (i : Int) hidx hvi (Nat.lt_succ_self _)).2
  obtain ⟨w0, w1⟩ := tdiv_facts output.width output.stack_array.length fw0 (by omega)
  obtain ⟨h0, h1⟩ := tdiv_facts output.height
    (views_on (panel_update gaps panel output).views (i : Int)) fh0 (by omega)
  have hjw : ((claimed_before output panel.stack_array i : Int) + 1) *
      Int.tdiv output.width output.stack_array.length ≤ output.width := by
    have hle : ((claimed_before output panel.stack_array i : Int) + 1) ≤
        (output.stack_array.length : Int) := by exact_mod_cast hj
    have := mul_le_mul_of_nonneg_right hle w0
    rw [mul_comm (output.stack_array.length : Int)] at this
    exact le_trans this w1
  have hkh : ((views_on ((panel_update gaps panel output).views.take idx) (i : Int) : Int) + 1) *
      Int.tdiv output.height (views_on (panel_update gaps panel output).views (i : Int)) ≤
        output.height := by
    have hle : ((views_on ((panel_update gaps panel output).views.take idx) (i : Int) : Int) + 1)
        ≤ (views_on (panel_update gaps panel output).views (i : Int) : Int) := by
      exact_mod_cast hk
    have := mul_le_mul_of_nonneg_right hle h0
    rw [mul_comm (views_on (panel_update gaps panel output).views (i : Int) : Int)] at this
    exact le_trans this h1
  have hjw0 : 0 ≤ (claimed_before output panel.stack_array i : Int) *
      Int.tdiv output.width output.stack_array.length :=
    mul_nonneg (by positivity) w0
  have hkh0 : 0 ≤ (views_on ((panel_update gaps panel output).views.take idx) (i : Int) : Int) *
      Int.tdiv output.height (views_on (panel_update gaps panel output).views (i : Int)) :=
    mul_nonneg (by positivity) h0
  have hg0 : (0 : Int) ≤ (gaps : Int) := by positivity
  rw [add_mul, one_mul] at hjw hkh
  have rx : in_int32 (output.layout_x + (claimed_before output panel.stack_array i : Int) *
      Int.tdiv output.width output.stack_array.length + gaps) := by
    unfold in_int32
    constructor <;> omega
  have ry : in_int32 (output.layout_y +
      (views_on ((panel_update gaps panel output).views.take idx) (i : Int) : Int) *
        Int.tdiv output.height (views_on (panel_update gaps panel output).views (i : Int)) +
      gaps) := by
    unfold in_int32
    constructor <;> omega
  have rw2 : in_int32 (Int.tdiv output.width output.stack_array.length - 2 * gaps) := by
    unfold in_int32
    constructor <;> omega
  have rh : in_int32
      (Int.tdiv output.height (views_on (panel_update gaps panel output).views (i : Int)) -
        2 * gaps) := by
    unfold in_int32
    constructor <;> omega
  rw [wrap32_of_in_int32 _ rx] at px
  rw [wrap32_of_in_int32 _ ry] at py
  rw [wrap32_of_in_int32 _ rw2] at pw
  rw [wrap32_of_in_int32 _ rh] at ph
  refine ⟨w0, h0, ?_, ?_, px, py, pw, ph⟩
  · rw [add_mul, one_mul]
    exact hjw
  · rw [add_mul, one_mul]
    exact hkh

theorem mem_of_index (l : List tinywl_view) (i : Nat) (v : tinywl_view)
    (h : l[i]? = some v) : v ∈ l := by
  obtain ⟨hi, he⟩ := List.getElem?_eq_some_iff.mp h
  rw [← he]
  exact List.getElem_mem hi

theorem final_view_index (gaps : Nat) (panel : gateway_panel) (output : tinywl_output)
    (v : tinywl_view) (hv : v ∈ (panel_update gaps panel output).views) :
    ∃ k : Nat, v.stack_index = (k : Int) := by
  obtain ⟨_, e2⟩ := panel_update_eq gaps panel output
  obtain ⟨_, _, f3⟩ := layout_views_frame gaps output (panel_update_balanced panel output).2
    (panel_update_balanced panel output).1
  obtain ⟨_, _, b3, _⟩ := panel_update_balanced_spec panel output
  rw [e2] at hv
  obtain ⟨w, hw1, hw2⟩ := mem_of_map_stack_index _ _ f3 v hv
  obtain ⟨k, hk, _⟩ := b3 w hw1
  exact ⟨k, by rw [← hw2, hk]⟩

/-- Two views at positions `idx1 < idx2`, not fullscreen, on mapped stacks of
the output: their rectangles are apart. -/
theorem rectangles_apart (gaps : Nat) (panel : gateway_panel) (output : tinywl_output)
    (idx1 idx2 i1 i2 : Nat) (v1 v2 : tinywl_view) (hfit : layout_fits gaps output)
    (h1 : (panel_update gaps panel output).views[idx1]? = some v1)
    (h2 : (panel_update gaps panel output).views[idx2]? = some v2)
    (hlt : idx1 < idx2)
    (hv1 : v1.stack_index = (i1 : Int)) (hv2 : v2.stack_index = (i2 : Int))
    (hm1 : (stack_at panel.stack_array i1).mapped = true)
    (hm2 : (stack_at panel.stack_array i2).mapped = true)
    (hc1 : output_contains_stack output (i1 : Int) = true)
    (hc2 : output_contains_stack output (i2 : Int) = true)
    (hf1 : v1.is_fullscreen = false) (hf2 : v2.is_fullscreen = false) :
    rect_disjoint v1 v2 := by
  obtain ⟨w0, ha0, _, _, x1, y1, wd1, ht1⟩ :=
    view_rectangle gaps panel output idx1 i1 v1 hfit h1 hv1 hm1 hc1 hf1
  obtain ⟨_, hb0, _, _, x2, y2, wd2, ht2⟩ :=
    view_rectangle gaps panel output idx2 i2 v2 hfit h2 hv2 hm2 hc2 hf2
  have hg0 : (0 : Int) ≤ (gaps : Int) := by positivity
  unfold rect_disjoint
  rcases Nat.lt_trichotomy i1 i2 with hlt12 | heq | hgt
  · left
    have hj := claimed_before_lt output panel.stack_array i1 i2 hlt12 hm1 hc1
    have hle : ((claimed_before output panel.stack_array i1 : Int) + 1) ≤
        (claimed_before output panel.stack_array i2 : Int) := by exact_mod_cast hj
    have hmul := mul_le_mul_of_nonneg_right hle w0
    rw [add_mul, one_mul] at hmul
    rw [x1, wd1, x2]
    omega
  · subst heq
    right
    right
    left
    have hk := (views_on_take_lt _ idx1 idx2 v1 (i1 : Int) h1 hv1 hlt).1
    have hle : ((views_on ((panel_update gaps panel output).views.take idx1) (i1 : Int) : Int)
        + 1) ≤ (views_on ((panel_update gaps panel output).views.take idx2) (i1 : Int) : Int) := by
      exact_mod_cast hk
    have hmul := mul_le_mul_of_nonneg_right hle ha0
    rw [add_mul, one_mul] at hmul
    rw [y1, ht1, y2]
    omega
  · right
    left
    have hj := claimed_before_lt output panel.stack_array i2 i1 hgt hm2 hc2
    have hle : ((claimed_before output panel.stack_array i2 : Int) + 1) ≤
        (claimed_before output panel.stack_array i1 : Int) := by exact_mod_cast hj
    have hmul := mul_le_mul_of_nonneg_right hle w0
    rw [add_mul, one_mul] at hmul
    rw [x2, wd2, x1]
    omega

/-- A view that is not fullscreen, on a mapped stack of the output: its
rectangle is within the output. -/
theorem rectangle_within (gaps : Nat) (panel : gateway_panel) (output : tinywl_output)
    (idx i : Nat) (v : tinywl_view) (hfit : layout_fits gaps output)
    (hidx : (panel_update gaps panel output).views[idx]? = some v)
    (hvi : v.stack_index = (i : Int))
    (hm : (stack_at panel.stack_array i).mapped = true)
    (hc : output_contains_stack output (i : Int) = true)
    (hfs : v.is_fullscreen = false) : rect_inside v output := by
  obtain ⟨w0, h0, jw, kh, x1, y1, wd1, ht1⟩ :=
    view_rectangle gaps panel output idx i v hfit hidx hvi hm hc hfs
  have hg0 : (0 : Int) ≤ (gaps : Int) := by positivity
  have hjw0 : 0 ≤ (claimed_before output panel.stack_array i : Int) *
      Int.tdiv output.width output.stack_array.length :=
    mul_nonneg (by positivity) w0
  have hkh0 : 0 ≤ (views_on ((panel_update gaps panel output).views.take idx) (i : Int) : Int) *
      Int.tdiv output.height (views_on (panel_update gaps panel output).views (i : Int)) :=
    mul_nonneg (by positivity) h0
  rw [add_mul, one_mul] at jw kh
  unfold rect_inside
  rw [x1, y1, wd1, ht1]
  refine ⟨?_, ?_, ?_, ?_⟩ <;> omega

theorem rect_disjoint_symm (a b : tinywl_view) (h : rect_disjoint a b) : rect_disjoint b a := by
  unfold rect_disjoint at h ⊢
  tauto

/-- C27. For an output that fits (size not negative, `int32_t` arithmetic
exact), whose claimed stacks are mapped stacks of the panel, and every gap:
after `panel_update` two views at different positions of the managed list, not
fullscreen and on stacks of the output, have rectangles that are apart, and
each of the two rectangles is within the output's layout rectangle. -/
theorem panel_update_rectangles_disjoint (gaps : Nat) (panel : gateway_panel)
    (output : tinywl_output) (idx1 idx2 : Nat) (v1 v2 : tinywl_view)
    (hfit : layout_fits gaps output)
    (hmapped : ∀ t ∈ output.stack_array,
      0 ≤ t ∧ (stack_at panel.stack_array t.toNat).mapped = true)
    (h1 : (panel_update gaps panel output).views[idx1]? = some v1)
    (h2 : (panel_update gaps panel output).views[idx2]? = some v2)
    (hne : idx1 ≠ idx2)
    (hc1 : output_contains_stack output v1.stack_index = true)
    (hc2 : output_contains_stack output v2.stack_index = true)
    (hf1 : v1.is_fullscreen = false) (hf2 : v2.is_fullscreen = false) :
    rect_disjoint v1 v2 ∧ rect_inside v1 output ∧ rect_inside v2 output := by
  obtain ⟨i1, hv1⟩ := final_view_index gaps panel output v1 (mem_of_index _ _ _ h1)
  obtain ⟨i2, hv2⟩ := final_view_index gaps panel output v2 (mem_of_index _ _ _ h2)
  have hmap : ∀ i : Nat, output_contains_stack output (i : Int) = true →
      (stack_at panel.stack_array i).mapped = true := by
    intro i hi
    unfold output_contains_stack at hi
    obtain ⟨x, hx, hxe⟩ := List.any_eq_true.mp hi
    have hxi : x = (i : Int) := by simpa using hxe
    have := (hmapped x hx).2
    rw [hxi, Int.toNat_ofNat] at this
    exact this
  rw [hv1] at hc1
  rw [hv2] at hc2
  have hm1 := hmap i1 hc1
  have hm2 := hmap i2 hc2
  refine ⟨?_, rectangle_within gaps panel output idx1 i1 v1 hfit h1 hv1 hm1 hc1 hf1,
    rectangle_within gaps panel output idx2 i2 v2 hfit h2 hv2 hm2 hc2 hf2⟩
  rcases Nat.lt_or_gt_of_ne hne with hlt | hgt
  · exact rectangles_apart gaps panel output idx1 idx2 i1 i2 v1 v2 hfit h1 h2 hlt hv1 hv2
      hm1 hm2 hc1 hc2 hf1 hf2
  · exact rect_disjoint_symm _ _
      (rectangles_apart gaps panel output idx2 idx1 i2 i1 v2 v1 hfit h2 h1 hgt hv2 hv1
        hm2 hm1 hc2 hc1 hf2 hf1)

theorem panel_update_rectangles_disjoint_witness :
    rect_disjoint
      ((panel_update 8 (sample_panel ((List.range 5).map xdg_view))
        (sample_output [0, 1, 2, 3])).views.getD 3 (xdg_view 3))
      ((panel_update 8 (sample_panel ((List.range 5).map xdg_view))
        (sample_output [0, 1, 2, 3])).views.getD 4 (xdg_view 4)) ∧
    rect_inside
      ((panel_update 8 (sample_panel ((List.range 5).map xdg_view))
        (sample_output [0, 1, 2, 3])).views.getD 3 (xdg_view 3)) (sample_output [0, 1, 2, 3]) :=
  ⟨(panel_update_rectangles_disjoint 8 (sample_panel ((List.range 5).map xdg_view))
      (sample_output [0, 1, 2, 3]) 3 4
      ((panel_update 8 (sample_panel ((List.range 5).map xdg_view))
        (sample_output [0, 1, 2, 3])).views.getD 3 (xdg_view 3))
      ((panel_update 8 (sample_panel ((List.range 5).map xdg_view))
        (sample_output [0, 1, 2, 3])).views.getD 4 (xdg_view 4))
      (by decide) (by decide) (by decide) (by decide) (by decide) (by decide) (by decide)
      (by decide) (by decide)).1,
    (panel_update_rectangles_disjoint 8 (sample_panel ((List.range 5).map xdg_view))
      (sample_output [0, 1, 2, 3]) 3 4
      ((panel_update 8 (sample_panel ((List.range 5).map xdg_view))
        (sample_output [0, 1, 2, 3])).views.getD 3 (xdg_view 3))
      ((panel_update 8 (sample_panel ((List.range 5).map xdg_view))
        (sample_output [0, 1, 2, 3])).views.getD 4 (xdg_view 4))
      (by decide) (by decide) (by decide) (by decide) (by decide) (by decide) (by decide)
      (by decide) (by decide)).2.1⟩

/-! ## A swap binding on a focused view outside the managed list -/

/-- C23. From the startup state with one output: an override-redirect foreign
window (view 3) is created and mapped, which focuses it; two shell surfaces
(views 1, 2) are created and mapped; `panel_update` runs and moves view 3 to
the redirect list. The managed list 1, 2 has two views, so the swap-with-prev
binding does not return early, and it runs `list_swap(view->link.prev,
&view->link)` on the focused view 3, whose `link.prev` is the head of the
redirect list. After the six assignments of `list_swap` the head of the redirect
list points to itself, and a walk from the head of each of the three lists
meets views 1 and 2 only: view 3 is in no list. -/
theorem swap_prev_drops_redirect_view :
    run_events one_output_server redirect_focus_events = some redirect_focus_server ∧
    redirect_focus_server.passthrough_enabled = false ∧
    redirect_focus_server.focused_panel.views.map (fun v => v.id) = [1, 2] ∧
    redirect_focus_server.focused_panel.redirect_views.map (fun v => v.id) = [3] ∧
    redirect_focus_server.focused_panel.unmapped_views = [] ∧
    redirect_focus_server.focused_panel.focused_view = some 3 ∧
    (panel_links redirect_focus_server.focused_panel).prev (wl_link.view 3) =
      wl_link.head view_list.redirect ∧
    walk_from (panel_links redirect_focus_server.focused_panel) view_list.redirect =
      [wl_link.view 3] ∧
    walk_from (list_swap_links (panel_links redirect_focus_server.focused_panel)
      (wl_link.head view_list.redirect) (wl_link.view 3)) view_list.managed =
      [wl_link.view 1, wl_link.view 2] ∧
    walk_from (list_swap_links (panel_links redirect_focus_server.focused_panel)
      (wl_link.head view_list.redirect) (wl_link.view 3)) view_list.redirect = [] ∧
    walk_from (list_swap_links (panel_links redirect_focus_server.focused_panel)
      (wl_link.head view_list.redirect) (wl_link.view 3)) view_list.unmapped = [] ∧
    (list_swap_links (panel_links redirect_focus_server.focused_panel)
      (wl_link.head view_list.redirect) (wl_link.view 3)).prev
        (wl_link.head view_list.redirect) = wl_link.head view_list.redirect ∧
    apply_event redirect_focus_server (surface_event.swap false) = none := by
  decide

/-! ## The three lists hold each view once -/

theorem view_ids_eq (p : gateway_panel) :
    view_ids p = p.views.map (fun v => v.id) ++ p.redirect_views.map (fun v => v.id) ++
      p.unmapped_views.map (fun v => v.id) := by
  unfold view_ids
  rw [List.map_append, List.map_append]

theorem view_ids_of_same_tags (p q : gateway_panel) (h : same_tags p q) :
    view_ids q = view_ids p := by
  rw [view_ids_eq, view_ids_eq, ids_of_tags _ _ h.1, ids_of_tags _ _ h.2.1,
    ids_of_tags _ _ h.2.2]

/-- The redirect list after the first loop of `panel_update`: the
override-redirect windows of the managed list, last first, before the former
members. -/
theorem redirect_partition_redirect_ids : ∀ (vs red : List tinywl_view),
    (redirect_partition vs red).2.map (fun v => v.id) =
      ((vs.filter (fun v => is_override_redirect v)).map (fun v => v.id)).reverse ++
        red.map (fun v => v.id)
  | [], _ => rfl
  | v :: vs, red => by
    cases hx : v.xwayland_surface with
    | none =>
      have ho : is_override_redirect v = false := by
        simp [is_override_redirect, hx]
      have ih := redirect_partition_redirect_ids vs red
      simp only [redirect_partition, hx, List.filter_cons, ho, Bool.false_eq_true, if_false]
      exact ih
    | some xw =>
      cases hxo : xw.override_redirect with
      | true =>
        have ho : is_override_redirect v = true := by
          simp [is_override_redirect, hx, hxo]
        simp only [redirect_partition, hx, hxo, if_true, List.filter_cons, ho, List.map_cons,
          List.reverse_cons, List.append_assoc, List.singleton_append]
        rw [redirect_partition_redirect_ids vs _]
        rfl
      | false =>
        have ho : is_override_redirect v = false := by
          simp [is_override_redirect, hx, hxo]
        have ih := redirect_partition_redirect_ids vs red
        simp only [redirect_partition, hx, hxo, Bool.false_eq_true, if_false, List.filter_cons,
          ho]
        exact ih

/-- `panel_update` moves views between the managed and the redirect list and
loses or copies none. -/
theorem panel_update_view_ids (gaps : Nat) (p : gateway_panel) (o : tinywl_output) :
    List.Perm (view_ids (panel_update gaps p o)) (view_ids p) := by
  have h1 := ids_of_tags _ _ (panel_update_views_tags gaps p o)
  have h2 : (panel_update gaps p o).redirect_views =
      (redirect_partition p.views p.redirect_views).2 := rfl
  have h3 : (panel_update gaps p o).unmapped_views = p.unmapped_views := rfl
  rw [view_ids_eq, view_ids_eq, h1, h2, h3, redirect_partition_redirect_ids]
  apply List.Perm.append_right
  rw [← List.append_assoc]
  apply List.Perm.append_right
  have h4 : List.Perm
      ((p.views.filter (fun v => !is_override_redirect v)).map (fun v => v.id) ++
        ((p.views.filter (fun v => is_override_redirect v)).map (fun v => v.id)).reverse)
      ((p.views.filter (fun v => is_override_redirect v)).map (fun v => v.id) ++
        (p.views.filter (fun v => !is_override_redirect v)).map (fun v => v.id)) :=
    (List.Perm.append_left _ (List.reverse_perm _)).trans List.perm_append_comm
  refine h4.trans ?_
  rw [← List.map_append]
  exact List.Perm.map _ (List.filter_append_perm _ _)

theorem panel_update_fold_view_ids (gaps : Nat) : ∀ (os : List tinywl_output)
    (p : gateway_panel),
    List.Perm (view_ids (os.foldl (fun q o => panel_update gaps q o) p)) (view_ids p)
  | [], _ => List.Perm.refl _
  | o :: os, p => by
    simp only [List.foldl_cons]
    exact (panel_update_fold_view_ids gaps os _).trans (panel_update_view_ids gaps p o)

theorem focus_view_view_ids (s : tinywl_server) (view : Option Nat) (m : Bool) :
    view_ids (focus_view s view m).focused_panel = view_ids s.focused_panel :=
  view_ids_of_same_tags _ _ (focus_view_same_tags s view m)

theorem center_mouse_view_ids (s : tinywl_server) :
    List.Perm (view_ids (center_mouse s).focused_panel) (view_ids s.focused_panel) := by
  unfold center_mouse
  simp only
  rw [focus_view_view_ids]
  exact panel_update_fold_view_ids s.window_gaps s.focused_panel.outputs s.focused_panel

theorem perm_cons_filter_ne (l : List Nat) (a : Nat) (hn : l.Nodup) (ha : a ∈ l) :
    List.Perm (a :: l.filter (fun i => !decide (i = a))) l := by
  have h1 : l.filter (fun i => !decide (i = a)) = l.erase a := by
    rw [List.Nodup.erase_eq_filter hn a]
    apply List.filter_congr
    intro x _
    by_cases hx : x = a <;> simp [hx]
  rw [h1]
  exact (List.perm_cons_erase ha).symm

theorem view_ids_unlink (id : Nat) (p : gateway_panel) :
    view_ids (unlink_view id p) = (view_ids p).filter (fun i => !decide (i = id)) := by
  rw [view_ids_eq, view_ids_eq]
  unfold unlink_view
  simp only [filter_ids, List.filter_append]

theorem find_view_live (p : gateway_panel) (id : Nat) (v : tinywl_view)
    (h : find_view p id = some v) : v.id = id ∧ id ∈ view_ids p := by
  have h1 := find_view_id p id v h
  refine ⟨h1, ?_⟩
  unfold find_view at h
  have h2 := List.mem_of_find?_eq_some h
  unfold view_ids
  rw [← h1]
  exact List.mem_map_of_mem _ h2

theorem find_view_none (p : gateway_panel) (id : Nat) (h : find_view p id = none) :
    id ∉ view_ids p := by
  unfold find_view at h
  unfold view_ids
  intro hm
  obtain ⟨v, hv, he⟩ := List.mem_map.mp hm
  have := List.find?_eq_none.mp h v hv
  simp [he] at this

/-- Unlinking a view and linking it at the front of the managed list. -/
theorem move_to_front_view_ids (s : tinywl_server) (id : Nat)
    (hn : (view_ids s.focused_panel).Nodup) :
    List.Perm (view_ids (move_to_front s id).focused_panel) (view_ids s.focused_panel) := by
  unfold move_to_front
  cases h : find_view s.focused_panel id with
  | none => exact List.Perm.refl _
  | some v =>
    obtain ⟨hv, hm⟩ := find_view_live _ _ _ h
    have hu := view_ids_unlink id s.focused_panel
    rw [view_ids_eq] at hu
    simp only
    rw [view_ids_eq]
    simp only [List.map_cons, hv, List.cons_append]
    rw [hu]
    exact perm_cons_filter_ne _ _ hn hm

/-- Unlinking a view and linking it at the end of the managed list. -/
theorem link_last_view_ids (s : tinywl_server) (id : Nat)
    (hn : (view_ids s.focused_panel).Nodup) :
    List.Perm (view_ids (link_last s id).focused_panel) (view_ids s.focused_panel) := by
  unfold link_last
  cases h : find_view s.focused_panel id with
  | none => exact List.Perm.refl _
  | some v =>
    obtain ⟨hv, hm⟩ := find_view_live _ _ _ h
    have hu := view_ids_unlink id s.focused_panel
    rw [view_ids_eq] at hu
    simp only
    rw [view_ids_eq]
    simp only [List.map_append, List.map_cons, List.map_nil, hv]
    refine List.Perm.trans ?_ (perm_cons_filter_ne _ _ hn hm)
    rw [← hu]
    simp only [List.append_assoc]
    refine List.Perm.trans ?_ List.perm_middle
    exact List.Perm.append_left _ (List.Perm.refl _)

/-- Unlinking a view and linking it at the front of the unmapped list. -/
theorem move_to_unmapped_view_ids (p : gateway_panel) (id : Nat)
    (hn : (view_ids p).Nodup) :
    List.Perm (view_ids (move_to_unmapped id p)) (view_ids p) := by
  unfold move_to_unmapped
  cases h : find_view p id with
  | none => exact List.Perm.refl _
  | some v =>
    obtain ⟨hv, hm⟩ := find_view_live _ _ _ h
    have hu := view_ids_unlink id p
    rw [view_ids_eq] at hu
    simp only
    rw [view_ids_eq]
    simp only [List.map_cons, hv]
    refine List.Perm.trans ?_ (perm_cons_filter_ne _ _ hn hm)
    rw [← hu]
    exact List.perm_middle

theorem clear_focused_by_view_ids (s : tinywl_server) (id : Nat) :
    view_ids (clear_focused_by s id).focused_panel = view_ids s.focused_panel :=
  view_ids_of_same_tags _ _
    (update_view_same_tags id (set_focused_by false) (set_focused_by_tag false) s.focused_panel)

theorem xdg_surface_map_view_ids (s : tinywl_server) (id : Nat)
    (hn : (view_ids s.focused_panel).Nodup) :
    List.Perm (view_ids (xdg_surface_map s id).focused_panel) (view_ids s.focused_panel) := by
  unfold xdg_surface_map
  simp only
  split_ifs
  · refine (center_mouse_view_ids _).trans ?_
    rw [focus_view_view_ids]
    exact link_last_view_ids s id hn
  · exact link_last_view_ids s id hn

theorem xwayland_surface_map_view_ids (s : tinywl_server) (id : Nat)
    (hn : (view_ids s.focused_panel).Nodup) :
    List.Perm (view_ids (xwayland_surface_map s id).focused_panel)
      (view_ids s.focused_panel) := by
  unfold xwayland_surface_map
  simp only
  split_ifs
  · rw [focus_view_view_ids]
    exact link_last_view_ids s id hn
  · exact link_last_view_ids s id hn

theorem unmap_refocus_view_ids (s : tinywl_server) (id n : Nat)
    (hn : (view_ids s.focused_panel).Nodup) :
    List.Perm (view_ids (unmap_refocus s id n).focused_panel) (view_ids s.focused_panel) := by
  unfold unmap_refocus
  simp only
  refine (center_mouse_view_ids _).trans ?_
  have e : view_ids (clear_focused_by (focus_view s (some n) false) id).focused_panel =
      view_ids s.focused_panel := by
    rw [clear_focused_by_view_ids, focus_view_view_ids]
  have h := move_to_unmapped_view_ids
    (clear_focused_by (focus_view s (some n) false) id).focused_panel id (by rw [e]; exact hn)
  rw [e] at h
  exact h

theorem xdg_surface_unmap_view_ids (s s2 : tinywl_server) (id : Nat)
    (hn : (view_ids s.focused_panel).Nodup) (h : xdg_surface_unmap s id = some s2) :
    List.Perm (view_ids s2.focused_panel) (view_ids s.focused_panel) := by
  unfold xdg_surface_unmap at h
  cases hf : find_view s.focused_panel id with
  | none => simp [hf] at h
  | some v =>
    simp only [hf] at h
    by_cases hfb : v.focused_by = true
    · simp only [hfb, if_true] at h
      cases hl : link_next s.focused_panel id with
      | none => simp [hl] at h
      | some lk =>
        simp only [hl] at h
        cases lk with
        | view n =>
          simp only [Option.some.injEq] at h
          rw [← h]
          exact unmap_refocus_view_ids s id n hn
        | head l =>
          cases l with
          | managed =>
            simp only at h
            by_cases hlen : s.focused_panel.views.length > 1
            · simp only [hlen, if_true] at h
              cases hp : link_prev s.focused_panel id with
              | none => simp [hp] at h
              | some lk2 =>
                simp only [hp] at h
                cases lk2 with
                | view n =>
                  simp only [Option.some.injEq] at h
                  rw [← h]
                  exact unmap_refocus_view_ids s id n hn
                | head l2 => simp at h
            · simp only [hlen, if_false, Option.some.injEq] at h
              rw [← h]
              have e : view_ids (clear_focused_by (with_panel s
                  { s.focused_panel with focused_view := none }) id).focused_panel =
                  view_ids s.focused_panel := by
                rw [clear_focused_by_view_ids]
                rfl
              have hm := move_to_unmapped_view_ids
                (clear_focused_by (with_panel s
                  { s.focused_panel with focused_view := none }) id).focused_panel id
                (by rw [e]; exact hn)
              rw [e] at hm
              exact hm
          | redirect => simp at h
          | unmapped => simp at h
    · simp only [hfb, Bool.false_eq_true, if_false, Option.some.injEq] at h
      rw [← h]
      exact move_to_unmapped_view_ids s.focused_panel id hn

theorem rotate_to_perm (a : wl_link) : ∀ (ring acc r : List wl_link),
    rotate_to a ring acc = some r → List.Perm r (ring ++ acc) ∧ r.head? = some a
  | [], _, _, h => by simp [rotate_to] at h
  | x :: xs, acc, r, h => by
    unfold rotate_to at h
    by_cases hx : x = a
    · simp only [hx, if_true, Option.some.injEq] at h
      subst h
      refine ⟨?_, by simp⟩
      rw [hx]
      exact List.Perm.append_left _ (List.reverse_perm _)
    · simp only [hx, if_false] at h
      obtain ⟨i1, i2⟩ := rotate_to_perm a xs (x :: acc) r h
      exact ⟨i1.trans List.perm_middle, i2⟩

theorem list_swap_perm (ring r : List wl_link) (a b : wl_link)
    (h : list_swap ring a b = some r) : List.Perm r ring := by
  unfold list_swap at h
  cases hr : rotate_to a ring [] with
  | none => simp [hr] at h
  | some t =>
    obtain ⟨p1, _⟩ := rotate_to_perm a ring [] t hr
    rw [List.append_nil] at p1
    rcases t with _ | ⟨x, _ | ⟨y, _ | ⟨z, rest⟩⟩⟩
    · simp [hr] at h
    · simp [hr] at h
    · simp [hr] at h
    · simp only [hr] at h
      by_cases hy : y = b
      · simp only [hy, if_true, Option.some.injEq] at h
        subst h
        rw [← hy]
        exact (List.Perm.swap x y _).trans p1
      · simp [hy] at h

/-- The views read back from a cyclic list that holds the links of the list
`l` and its head, in any order, are the views of `l`. -/
theorem ring_views_perm (l : List tinywl_view) (k : view_list) (ring : List wl_link)
    (hn : (l.map (fun u => u.id)).Nodup)
    (hp : List.Perm ring (wl_link.head k :: l.map (fun v => wl_link.view v.id))) :
    List.Perm (ring_views l (wl_link.head k) ring) l := by
  unfold ring_views
  cases hr : rotate_to (wl_link.head k) ring [] with
  | none => exact List.Perm.refl _
  | some t =>
    obtain ⟨p1, p2⟩ := rotate_to_perm _ ring [] t hr
    rw [List.append_nil] at p1
    cases t with
    | nil => exact List.Perm.refl _
    | cons x rest =>
      simp only [List.head?_cons, Option.some.injEq] at p2
      subst p2
      have p3 : List.Perm rest (l.map (fun v => wl_link.view v.id)) :=
        List.Perm.cons_inv (p1.trans hp)
      simp only
      have p4 := List.Perm.filterMap (fun lk =>
        match lk with
        | wl_link.view id => l.find? (fun v => decide (v.id = id))
        | wl_link.head _ => none) p3
      rw [ring_lookup l hn l (fun _ h => h)] at p4
      exact p4

theorem panel_list_nodup (p : gateway_panel) (l : view_list) (hn : (view_ids p).Nodup) :
    ((panel_list p l).map (fun u => u.id)).Nodup := by
  rw [view_ids_eq] at hn
  rw [List.nodup_append, List.nodup_append] at hn
  cases l with
  | managed => exact hn.1.1
  | redirect => exact hn.1.2.1
  | unmapped => exact hn.2.1

theorem set_panel_list_view_ids (p : gateway_panel) (l : view_list) (vs : List tinywl_view)
    (hp : List.Perm vs (panel_list p l)) :
    List.Perm (view_ids (set_panel_list p l vs)) (view_ids p) := by
  have hm := List.Perm.map (fun v : tinywl_view => v.id) hp
  rw [view_ids_eq, view_ids_eq]
  cases l with
  | managed =>
    exact List.Perm.append_right _ (List.Perm.append_right _ hm)
  | redirect =>
    exact List.Perm.append_right _ (List.Perm.append_left _ hm)
  | unmapped =>
    exact List.Perm.append_left _ hm

theorem swap_binding_view_ids (s : tinywl_server) (cur : Nat) (forward : Bool)
    (r : Bool × tinywl_server) (hn : (view_ids s.focused_panel).Nodup)
    (h : swap_binding s cur forward = some r) :
    List.Perm (view_ids r.2.focused_panel) (view_ids s.focused_panel) := by
  unfold swap_binding at h
  simp only at h
  cases hl : list_of_view s.focused_panel cur with
  | none => simp [hl] at h
  | some l =>
    simp only [hl] at h
    cases ho : (if forward = true then link_next s.focused_panel cur
        else link_prev s.focused_panel cur) with
    | none => simp [ho] at h
    | some o =>
      simp only [ho] at h
      cases hs : (if forward = true then
          list_swap (ring_of s.focused_panel l) (wl_link.view cur) o
        else list_swap (ring_of s.focused_panel l) o (wl_link.view cur)) with
      | none => simp [hs] at h
      | some ring =>
        simp only [hs, Option.some.injEq] at h
        rw [← h]
        refine (center_mouse_view_ids _).trans ?_
        have hperm : List.Perm ring (ring_of s.focused_panel l) := by
          cases forward with
          | true => exact list_swap_perm _ _ _ _ (by simpa using hs)
          | false => exact list_swap_perm _ _ _ _ (by simpa using hs)
        exact set_panel_list_view_ids s.focused_panel l _
          (ring_views_perm _ l ring (panel_list_nodup _ l hn) hperm)

theorem handle_keybinding_swap_result (s : tinywl_server) (forward : Bool)
    (r : Bool × tinywl_server)
    (h : handle_keybinding s (if forward = true then 37 else 36)
      (WLR_MODIFIER_LOGO + WLR_MODIFIER_SHIFT) = some r) :
    r.2 = s ∨ ∃ cur, swap_binding s cur forward = some r := by
  have hm : ¬ ((WLR_MODIFIER_LOGO + WLR_MODIFIER_SHIFT) &&& WLR_MODIFIER_SHIFT = 0) := by decide
  unfold handle_keybinding at h
  cases forward with
  | true =>
    simp only [if_true] at h
    by_cases hp : s.passthrough_enabled = true
    · simp [hp] at h
      left
      rw [← h]
    · have hp2 : s.passthrough_enabled = false := by simpa using hp
      simp only [hp2, Bool.false_and, Bool.false_eq_true, if_false] at h
      simp only [show ¬ (37 : Nat) = 88 by decide, show ¬ (37 : Nat) = 1 by decide,
        show ¬ (37 : Nat) = 36 by decide, show ¬ (37 : Nat) = 38 by decide, false_and,
        true_and, if_false, not_true_eq_false, and_false, ne_eq, not_false_eq_true,
        if_true, hm] at h
      by_cases hlen : s.focused_panel.views.length < 2
      · simp only [hlen, if_true, Option.some.injEq] at h
        left
        rw [← h]
      · simp only [hlen, if_false] at h
        cases hf : s.focused_panel.focused_view with
        | none => simp [hf] at h
        | some cur =>
          simp only [hf] at h
          exact Or.inr ⟨cur, h⟩
  | false =>
    simp only [Bool.false_eq_true, if_false] at h
    by_cases hp : s.passthrough_enabled = true
    · simp [hp] at h
      left
      rw [← h]
    · have hp2 : s.passthrough_enabled = false := by simpa using hp
      simp only [hp2, Bool.false_and, Bool.false_eq_true, if_false] at h
      simp only [show ¬ (36 : Nat) = 88 by decide, show ¬ (36 : Nat) = 1 by decide,
        show ¬ (36 : Nat) = 37 by decide, show ¬ (36 : Nat) = 38 by decide, false_and,
        true_and, if_false, not_true_eq_false, and_false, ne_eq, not_false_eq_true,
        if_true, hm] at h
      by_cases hlen : s.focused_panel.views.length < 2
      · simp only [hlen, if_true, Option.some.injEq] at h
        left
        rw [← h]
      · simp only [hlen, if_false] at h
        cases hf : s.focused_panel.focused_view with
        | none => simp [hf] at h
        | some cur =>
          simp only [hf] at h
          exact Or.inr ⟨cur, h⟩

theorem panel_post_update_view_ids (p : gateway_panel) :
    List.Perm (view_ids (panel_post_update p)) (view_ids p) := by
  rw [view_ids_eq, view_ids_eq]
  unfold panel_post_update
  simp only [List.map_append, List.map_reverse, List.map_nil, List.append_nil]
  refine List.Perm.append_right _ ?_
  exact (List.Perm.append_right _ (List.reverse_perm _)).trans List.perm_append_comm

/-- One operation keeps every view in the lists, and adds the view it creates. -/
theorem apply_event_view_ids (s s2 : tinywl_server) (e : surface_event)
    (hn : (view_ids s.focused_panel).Nodup) (h : apply_event s e = some s2) :
    List.Perm (view_ids s2.focused_panel) (created_ids [e] ++ view_ids s.focused_panel) := by
  cases e with
  | new_xdg id xdg =>
    simp only [apply_event] at h
    split_ifs at h
    simp only [Option.some.injEq] at h
    rw [← h, view_ids_eq, view_ids_eq]
    simp only [server_new_xdg_surface, created_ids, List.map_cons, List.cons_append,
      List.nil_append]
    exact List.perm_middle
  | new_xwayland id xw =>
    simp only [apply_event] at h
    split_ifs at h
    simp only [Option.some.injEq] at h
    rw [← h, view_ids_eq, view_ids_eq]
    simp only [server_new_xwayland_surface, created_ids, List.map_cons, List.cons_append,
      List.nil_append]
    exact List.perm_middle
  | map_xdg id =>
    simp only [apply_event, Option.some.injEq] at h
    rw [← h]
    exact xdg_surface_map_view_ids s id hn
  | map_xwayland id =>
    simp only [apply_event, Option.some.injEq] at h
    rw [← h]
    exact xwayland_surface_map_view_ids s id hn
  | unmap id =>
    simp only [apply_event] at h
    exact xdg_surface_unmap_view_ids s s2 id hn h
  | update output =>
    simp only [apply_event, Option.some.injEq] at h
    rw [← h]
    exact panel_update_view_ids s.window_gaps s.focused_panel output
  | post_update =>
    simp only [apply_event, Option.some.injEq] at h
    rw [← h]
    exact panel_post_update_view_ids s.focused_panel
  | to_front id =>
    simp only [apply_event, Option.some.injEq] at h
    rw [← h]
    exact move_to_front_view_ids s id hn
  | swap forward =>
    simp only [apply_event] at h
    cases hk : handle_keybinding s (if forward = true then 37 else 36)
        (WLR_MODIFIER_LOGO + WLR_MODIFIER_SHIFT) with
    | none => simp [hk] at h
    | some r =>
      simp only [hk, Option.map_some', Option.some.injEq] at h
      rw [← h]
      rcases handle_keybinding_swap_result s forward r hk with h1 | ⟨cur, h1⟩
      · rw [h1]
        exact List.Perm.refl _
      · exact swap_binding_view_ids s cur forward r hn h1

/-- A creation is a step only for an address no view in the lists has. -/
theorem apply_event_fresh (s s2 : tinywl_server) (e : surface_event)
    (h : apply_event s e = some s2) :
    ∀ i ∈ created_ids [e], i ∉ view_ids s.focused_panel := by
  cases e with
  | new_xdg id xdg =>
    simp only [apply_event] at h
    split_ifs at h with hf
    intro i hi
    simp only [created_ids, List.mem_singleton] at hi
    rw [hi]
    apply find_view_none
    simpa using hf
  | new_xwayland id xw =>
    simp only [apply_event] at h
    split_ifs at h with hf
    intro i hi
    simp only [created_ids, List.mem_singleton] at hi
    rw [hi]
    apply find_view_none
    simpa using hf
  | map_xdg id => intro i hi; simp [created_ids] at hi
  | map_xwayland id => intro i hi; simp [created_ids] at hi
  | unmap id => intro i hi; simp [created_ids] at hi
  | update output => intro i hi; simp [created_ids] at hi
  | post_update => intro i hi; simp [created_ids] at hi
  | to_front id => intro i hi; simp [created_ids] at hi
  | swap forward => intro i hi; simp [created_ids] at hi

theorem created_ids_single_nodup (e : surface_event) : (created_ids [e]).Nodup := by
  cases e <;> simp [created_ids]

theorem created_ids_cons (e : surface_event) (es : List surface_event) :
    created_ids (e :: es) = created_ids [e] ++ created_ids es := by
  cases e <;> simp [created_ids]

/-- One operation leaves no view in two lists or twice in a list. -/
theorem apply_event_nodup (s s2 : tinywl_server) (e : surface_event)
    (hn : (view_ids s.focused_panel).Nodup) (h : apply_event s e = some s2) :
    (view_ids s2.focused_panel).Nodup := by
  rw [List.Perm.nodup_iff (apply_event_view_ids s s2 e hn h)]
  rw [List.nodup_append]
  refine ⟨created_ids_single_nodup e, hn, ?_⟩
  intro i hi hj
  exact apply_event_fresh s s2 e h i hi hj

/-- The views in the three lists after a sequence of operations that all return:
the views of the start and the views created, each once. -/
theorem run_events_view_ids : ∀ (evs : List surface_event) (s s2 : tinywl_server),
    (view_ids s.focused_panel).Nodup → run_events s evs = some s2 →
    (view_ids s2.focused_panel).Nodup ∧
      List.Perm (view_ids s2.focused_panel) (created_ids evs ++ view_ids s.focused_panel)
  | [], s, s2, hn, h => by
    simp only [run_events, Option.some.injEq] at h
    rw [← h]
    exact ⟨hn, List.Perm.refl _⟩
  | e :: es, s, s2, hn, h => by
    simp only [run_events] at h
    cases h1 : apply_event s e with
    | none => simp [h1] at h
    | some s1 =>
      simp only [h1] at h
      have n1 := apply_event_nodup s s1 e hn h1
      have p1 := apply_event_view_ids s s1 e hn h1
      obtain ⟨n2, p2⟩ := run_events_view_ids es s1 s2 n1 h
      refine ⟨n2, p2.trans ?_⟩
      rw [created_ids_cons, List.append_assoc]
      refine ((List.Perm.append_left _ p1).trans ?_)
      rw [← List.append_assoc, ← List.append_assoc]
      exact List.Perm.append_right _ List.perm_append_comm

/-- After `panel_post_update` the redirect list is empty and its former members
are in the managed list. -/
theorem panel_post_update_lists (p : gateway_panel) :
    (panel_post_update p).redirect_views = [] ∧
      ∀ v ∈ p.redirect_views, v ∈ (panel_post_update p).views := by
  refine ⟨rfl, ?_⟩
  intro v hv
  show v ∈ p.redirect_views.reverse ++ p.views
  exact List.mem_append_left _ (List.mem_reverse.mpr hv)

end Gateway
